import Mathlib

/-! # pr1: a stack machine over linked-list decimal numbers

A verification development for `src/pr1/pr1.cpp`.

Two levels are embedded.

* `linked_list` is embedded at the pointer level: nodes live in a heap indexed by
  addresses, every node has a value and the two links `next_` and `prev_`, and a
  list is the pair of its `head_` and `tail_` pointers.  The pointer surgery of
  `splice_in` is translated statement by statement.
* `ll_item` (a number) and the `cpu` are embedded over the element sequence of the
  underlying `linked_list<char>`, written head first.  The primitives act on that
  sequence as follows: `insert_after(tail(), c)` adds `c` at the end,
  `insert_before(head(), c)` adds `c` at the front, `remove(tail())` drops the last
  element and `remove(head())` drops the first one.  A lambda that walks the chain
  with `prev()` starting from `tail()` sees the sequence reversed.

`char` values are Lean characters; `c - '0'` and `d + '0'` are computed on the
character codes as C++ does on `int`.  The integer type `T` of `from_number` and
`into_number` is embedded as `Int`, which is the computation of the source as long
as the values stay in the range of `T`.  The two instantiations of `into_number`
that the source uses are embedded with their range: `into_size_t` for
`into_number<size_t>`, which computes modulo `2 ^ 64`, and `into_int` for
`into_number<int>`, which has no result on a signed overflow.
-/

namespace pr1

/-! ## Characters -/

/-- The `int` obtained from `c - '0'`. -/
def digit_value (c : Char) : Int := (c.toNat : Int) - ('0'.toNat : Int)

/-- The `char` obtained from `d + '0'` for an `int` `d`. -/
def digit_char (d : Int) : Char := Char.ofNat (d + ('0'.toNat : Int)).toNat

/-! ## `ll_item`: numbers as element sequences -/

/-- A number: the element sequence of `value_`, head (least significant) first. -/
structure ll_item where
  value_ : List Char
deriving DecidableEq, Repr

namespace ll_item

/-- The lambda `do_format` of `from_number`; `fuel` bounds the recursion depth. -/
def from_number.do_format : Nat → Int → List Char → List Char
  | 0, _, out => out
  | fuel + 1, value, out =>
    let out := out ++ [digit_char (value.tmod 10)]
    let value := value.tdiv 10
    if value = 0 then out else from_number.do_format fuel value out

/-- Embedding of `ll_item::copy`. -/
def copy (x : ll_item) : ll_item := ⟨x.value_⟩

/-- Embedding of `ll_item::is_truthy`. -/
def is_truthy (x : ll_item) : Bool :=
  match x.value_ with
  | [] => false
  | [c] => !(c == '0')
  | _ :: _ :: _ => true

/-- Embedding of `ll_item::is_negative`. -/
def is_negative (x : ll_item) : Bool :=
  match x.value_.getLast? with
  | none => false
  | some c => c == '-'

/-- Embedding of `ll_item::negate`. -/
def negate (x : ll_item) : ll_item :=
  if x.is_negative then ⟨x.value_.dropLast⟩ else ⟨x.value_ ++ ['-']⟩

/-- Embedding of `ll_item::make_absolute`. -/
def make_absolute (x : ll_item) : ll_item :=
  if x.is_negative then ⟨x.value_.dropLast⟩ else x

/-- Embedding of `ll_item::prepend`. -/
def prepend (x : ll_item) (c : Char) : ll_item := ⟨c :: x.value_⟩

/-- Embedding of `ll_item::append`. -/
def append (x : ll_item) (c : Char) : ll_item := ⟨x.value_ ++ [c]⟩

/-- Embedding of `ll_item::from_char`. -/
def from_char (c : Char) : ll_item := (ll_item.mk []).prepend c

/-- Embedding of `ll_item::from_number`; the recursion of `do_format` divides
`value` by ten each time, so `value.natAbs + 1` calls are never exceeded. -/
def from_number (value : Int) : ll_item :=
  let out : ll_item := ⟨from_number.do_format (value.natAbs + 1) value []⟩
  if value < 0 then out.negate else out

/-- The lambda `do_parse` of `into_number`, walking from the tail with `prev()`:
the argument is the part of the reversed sequence that is still to be read. -/
def into_number.do_parse : List Char → Int → Int
  | [], out => out
  | c :: rest, out =>
    let out := out * 10
    let out := if c != '-' then out + digit_value c else out
    into_number.do_parse rest out

/-- Embedding of `ll_item::into_number`. -/
def into_number (x : ll_item) : Int :=
  let out := into_number.do_parse x.value_.reverse 0
  if x.is_negative then -out else out

/-- The values of the type `int`, taken as 32 bits wide. -/
def fits_int (v : Int) : Bool := decide (-(2 : Int) ^ 31 ≤ v) && decide (v < (2 : Int) ^ 31)

/-- The lambda `do_parse` of `into_number<int>`: as `into_number.do_parse`, with
every result of `out *= 10` and `out += ...` checked against the range of `int`;
`none` stands for a signed overflow, on which the behaviour is undefined. -/
def into_int.do_parse : List Char → Int → Option Int
  | [], out => some out
  | c :: rest, out =>
    let out := out * 10
    if fits_int out then
      let out := if c != '-' then out + digit_value c else out
      if fits_int out then into_int.do_parse rest out else none
    else none

/-- Embedding of `ll_item::into_number` at `T = int`; `none` stands for a signed
overflow. -/
def into_int (x : ll_item) : Option Int :=
  match into_int.do_parse x.value_.reverse 0 with
  | none => none
  | some out =>
    if x.is_negative then (if fits_int (-out) then some (-out) else none) else some out

/-- Embedding of `ll_item::detach_first`: the first character and the rest;
`none` when `head()` is null. -/
def detach_first (x : ll_item) : Option (Char × ll_item) :=
  match x.value_ with
  | [] => none
  | c :: rest => some (c, ⟨rest⟩)

/-- The lambda `do_trim` of `trim_zeros`, walking from the tail with `prev()`:
the argument is the chain from `cur` back to the head, and the result is what is
left of it. -/
def trim_zeros.do_trim : List Char → List Char
  | [] => []
  | [c] => [c]
  | c :: d :: rest => if c != '0' then c :: d :: rest else trim_zeros.do_trim (d :: rest)

/-- Embedding of `ll_item::trim_zeros`. -/
def trim_zeros (x : ll_item) : ll_item :=
  ⟨(trim_zeros.do_trim x.value_.reverse).reverse⟩

/-- The lambda `do_check` of `numerically_zero`, walking from the head. -/
def numerically_zero.do_check : List Char → Bool
  | [] => true
  | c :: rest => if c != '0' then false else numerically_zero.do_check rest

/-- Embedding of `ll_item::numerically_zero`. -/
def numerically_zero (x : ll_item) : Bool :=
  numerically_zero.do_check x.value_

/-- The lambda `do_compare` of `numerically_equal` from the call at which `left`
is null: `left` stays null and only `right` advances. -/
def numerically_equal.do_compare_left_null : List Char → Bool
  | [] => true
  | r :: rs => if r != '0' then false else numerically_equal.do_compare_left_null rs

/-- The lambda `do_compare` of `numerically_equal`, walking both chains from
their heads. -/
def numerically_equal.do_compare : List Char → List Char → Bool
  | [], right => numerically_equal.do_compare_left_null right
  | l :: ls, [] => if l != '0' then false else numerically_equal.do_compare ls []
  | l :: ls, r :: rs => if l != r then false else numerically_equal.do_compare ls rs

/-- Embedding of `ll_item::numerically_equal`, on its two operands. -/
def numerically_equal (self other : ll_item) : Bool :=
  let a_neg := self.is_negative
  let b_neg := other.is_negative
  let self := self.make_absolute
  let other := other.make_absolute
  let a_neg := if self.numerically_zero then false else a_neg
  let b_neg := if other.numerically_zero then false else b_neg
  if a_neg != b_neg then false
  else numerically_equal.do_compare self.value_ other.value_

/-- The lambda `do_compare` of `numerically_lesser`, walking both chains from
their tails with `prev()`: the arguments are the reversed sequences. -/
def numerically_lesser.do_compare : List Char → List Char → Bool
  | _ :: _, [] => false
  | [], _ :: _ => true
  | [], [] => false
  | l :: ls, r :: rs =>
    if l < r then true
    else if l > r then false
    else numerically_lesser.do_compare ls rs

/-- Embedding of `ll_item::numerically_lesser`, on its two operands. -/
def numerically_lesser (self other : ll_item) : Bool :=
  let a_neg := self.is_negative
  let b_neg := other.is_negative
  let self := self.make_absolute
  let other := other.make_absolute
  let a_neg := if self.numerically_zero then false else a_neg
  let b_neg := if other.numerically_zero then false else b_neg
  let self := self.trim_zeros
  let other := other.trim_zeros
  if a_neg && !b_neg then true
  else if !a_neg && b_neg then false
  else
    let l_ptr := self.value_.reverse
    let r_ptr := other.value_.reverse
    if a_neg then numerically_lesser.do_compare r_ptr l_ptr
    else numerically_lesser.do_compare l_ptr r_ptr

/-- The body of one call of the lambda `do_digit` of `add`: the character that is
appended and the carry that is passed on. -/
def add.digit_step (op : Int → Int → Int) (l_digit r_digit carry : Int) : Char × Int :=
  let answer := op l_digit r_digit + carry
  let a_digit := answer.tmod 10
  let a_carry := answer.tdiv 10
  if a_digit < 0 then (digit_char (10 + a_digit), -1)
  else (digit_char a_digit, a_carry)

/-- The lambda `do_digit` of `add` from the call at which `left` is null: `left`
stays null, contributing the digit `0`, and only `right` advances. -/
def add.do_digit_left_null (op : Int → Int → Int) :
    List Char → Int → ll_item → ll_item × Int
  | [], carry, out => (out, carry)
  | r :: rs, carry, out =>
    let s := add.digit_step op 0 (digit_value r) carry
    add.do_digit_left_null op rs s.2 (out.append s.1)

/-- The lambda `do_digit` of `add`, walking both chains from their heads; an
exhausted chain contributes the digit `0`.  Returns `out` and the final carry. -/
def add.do_digit (op : Int → Int → Int) :
    List Char → List Char → Int → ll_item → ll_item × Int
  | [], right, carry, out => add.do_digit_left_null op right carry out
  | l :: ls, [], carry, out =>
    let s := add.digit_step op (digit_value l) 0 carry
    add.do_digit op ls [] s.2 (out.append s.1)
  | l :: ls, r :: rs, carry, out =>
    let s := add.digit_step op (digit_value l) (digit_value r) carry
    add.do_digit op ls rs s.2 (out.append s.1)

/-- The function `plus` of `add`. -/
def add.plus (a b : Int) : Int := a + b

/-- The function `minus` of `add`. -/
def add.minus (a b : Int) : Int := a - b

/-- Embedding of `ll_item::add`, on its two operands. -/
def add (self other : ll_item) : ll_item :=
  let out : ll_item := ⟨[]⟩
  let a_neg := self.is_negative
  let b_neg := other.is_negative
  let self := self.make_absolute
  let other := other.make_absolute
  let a_neg := if self.numerically_zero then false else a_neg
  let b_neg := if other.numerically_zero then false else b_neg
  let l_ptr := self.value_
  let r_ptr := other.value_
  let sel : List Char × List Char × (Int → Int → Int) × Bool :=
    if a_neg != b_neg then
      (r_ptr, l_ptr, add.minus,
        if self.copy.numerically_lesser other.copy then b_neg else !a_neg)
    else if a_neg && b_neg then (l_ptr, r_ptr, add.plus, true)
    else (l_ptr, r_ptr, add.plus, false)
  let res := add.do_digit sel.2.2.1 sel.1 sel.2.1 0 out
  let out := res.1
  let final_carry := res.2
  let negate_result := if final_carry < 0 then !sel.2.2.2 else sel.2.2.2
  let final_carry := if final_carry < 0 then -final_carry else final_carry
  let out := if final_carry != 0 then out.append (digit_char (final_carry.tmod 10)) else out
  let out := out.trim_zeros
  if negate_result && out.is_truthy then out.negate else out

/-- The statements of `add` that follow the digit loop, on the pair of `out` and
the final carry that the loop returns and on `negate_result`. -/
def add.finish (res : ll_item × Int) (negate_result : Bool) : ll_item :=
  let final_carry := res.2
  let negate_result := if final_carry < 0 then !negate_result else negate_result
  let final_carry := if final_carry < 0 then -final_carry else final_carry
  let out := if final_carry != 0 then res.1.append (digit_char (final_carry.tmod 10)) else res.1
  let out := out.trim_zeros
  if negate_result && out.is_truthy then out.negate else out

end ll_item

/-! ## `linked_list`: the pointer level -/

/-- A `linked_list<T>::node`: the value and the two links; a link is the address
of a node or null. -/
structure node (T : Type) where
  value : T
  next_ : Option Nat
  prev_ : Option Nat

/-- The free store: which node, if any, is allocated at each address. -/
abbrev heap (T : Type) := Nat → Option (node T)

/-- Assignment through a node pointer: the node at address `a` becomes `n`. -/
def heap.write {T : Type} (h : heap T) (a : Nat) (n : node T) : heap T :=
  fun b => if b = a then some n else h b

/-- A `linked_list<T>`: the members `head_` and `tail_`. -/
structure linked_list where
  head_ : Option Nat
  tail_ : Option Nat
deriving DecidableEq, Repr

namespace linked_list

/-- Embedding of `linked_list::splice_in`, called as `self.splice_in(other)`.
The result is the heap and the two lists after the call; `none` stands for a
failed `assert` or a null pointer dereference. -/
def splice_in {T : Type} (h : heap T) (self other : linked_list) :
    Option (heap T × linked_list × linked_list) :=
  match other.tail_ with
  | none => if other.head_.isSome then none else some (h, self, other)
  | some other_tail =>
    match self.tail_ with
    | none => if self.head_.isSome then none else some (h, other, self)
    | some tail =>
      match h tail with
      | none => none
      | some tail_node =>
        let h := h.write tail { tail_node with next_ := other.head_ }
        match other.head_ with
        | none => none
        | some other_head =>
          match h other_head with
          | none => none
          | some other_head_node =>
            let h := h.write other_head { other_head_node with prev_ := some tail }
            some (h, { head_ := self.head_, tail_ := some other_tail },
              { head_ := none, tail_ := none })

/-- The assignment `a->next_ = v`; `none` when no node is allocated at `a`. -/
def set_next {T : Type} (h : heap T) (a : Nat) (v : Option Nat) : Option (heap T) :=
  match h a with
  | none => none
  | some nd => some (h.write a { nd with next_ := v })

/-- The assignment `a->prev_ = v`; `none` when no node is allocated at `a`. -/
def set_prev {T : Type} (h : heap T) (a : Nat) (v : Option Nat) : Option (heap T) :=
  match h a with
  | none => none
  | some nd => some (h.write a { nd with prev_ := v })

/-- The statement `delete a`. -/
def free {T : Type} (h : heap T) (a : Nat) : heap T :=
  fun b => if b = a then none else h b

/-- Embedding of `linked_list::insert_after`; `n` is the address that `new`
returns for the node of `u`.  The result is the heap, the list and the returned
pointer; `none` stands for a failed `assert` or a null pointer dereference. -/
def insert_after {T : Type} (h : heap T) (l : linked_list) (after : Option Nat) (n : Nat)
    (u : T) : Option (heap T × linked_list × Nat) :=
  match after with
  | none =>
    if l.head_.isSome then none
    else if l.tail_.isSome then none
    else some (h.write n ⟨u, none, none⟩, { head_ := some n, tail_ := some n }, n)
  | some a => do
    let h := h.write n ⟨u, none, none⟩
    let h ← set_prev h n (some a)
    let an ← h a
    let h ← set_next h n an.next_
    let an ← h a
    let h ← (match an.next_ with
      | none => some h
      | some x => set_prev h x (some n))
    let nn ← h n
    let p ← nn.prev_
    let h ← set_next h p (some n)
    some (h, if some a = l.tail_ then { l with tail_ := some n } else l, n)

/-- Embedding of `linked_list::insert_before`; `n` is the address that `new`
returns for the node of `u`. -/
def insert_before {T : Type} (h : heap T) (l : linked_list) (before : Option Nat) (n : Nat)
    (u : T) : Option (heap T × linked_list × Nat) :=
  match before with
  | none =>
    if l.head_.isSome then none
    else if l.tail_.isSome then none
    else some (h.write n ⟨u, none, none⟩, { head_ := some n, tail_ := some n }, n)
  | some b => do
    let h := h.write n ⟨u, none, none⟩
    let h ← set_next h n (some b)
    let bn ← h b
    let h ← set_prev h n bn.prev_
    let bn ← h b
    let h ← (match bn.prev_ with
      | none => some h
      | some x => set_next h x (some n))
    let nn ← h n
    let q ← nn.next_
    let h ← set_prev h q (some n)
    some (h, if some b = l.head_ then { l with head_ := some n } else l, n)

/-- Embedding of `linked_list::remove`. -/
def remove {T : Type} (h : heap T) (l : linked_list) (that : Nat) :
    Option (heap T × linked_list) := do
  let tn ← h that
  let l := if some that = l.head_ then { l with head_ := tn.next_ } else l
  let l := if some that = l.tail_ then { l with tail_ := tn.prev_ } else l
  let h ← (match tn.prev_ with
    | none => some h
    | some p => set_next h p tn.next_)
  let tn ← h that
  let h ← (match tn.next_ with
    | none => some h
    | some x => set_prev h x tn.prev_)
  some (free h that, l)

/-- The chain that starts at `cur` consists of exactly the nodes `cells` (address
and value of each, in order): every node points back to its predecessor, the
first one to `prev`, and the `next_` link of the last one is null. -/
def chain {T : Type} (h : heap T) : Option Nat → Option Nat → List (Nat × T) → Prop
  | _, cur, [] => cur = none
  | prev, cur, c :: rest =>
    match h c.1 with
    | none => False
    | some n => cur = some c.1 ∧ n.value = c.2 ∧ n.prev_ = prev ∧
        chain h (some c.1) n.next_ rest

/-- The list `l` is well formed in the heap `h` and consists of the nodes
`cells`: the chain from `head_` is `cells`, the head has no predecessor, `tail_`
is the last node, and no node occurs twice. -/
def owns {T : Type} (h : heap T) (l : linked_list) (cells : List (Nat × T)) : Prop :=
  chain h none l.head_ cells ∧ l.tail_ = cells.getLast?.map Prod.fst ∧
    (cells.map Prod.fst).Nodup

end linked_list

/-! ## `ll_stack` and `cpu` -/

/-- An `ll_stack<ll_item>`: the element sequence of `ll_`, head first (the top of
the stack is the tail), and the counter `depth_`. -/
structure ll_stack where
  ll_ : List ll_item
  depth_ : Nat
deriving DecidableEq, Repr

namespace ll_stack

/-- Embedding of `ll_stack::push`. -/
def push (s : ll_stack) (u : ll_item) : ll_stack := ⟨s.ll_ ++ [u], s.depth_ + 1⟩

/-- Embedding of `ll_stack::pop`; `none` when `tail()` is null. -/
def pop (s : ll_stack) : Option (ll_item × ll_stack) :=
  match s.ll_.getLast? with
  | none => none
  | some v => some (v, ⟨s.ll_.dropLast, s.depth_ - 1⟩)

/-- The lambda `do_peek` of `peek`, walking from the tail with `prev()`; `none`
when the node it returns is null. -/
def peek.do_peek : List ll_item → Nat → Option ll_item
  | [], _ => none
  | n :: _, 0 => some n
  | _ :: rest, left + 1 => peek.do_peek rest left

/-- Embedding of `ll_stack::peek`, read through the reference it returns. -/
def peek (s : ll_stack) (index : Nat) : Option ll_item :=
  peek.do_peek s.ll_.reverse index

/-- Assignment through the reference returned by `peek()`: the top becomes `v`. -/
def set_top (s : ll_stack) (v : ll_item) : ll_stack := ⟨s.ll_.dropLast ++ [v], s.depth_⟩

end ll_stack

/-- The interpreter: the stack, the program text up to its terminator, the
characters still to be read from standard input and the characters written to
standard output so far. -/
structure cpu where
  stack_ : ll_stack
  program_ : List Char
  stdin : List Char
  stdout : List Char
deriving DecidableEq, Repr

namespace cpu

/-- The character `getchar()` yields, converted to `char`, and the rest of the
input; at the end of the input `EOF` is converted to the byte 255. -/
def getchar (input : List Char) : Char × List Char :=
  match input with
  | [] => (Char.ofNat 255, [])
  | c :: rest => (c, rest)

/-- The value of `into_number<size_t>`: arithmetic modulo `2 ^ 64`. -/
def into_size_t (x : ll_item) : Nat := (x.into_number % (2 : Int) ^ 64).toNat

/-- The `char` an `int` is narrowed to. -/
def to_char (ord : Int) : Char := Char.ofNat (ord % 256).toNat

/-- The lambda `do_dump` of `dump_stack`, walking from the head; returns the
output with the lines added, `none` when `cur` is null. -/
def dump_stack.do_dump : List ll_item → Nat → List Char → Option (List Char)
  | _, 0, out => some out
  | [], _ + 1, _ => none
  | cur :: rest, depth + 1, out =>
    dump_stack.do_dump rest depth
      (out ++ (Nat.repr depth).toList ++ [':', ' '] ++ cur.value_ ++ ['\n'])

/-- Embedding of `cpu::dump_stack`. -/
def dump_stack (c : cpu) : Option cpu :=
  match dump_stack.do_dump c.stack_.ll_ c.stack_.depth_ c.stdout with
  | none => none
  | some out => some { c with stdout := out }

/-- Embedding of `cpu::single_step`; `pc` is the offset of the instruction in the
program text.  The result is the machine after the step and the next offset,
where `none` for the offset is the null pointer that stops `run`; an outer
`none` stands for a null pointer dereference or a read outside the text. -/
def single_step (c : cpu) (pc : Nat) : Option (cpu × Option Nat) :=
  if pc > c.program_.length then none else
  let insn := c.program_.getD pc (Char.ofNat 0)
  if insn = Char.ofNat 0 then some (c, none) else
  let next_pc := pc + 1
  match insn with
  | '\'' => some ({ c with stack_ := c.stack_.push ⟨[]⟩ }, some next_pc)
  | ',' => do
    let (_, s) ← c.stack_.pop
    some ({ c with stack_ := s }, some next_pc)
  | ':' => do
    let v ← c.stack_.peek 0
    some ({ c with stack_ := c.stack_.push v.copy }, some next_pc)
  | ';' => do
    let (a, s) ← c.stack_.pop
    let (b, s) ← s.pop
    some ({ c with stack_ := (s.push a).push b }, some next_pc)
  | '@' => do
    let (i, s) ← c.stack_.pop
    let v ← s.peek (into_size_t i)
    some ({ c with stack_ := s.push v.copy }, some next_pc)
  | '.' => do
    let v ← c.stack_.peek 0
    let g := getchar c.stdin
    some ({ c with stack_ := c.stack_.set_top (v.prepend g.1), stdin := g.2 }, some next_pc)
  | '>' => do
    let (v, s) ← c.stack_.pop
    let (chr, _) ← v.detach_first
    some ({ c with stack_ := s, stdout := c.stdout ++ [chr] }, some next_pc)
  | '!' => do
    let (v, s) ← c.stack_.pop
    let r := ll_item.from_number (if !v.is_truthy then 1 else 0)
    some ({ c with stack_ := s.push r }, some next_pc)
  | '<' => do
    let (a, s) ← c.stack_.pop
    let (b, s) ← s.pop
    let r := ll_item.from_number (if b.numerically_lesser a then 1 else 0)
    some ({ c with stack_ := s.push r }, some next_pc)
  | '=' => do
    let (a, s) ← c.stack_.pop
    let (b, s) ← s.pop
    let r := ll_item.from_number (if a.numerically_equal b then 1 else 0)
    some ({ c with stack_ := s.push r }, some next_pc)
  | '~' => some ({ c with stack_ := c.stack_.push (ll_item.from_number (pc : Int)) }, some next_pc)
  | '?' => do
    let (t, s) ← c.stack_.pop
    let (w, s) ← s.pop
    some ({ c with stack_ := s }, some (if w.is_truthy then into_size_t t else next_pc))
  | '-' => do
    let v ← c.stack_.peek 0
    some ({ c with stack_ := c.stack_.set_top v.negate }, some next_pc)
  | '^' => do
    let v ← c.stack_.peek 0
    some ({ c with stack_ := c.stack_.set_top v.make_absolute }, some next_pc)
  | '$' => do
    let v ← c.stack_.peek 0
    let (chr, v) ← v.detach_first
    some ({ c with stack_ := (c.stack_.set_top v).push (ll_item.from_char chr) }, some next_pc)
  | '#' => do
    let (lst, s) ← c.stack_.pop
    let v ← s.peek 0
    some ({ c with stack_ := s.set_top ⟨v.value_ ++ lst.value_⟩ }, some next_pc)
  | '+' => do
    let (a, s) ← c.stack_.pop
    let (b, s) ← s.pop
    some ({ c with stack_ := s.push (a.add b) }, some next_pc)
  | '&' => do
    let c ← c.dump_stack
    some (c, some next_pc)
  | ']' => do
    let (v, s) ← c.stack_.pop
    some ({ c with stack_ := s.push (ll_item.from_char (to_char v.into_number)) }, some next_pc)
  | '[' => do
    let (v, s) ← c.stack_.pop
    let (chr, _) ← v.detach_first
    some ({ c with stack_ := s.push (ll_item.from_number (chr.toNat : Int)) }, some next_pc)
  | _ => do
    let v ← c.stack_.peek 0
    some ({ c with stack_ := c.stack_.set_top (v.prepend insn) }, some next_pc)

/-- Embedding of `cpu::run(pc)`; `fuel` bounds the number of steps.  The result
is the machine when `single_step` returns null; `none` when a step fails or the
fuel is used up. -/
def run : Nat → cpu → Nat → Option cpu
  | 0, _, _ => none
  | fuel + 1, c, pc =>
    match c.single_step pc with
    | none => none
    | some (c, none) => some c
    | some (c, some next_pc) => run fuel c next_pc

end cpu

/-! ## Reading a number -/

/-- A decimal digit character. -/
def is_digit (c : Char) : Bool := decide ('0' ≤ c) && decide (c ≤ '9')

namespace ll_item

/-- The digit elements of a number: its sequence without the sign marker at the
tail, when there is one. -/
def digits (x : ll_item) : List Char :=
  if x.value_.getLast? = some '-' then x.value_.dropLast else x.value_

/-- A well-formed number: every element is a decimal digit, except for an optional
sign marker at the tail. -/
def well_formed (x : ll_item) : Prop := ∀ c ∈ x.digits, is_digit c = true

instance (x : ll_item) : Decidable x.well_formed := by
  unfold well_formed; infer_instance

/-- The natural number written by a sequence of digits, least significant first. -/
def magnitude : List Char → Int
  | [] => 0
  | c :: rest => digit_value c + 10 * magnitude rest

/-- The integer a number denotes. -/
def denote (x : ll_item) : Int :=
  if x.value_.getLast? = some '-' then -magnitude x.digits else magnitude x.digits

/-- Canonical form: well formed with at least one digit, the most significant
digit is not `0` unless the digits are the single digit `0`, and zero has no
sign marker. -/
def canonical (x : ll_item) : Prop :=
  x.well_formed ∧ x.digits ≠ [] ∧
    (x.digits = ['0'] ∨ x.digits.getLast? ≠ some '0') ∧
    ((∀ c ∈ x.digits, c = '0') → x.is_negative = false)

end ll_item

/-! ## Running and describing the machine -/

namespace cpu

/-- The machine and the offset reached after the first `n` calls of `single_step`
made by `run(pc)`; `none` when one of these calls fails or returns null. -/
def steps : Nat → cpu → Nat → Option (cpu × Nat)
  | 0, c, pc => some (c, pc)
  | n + 1, c, pc =>
    match c.single_step pc with
    | some (c, some next_pc) => steps n c next_pc
    | _ => none

/-- The ordinary decimal reading of a string of digits, first character most
significant. -/
def decimal_reading (w : List Char) : Int :=
  w.foldl (fun acc c => acc * 10 + digit_value c) 0

/-- The operand preconditions of the instruction `insn`: `pop` and `peek()` need
an element, `peek(index)` needs more than `index` elements, `detach_first` needs
an element in the number, and `dump_stack` needs `depth_` elements. -/
def operands_ok (c : cpu) (insn : Char) : Prop :=
  if insn = Char.ofNat 0 then True else
  match insn with
  | '\'' => True
  | '~' => True
  | ';' => 2 ≤ c.stack_.ll_.length
  | '<' => 2 ≤ c.stack_.ll_.length
  | '=' => 2 ≤ c.stack_.ll_.length
  | '?' => 2 ≤ c.stack_.ll_.length
  | '#' => 2 ≤ c.stack_.ll_.length
  | '+' => 2 ≤ c.stack_.ll_.length
  | '>' => ∃ v, c.stack_.ll_.getLast? = some v ∧ v.value_ ≠ []
  | '[' => ∃ v, c.stack_.ll_.getLast? = some v ∧ v.value_ ≠ []
  | '$' => ∃ v, c.stack_.ll_.getLast? = some v ∧ v.value_ ≠ []
  | '@' => ∃ i, c.stack_.ll_.getLast? = some i ∧ into_size_t i < c.stack_.ll_.dropLast.length
  | '&' => c.stack_.depth_ ≤ c.stack_.ll_.length
  | _ => c.stack_.ll_ ≠ []

/-- One line of `dump_stack`: the index, a colon and a space, the elements of the
number from head to tail, and a newline. -/
def dump_line (index : Nat) (x : ll_item) : List Char :=
  (Nat.repr index).toList ++ [':', ' '] ++ x.value_ ++ ['\n']

/-- The lines `dump_stack` writes for a stack given head (bottom) first: one line
per element in that order, the element with `k` elements above it under the
index `k`. -/
def dump_lines : List ll_item → List (List Char)
  | [] => []
  | cur :: rest => dump_line rest.length cur :: dump_lines rest

/-- A number printed most-significant digit first with a leading `-` when it is
negative. -/
def print_msd_first (x : ll_item) : List Char :=
  (if x.is_negative then ['-'] else []) ++ x.digits.reverse

/-- The lines of a dump that goes from the top element (index 0) first to the
bottom element last and prints each number most-significant digit first; the
arguments are the stack, top first, and the index of its first element. -/
def dump_lines_top_first : List ll_item → Nat → List (List Char)
  | [], _ => []
  | x :: rest, index =>
    ((Nat.repr index).toList ++ [':', ' '] ++ print_msd_first x ++ ['\n']) ::
      dump_lines_top_first rest (index + 1)

end cpu

/-! ## Basic facts about the sign marker -/

namespace ll_item

theorem is_negative_iff (x : ll_item) :
    x.is_negative = true ↔ x.value_.getLast? = some '-' := by
  unfold is_negative
  cases h : x.value_.getLast? with
  | none => simp
  | some c => simp

theorem make_absolute_value (x : ll_item) : x.make_absolute.value_ = x.digits := by
  unfold make_absolute digits
  by_cases h : x.value_.getLast? = some '-'
  · simp [(is_negative_iff x).2 h, h]
  · have : x.is_negative = false := by
      cases hn : x.is_negative with
      | false => rfl
      | true => exact absurd ((is_negative_iff x).1 hn) h
    simp [this, h]

theorem value_of_negative (x : ll_item) (h : x.value_.getLast? = some '-') :
    x.value_ = x.digits ++ ['-'] := by
  unfold digits
  simp only [h, if_true]
  have hne : x.value_ ≠ [] := by
    intro h0; rw [h0] at h; simp at h
  have hl := List.dropLast_append_getLast hne
  rw [List.getLast?_eq_getLast _ hne] at h
  simp only [Option.some.injEq] at h
  rw [h] at hl
  exact hl.symm

theorem is_digit_ne_minus {c : Char} (h : is_digit c = true) : c ≠ '-' := by
  intro hc; subst hc; revert h; decide

theorem digits_getLast_ne_minus (x : ll_item) (hx : x.well_formed) :
    x.digits.getLast? ≠ some '-' := by
  intro h
  have hm : '-' ∈ x.digits := List.mem_of_getLast?_eq_some h
  exact is_digit_ne_minus (hx _ hm) rfl

/-! ## `trim_zeros` -/

theorem do_trim_idem (l : List Char) :
    trim_zeros.do_trim (trim_zeros.do_trim l) = trim_zeros.do_trim l := by
  induction l using trim_zeros.do_trim.induct with
  | case1 => rfl
  | case2 c => rfl
  | case3 c d rest hc =>
    rw [trim_zeros.do_trim, if_pos hc, trim_zeros.do_trim, if_pos hc]
  | case4 c d rest hc ih =>
    rw [trim_zeros.do_trim, if_neg hc]
    exact ih

theorem do_trim_ne_nil (l : List Char) (h : l ≠ []) : trim_zeros.do_trim l ≠ [] := by
  induction l using trim_zeros.do_trim.induct with
  | case1 => exact absurd rfl h
  | case2 c => simp [trim_zeros.do_trim]
  | case3 c d rest hc =>
    rw [trim_zeros.do_trim, if_pos hc]; simp
  | case4 c d rest hc ih =>
    rw [trim_zeros.do_trim, if_neg hc]
    exact ih (by simp)

theorem do_trim_all_zero (l : List Char) (h : l ≠ []) (hz : ∀ c ∈ l, c = '0') :
    trim_zeros.do_trim l = ['0'] := by
  induction l using trim_zeros.do_trim.induct with
  | case1 => exact absurd rfl h
  | case2 c => simp [trim_zeros.do_trim, hz c (by simp)]
  | case3 c d rest hc =>
    have := hz c (by simp)
    simp [this] at hc
  | case4 c d rest hc ih =>
    rw [trim_zeros.do_trim, if_neg hc]
    exact ih (by simp) (fun x hx => hz x (List.mem_cons_of_mem _ hx))

/-- C9: `trim_zeros` applied twice gives the same sequence as applied once; it
never empties a non-empty sequence, and it reduces a non-empty sequence of `0`
digits to the single digit `0`. -/
theorem trim_zeros_idempotent (x : ll_item) :
    x.trim_zeros.trim_zeros = x.trim_zeros ∧
    (x.value_ ≠ [] → x.trim_zeros.value_ ≠ []) ∧
    (x.value_ ≠ [] → (∀ c ∈ x.value_, c = '0') → x.trim_zeros.value_ = ['0']) := by
  refine ⟨?_, ?_, ?_⟩
  · simp only [trim_zeros, List.reverse_reverse, do_trim_idem]
  · intro h
    simp only [trim_zeros, ne_eq, List.reverse_eq_nil_iff]
    exact do_trim_ne_nil _ (by simpa using h)
  · intro h hz
    simp only [trim_zeros]
    rw [do_trim_all_zero _ (by simpa using h) (by simpa using hz)]
    rfl

/-- The statement of C9 at the sequence `0 0 0`. -/
theorem trim_zeros_idempotent_witness :
    (ll_item.mk ['0', '0', '0']).trim_zeros.trim_zeros = (ll_item.mk ['0', '0', '0']).trim_zeros ∧
    (ll_item.mk ['0', '0', '0']).trim_zeros.value_ ≠ [] ∧
    (ll_item.mk ['0', '0', '0']).trim_zeros.value_ = ['0'] :=
  ⟨(trim_zeros_idempotent ⟨['0', '0', '0']⟩).1,
   (trim_zeros_idempotent ⟨['0', '0', '0']⟩).2.1 (by decide),
   (trim_zeros_idempotent ⟨['0', '0', '0']⟩).2.2 (by decide) (by decide)⟩

end ll_item

/-! ## `negate` -/

namespace ll_item

theorem negate_negate (x : ll_item) (hx : x.well_formed) : x.negate.negate = x := by
  by_cases h : x.value_.getLast? = some '-'
  · have hn : x.is_negative = true := (is_negative_iff x).2 h
    have hd : x.value_.dropLast = x.digits := by simp [digits, h]
    have hn2 : (ll_item.mk x.digits).is_negative = false := by
      cases hb : (ll_item.mk x.digits).is_negative with
      | false => rfl
      | true => exact absurd ((is_negative_iff _).1 hb) (digits_getLast_ne_minus x hx)
    simp only [negate, hn, if_true, hd, hn2]
    cases x with
    | mk v => simp only [Bool.false_eq_true, if_false, mk.injEq]; exact (value_of_negative ⟨v⟩ h).symm
  · have hn : x.is_negative = false := by
      cases hb : x.is_negative with
      | false => rfl
      | true => exact absurd ((is_negative_iff x).1 hb) h
    have hn2 : (ll_item.mk (x.value_ ++ ['-'])).is_negative = true :=
      (is_negative_iff _).2 (by simp)
    simp [negate, hn, hn2]

end ll_item

namespace cpu

theorem peek_top (below : List ll_item) (x : ll_item) (d : Nat) :
    (ll_stack.mk (below ++ [x]) d).peek 0 = some x := by
  simp [ll_stack.peek, ll_stack.peek.do_peek]

theorem single_step_negate (c : cpu) (pc : Nat) (below : List ll_item) (x : ll_item)
    (hs : c.stack_.ll_ = below ++ [x]) (hp : c.program_[pc]? = some '-') :
    c.single_step pc =
      some ({ c with stack_ := ⟨below ++ [x.negate], c.stack_.depth_⟩ }, some (pc + 1)) := by
  have hlt : pc < c.program_.length := by
    by_contra hge
    rw [List.getElem?_eq_none (by omega)] at hp
    exact absurd hp (by simp)
  have hget : c.program_.getD pc (Char.ofNat 0) = '-' := by
    rw [List.getD_eq_getElem?_getD, hp]; rfl
  have hpeek : c.stack_.peek 0 = some x := by
    have := peek_top below x c.stack_.depth_
    rw [← hs] at this
    exact this
  unfold single_step
  rw [if_neg (by omega)]
  simp only [hget]
  rw [if_neg (by decide)]
  simp [hpeek, ll_stack.set_top, hs]

end cpu

/-- C10: negating a well-formed number twice gives back its element sequence, so
two `-` instructions in a row leave the whole machine, the stack included, as it
was and move on by two instructions. -/
theorem negate_twice (x : ll_item) (hx : x.well_formed) (c : cpu) (pc : Nat)
    (below : List ll_item) (hs : c.stack_.ll_ = below ++ [x])
    (h1 : c.program_[pc]? = some '-') (h2 : c.program_[pc + 1]? = some '-') :
    x.negate.negate = x ∧
    ∃ c1, c.single_step pc = some (c1, some (pc + 1)) ∧
      c1.single_step (pc + 1) = some (c, some (pc + 1 + 1)) := by
  refine ⟨ll_item.negate_negate x hx, _, cpu.single_step_negate c pc below x hs h1, ?_⟩
  rw [cpu.single_step_negate
    ⟨⟨below ++ [x.negate], c.stack_.depth_⟩, c.program_, c.stdin, c.stdout⟩
    (pc + 1) below x.negate rfl h2]
  simp only [ll_item.negate_negate x hx]
  cases c with
  | mk st pr i o =>
    cases st with
    | mk l d => simp only at hs; subst hs; rfl

/-- The statement of C10 on the program `'5--`, at the two `-` instructions. -/
theorem negate_twice_witness :
    (ll_item.mk ['5']).negate.negate = ll_item.mk ['5'] ∧
    ∃ c1, (cpu.mk ⟨[⟨['7']⟩, ⟨['5']⟩], 2⟩ "'5--".toList [] []).single_step 2 = some (c1, some 3) ∧
      c1.single_step 3 = some (cpu.mk ⟨[⟨['7']⟩, ⟨['5']⟩], 2⟩ "'5--".toList [] [], some 4) :=
  negate_twice ⟨['5']⟩ (by decide) (cpu.mk ⟨[⟨['7']⟩, ⟨['5']⟩], 2⟩ "'5--".toList [] []) 2
    [⟨['7']⟩] rfl (by decide) (by decide)


/-! ## Characters and digits -/

theorem char_le_iff (a b : Char) : a ≤ b ↔ a.toNat ≤ b.toNat := by
  rw [Char.le_def, UInt32.le_def, BitVec.le_def]; rfl

theorem digit_value_range {c : Char} (h : is_digit c = true) :
    0 ≤ digit_value c ∧ digit_value c ≤ 9 := by
  simp only [is_digit, Bool.and_eq_true, decide_eq_true_eq, char_le_iff] at h
  unfold digit_value
  have h0 : ('0' : Char).toNat = 48 := rfl
  have h9 : ('9' : Char).toNat = 57 := rfl
  rw [h0, h9] at h
  rw [h0]
  omega

theorem digit_value_inj {c d : Char} (h : digit_value c = digit_value d) : c = d := by
  unfold digit_value at h
  have : c.toNat = d.toNat := by omega
  rw [← Char.ofNat_toNat c, ← Char.ofNat_toNat d, this]

theorem digit_value_zero_iff (c : Char) : digit_value c = 0 ↔ c = '0' := by
  constructor
  · intro h
    exact digit_value_inj (h.trans (by decide))
  · intro h; subst h; decide

theorem digit_char_spec (d : Int) (h0 : 0 ≤ d) (h9 : d ≤ 9) :
    is_digit (digit_char d) = true ∧ digit_value (digit_char d) = d := by
  interval_cases d <;> decide

namespace ll_item

/-! ## `numerically_zero` and `numerically_equal` -/

theorem do_check_iff (l : List Char) :
    numerically_zero.do_check l = true ↔ ∀ c ∈ l, c = '0' := by
  induction l with
  | nil => simp [numerically_zero.do_check]
  | cons c rest ih =>
    by_cases hc : c = '0'
    · simp [numerically_zero.do_check, hc, ih]
    · simp [numerically_zero.do_check, hc]

theorem magnitude_nonneg (l : List Char) (hl : ∀ c ∈ l, is_digit c = true) :
    0 ≤ magnitude l := by
  induction l with
  | nil => simp [magnitude]
  | cons c rest ih =>
    have h1 := (digit_value_range (hl c (by simp))).1
    have h2 := ih (fun x hx => hl x (List.mem_cons_of_mem _ hx))
    simp only [magnitude]
    omega

theorem magnitude_eq_zero_iff (l : List Char) (hl : ∀ c ∈ l, is_digit c = true) :
    magnitude l = 0 ↔ ∀ c ∈ l, c = '0' := by
  induction l with
  | nil => simp [magnitude]
  | cons c rest ih =>
    have h1 := digit_value_range (hl c (by simp))
    have hr : ∀ x ∈ rest, is_digit x = true := fun x hx => hl x (List.mem_cons_of_mem _ hx)
    have h2 := magnitude_nonneg rest hr
    have ih := ih hr
    simp only [magnitude, List.mem_cons, forall_eq_or_imp]
    rw [← ih, ← digit_value_zero_iff]
    omega

theorem do_compare_left_null_eq (rs : List Char) :
    numerically_equal.do_compare_left_null rs = numerically_zero.do_check rs := by
  induction rs with
  | nil => rfl
  | cons r rs ih =>
    simp only [numerically_equal.do_compare_left_null, numerically_zero.do_check, ih]

theorem do_compare_eq_iff (ls rs : List Char)
    (hl : ∀ c ∈ ls, is_digit c = true) (hr : ∀ c ∈ rs, is_digit c = true) :
    numerically_equal.do_compare ls rs = true ↔ magnitude ls = magnitude rs := by
  induction ls generalizing rs with
  | nil =>
    rw [numerically_equal.do_compare, do_compare_left_null_eq, do_check_iff,
      ← magnitude_eq_zero_iff rs hr]
    simp only [magnitude]
    exact eq_comm
  | cons l ls ih =>
    have h1 := digit_value_range (hl l (by simp))
    have hls : ∀ c ∈ ls, is_digit c = true := fun x hx => hl x (List.mem_cons_of_mem _ hx)
    have h2 := magnitude_nonneg ls hls
    cases rs with
    | nil =>
      have ih := ih [] hls hr
      simp only [magnitude] at ih
      by_cases hne : l = '0'
      · have hd := (digit_value_zero_iff l).2 hne
        simp only [numerically_equal.do_compare, hne, bne_self_eq_false, Bool.false_eq_true,
          if_false, magnitude]
        rw [ih]
        have : digit_value '0' = 0 := by decide
        omega
      · have hd : digit_value l ≠ 0 := fun h => hne ((digit_value_zero_iff l).1 h)
        simp only [numerically_equal.do_compare, magnitude]
        have hb : (l != '0') = true := by simpa using hne
        rw [if_pos hb]
        constructor
        · intro h; exact absurd h (by simp)
        · intro h; omega
    | cons r rs =>
      have h3 := digit_value_range (hr r (by simp))
      have hrs : ∀ c ∈ rs, is_digit c = true := fun x hx => hr x (List.mem_cons_of_mem _ hx)
      have ih := ih rs hls hrs
      by_cases hne : l = r
      · subst hne
        simp only [numerically_equal.do_compare, bne_self_eq_false, Bool.false_eq_true,
          if_false, magnitude]
        rw [ih]
        omega
      · have hd : digit_value l ≠ digit_value r := fun h => hne (digit_value_inj h)
        simp only [numerically_equal.do_compare, magnitude]
        have hb : (l != r) = true := by simpa using hne
        rw [if_pos hb]
        constructor
        · intro h; exact absurd h (by simp)
        · intro h; omega

theorem do_compare_eq_self (l : List Char) : numerically_equal.do_compare l l = true := by
  induction l with
  | nil => rfl
  | cons c rest ih => simp [numerically_equal.do_compare, ih]

/-- The result of `numerically_equal` in terms of the digits of its operands. -/
theorem numerically_equal_eq (a b : ll_item) :
    a.numerically_equal b =
      if (a.is_negative && !numerically_zero.do_check a.digits) !=
          (b.is_negative && !numerically_zero.do_check b.digits) then false
      else numerically_equal.do_compare a.digits b.digits := by
  unfold numerically_equal
  simp only [make_absolute_value, numerically_zero]
  cases numerically_zero.do_check a.digits <;> cases numerically_zero.do_check b.digits <;>
    cases a.is_negative <;> cases b.is_negative <;> simp


theorem is_negative_false_iff (x : ll_item) :
    x.is_negative = false ↔ x.value_.getLast? ≠ some '-' := by
  have h := is_negative_iff x
  cases hn : x.is_negative with
  | false =>
    rw [hn] at h
    simp only [true_iff]
    intro hc
    exact absurd (h.2 hc) (by simp)
  | true =>
    rw [hn] at h
    simp only [Bool.true_eq_false, false_iff, ne_eq, not_not]
    exact h.1 rfl

theorem digits_mk_of_ne (l : List Char) (h : l.getLast? ≠ some '-') :
    (ll_item.mk l).digits = l := by
  simp [digits, h]

theorem digits_mk_snoc (l : List Char) : (ll_item.mk (l ++ ['-'])).digits = l := by
  simp [digits]

theorem denote_eq (x : ll_item) :
    x.denote = if x.is_negative then -magnitude x.digits else magnitude x.digits := by
  unfold denote
  by_cases h : x.value_.getLast? = some '-'
  · simp [h, (is_negative_iff x).2 h]
  · simp [h, (is_negative_false_iff x).2 h]

theorem negate_digits (x : ll_item) (hx : x.well_formed) : x.negate.digits = x.digits := by
  by_cases h : x.value_.getLast? = some '-'
  · have hn : x.is_negative = true := (is_negative_iff x).2 h
    have hd : x.value_.dropLast = x.digits := by simp [digits, h]
    simp only [negate, hn, if_true, hd]
    exact digits_mk_of_ne _ (digits_getLast_ne_minus x hx)
  · have hn : x.is_negative = false := (is_negative_false_iff x).2 h
    have hd : x.value_ = x.digits := by simp [digits, h]
    simp only [negate, hn, Bool.false_eq_true, if_false]
    rw [digits_mk_snoc]; exact hd

theorem negate_is_negative (x : ll_item) (hx : x.well_formed) :
    x.negate.is_negative = !x.is_negative := by
  by_cases h : x.value_.getLast? = some '-'
  · have hn : x.is_negative = true := (is_negative_iff x).2 h
    have hd : x.value_.dropLast = x.digits := by simp [digits, h]
    simp only [negate, hn, if_true, hd, Bool.not_true]
    exact (is_negative_false_iff _).2 (digits_getLast_ne_minus x hx)
  · have hn : x.is_negative = false := (is_negative_false_iff x).2 h
    simp only [negate, hn, Bool.not_false]
    exact (is_negative_iff _).2 (by simp)

theorem do_compare_eq_append (ds es : List Char) :
    numerically_equal.do_compare ds (ds ++ es) = numerically_zero.do_check es := by
  induction ds with
  | nil => simp only [List.nil_append, numerically_equal.do_compare, do_compare_left_null_eq]
  | cons d ds ih =>
    rw [List.cons_append]
    simp only [numerically_equal.do_compare, bne_self_eq_false, Bool.false_eq_true, if_false]
    exact ih

/-- The comparison made by `numerically_equal` decides equality of the denoted
integers. -/
theorem numerically_equal_iff (a b : ll_item) (ha : a.well_formed) (hb : b.well_formed) :
    a.numerically_equal b = true ↔ a.denote = b.denote := by
  have hma := magnitude_nonneg a.digits ha
  have hmb := magnitude_nonneg b.digits hb
  have hza : numerically_zero.do_check a.digits = decide (magnitude a.digits = 0) := by
    rw [Bool.eq_iff_iff, decide_eq_true_eq]
    exact (do_check_iff a.digits).trans (magnitude_eq_zero_iff a.digits ha).symm
  have hzb : numerically_zero.do_check b.digits = decide (magnitude b.digits = 0) := by
    rw [Bool.eq_iff_iff, decide_eq_true_eq]
    exact (do_check_iff b.digits).trans (magnitude_eq_zero_iff b.digits hb).symm
  have hcmp : numerically_equal.do_compare a.digits b.digits =
      decide (magnitude a.digits = magnitude b.digits) := by
    rw [Bool.eq_iff_iff, decide_eq_true_eq]
    exact do_compare_eq_iff a.digits b.digits ha hb
  rw [numerically_equal_eq, denote_eq, denote_eq, hza, hzb, hcmp]
  generalize magnitude a.digits = ma at *
  generalize magnitude b.digits = mb at *
  by_cases h1 : ma = 0 <;> by_cases h2 : mb = 0 <;>
    cases a.is_negative <;> cases b.is_negative <;> simp [h1, h2] <;> omega

/-- C5: on well-formed numbers `numerically_equal` returns true exactly when the
two numbers denote the same integer; so numbers of opposite sign are equal only
when both are zero, and more-significant digits added to a non-negative number
leave it equal exactly when they are all `0`. -/
theorem numerically_equal_iff_denote (a b : ll_item) (ha : a.well_formed) (hb : b.well_formed) :
    (a.numerically_equal b = true ↔ a.denote = b.denote) ∧
    (a.is_negative ≠ b.is_negative → a.numerically_equal b = true →
      a.denote = 0 ∧ b.denote = 0) ∧
    (∀ es : List Char, (∀ c ∈ es, is_digit c = true) → a.is_negative = false →
      (a.numerically_equal ⟨a.value_ ++ es⟩ = true ↔ ∀ c ∈ es, c = '0')) := by
  have hma := magnitude_nonneg a.digits ha
  have hmb := magnitude_nonneg b.digits hb
  have main := numerically_equal_iff a b ha hb
  refine ⟨main, ?_, ?_⟩
  · intro hne heq
    have hd := main.1 heq
    rw [denote_eq, denote_eq] at hd ⊢
    revert hne hd
    cases a.is_negative <;> cases b.is_negative <;> simp <;> omega
  · intro es hes hn
    have hav : a.value_ = a.digits := by
      have := (is_negative_false_iff a).1 hn
      simp [digits, this]
    have hlast : (a.value_ ++ es).getLast? ≠ some '-' := by
      intro hc
      have hm := List.mem_of_getLast?_eq_some hc
      rcases List.mem_append.1 hm with h | h
      · rw [hav] at h; exact is_digit_ne_minus (ha _ h) rfl
      · exact is_digit_ne_minus (hes _ h) rfl
    have hn2 : (ll_item.mk (a.value_ ++ es)).is_negative = false :=
      (is_negative_false_iff _).2 hlast
    rw [numerically_equal_eq, hn, hn2, digits_mk_of_ne _ hlast, ← hav, do_compare_eq_append]
    simp only [Bool.false_and, bne_self_eq_false, Bool.false_eq_true, if_false]
    exact do_check_iff es

/-- The statement of C5 at `5` written with a leading zero and `5`. -/
theorem numerically_equal_iff_denote_witness :
    (ll_item.mk ['5', '0']).numerically_equal ⟨['5']⟩ = true ↔
      (ll_item.mk ['5', '0']).denote = (ll_item.mk ['5']).denote :=
  (numerically_equal_iff_denote ⟨['5', '0']⟩ ⟨['5']⟩ (by decide) (by decide)).1

theorem copy_eq (x : ll_item) : x.copy = x := rfl

/-- C6, as the code has it: for a well-formed number `a`, `numerically_equal` of
`a` and its negation is true exactly when `numerically_zero` is true of `a` with
its sign marker removed; for `a` without a sign marker that is `a` itself. -/
theorem numerically_equal_negate_iff (a : ll_item) (ha : a.well_formed) :
    (a.copy.numerically_equal a.copy.negate = true ↔
      a.make_absolute.numerically_zero = true) ∧
    (a.is_negative = false →
      (a.copy.numerically_equal a.copy.negate = true ↔ a.numerically_zero = true)) := by
  have main : a.copy.numerically_equal a.copy.negate = true ↔
      a.make_absolute.numerically_zero = true := by
    rw [copy_eq, numerically_equal_eq, negate_digits a ha, negate_is_negative a ha,
      do_compare_eq_self, numerically_zero, make_absolute_value]
    cases a.is_negative <;> cases numerically_zero.do_check a.digits <;> simp
  refine ⟨main, ?_⟩
  intro hn
  rw [main]
  simp [make_absolute, hn]

/-- The statement of C6 as amended, at negative zero and at `0`. -/
theorem numerically_equal_negate_iff_witness :
    ((ll_item.mk ['0', '-']).copy.numerically_equal (ll_item.mk ['0', '-']).copy.negate = true ↔
      (ll_item.mk ['0', '-']).make_absolute.numerically_zero = true) ∧
    ((ll_item.mk ['0']).copy.numerically_equal (ll_item.mk ['0']).copy.negate = true ↔
      (ll_item.mk ['0']).numerically_zero = true) :=
  ⟨(numerically_equal_negate_iff ⟨['0', '-']⟩ (by decide)).1,
   (numerically_equal_negate_iff ⟨['0']⟩ (by decide)).2 (by decide)⟩

/-- C6 fails as stated at negative zero: `numerically_equal` of `-0` and `0` is
true, but `numerically_zero` reads the sign marker of `-0` as a non-zero element
and returns false. -/
theorem numerically_equal_negate_counterexample :
    (ll_item.mk ['0', '-']).well_formed ∧
    ¬((ll_item.mk ['0', '-']).copy.numerically_equal (ll_item.mk ['0', '-']).copy.negate = true ↔
      (ll_item.mk ['0', '-']).numerically_zero = true) := by
  decide


theorem do_trim_cons (x : Char) (t : List Char) (ht : t ≠ []) :
    trim_zeros.do_trim (x :: t) = if x != '0' then x :: t else trim_zeros.do_trim t := by
  cases t with
  | nil => exact absurd rfl ht
  | cons d rest => rw [trim_zeros.do_trim]

theorem do_trim_snoc (r : List Char) (c : Char) :
    trim_zeros.do_trim (r ++ [c]) = r.dropWhile (fun x => x == '0') ++ [c] := by
  induction r with
  | nil => rfl
  | cons x r ih =>
    rw [List.cons_append, do_trim_cons x (r ++ [c]) (by simp)]
    by_cases hx : x = '0'
    · subst hx
      simp only [bne_self_eq_false, Bool.false_eq_true, if_false, ih]
      rw [List.dropWhile_cons_of_pos (by simp)]
    · have hb : (x != '0') = true := by simpa using hx
      rw [if_pos hb, List.dropWhile_cons_of_neg (by simpa using hx)]
      rfl

theorem dropWhile_reverse_cons (c : Char) (l : List Char) :
    (c :: l).reverse.dropWhile (fun x => x == '0') =
      if l.reverse.dropWhile (fun x => x == '0') = [] then (if c = '0' then [] else [c])
      else l.reverse.dropWhile (fun x => x == '0') ++ [c] := by
  rw [List.reverse_cons, List.dropWhile_append]
  by_cases h : l.reverse.dropWhile (fun x => x == '0') = []
  · rw [h]
    by_cases hc : c = '0'
    · simp [hc]
    · simp [hc]
  · rw [if_neg h]
    have : (List.dropWhile (fun x => x == '0') l.reverse).isEmpty = false := by
      cases hd : List.dropWhile (fun x => x == '0') l.reverse with
      | nil => exact absurd hd h
      | cons a b => rfl
    simp [this]

theorem dropWhile_reverse_eq_nil (l : List Char) :
    l.reverse.dropWhile (fun x => x == '0') = [] ↔ numerically_zero.do_check l = true := by
  rw [do_check_iff, List.dropWhile_eq_nil_iff]
  simp

theorem snoc_or_nil_inj (l r : Char) (A B : List Char) :
    (if A = [] then (if l = '0' then [] else [l]) else A ++ [l]) =
      (if B = [] then (if r = '0' then [] else [r]) else B ++ [r]) ↔ l = r ∧ A = B := by
  constructor
  · intro h
    by_cases hA : A = []
    · by_cases hB : B = []
      · subst hA; subst hB
        by_cases hl : l = '0' <;> by_cases hr : r = '0' <;> simp_all
      · rw [if_pos hA, if_neg hB] at h
        have hlen := congrArg List.length h
        have hpos := List.length_pos.2 hB
        by_cases hl : l = '0'
        · rw [if_pos hl] at hlen
          simp only [List.length_nil, List.length_append, List.length_singleton] at hlen
          omega
        · rw [if_neg hl] at hlen
          simp only [List.length_append, List.length_singleton] at hlen
          omega
    · by_cases hB : B = []
      · rw [if_neg hA, if_pos hB] at h
        have hlen := congrArg List.length h
        have hpos := List.length_pos.2 hA
        by_cases hr : r = '0'
        · rw [if_pos hr] at hlen
          simp only [List.length_nil, List.length_append, List.length_singleton] at hlen
          omega
        · rw [if_neg hr] at hlen
          simp only [List.length_append, List.length_singleton] at hlen
          omega
      · rw [if_neg hA, if_neg hB] at h
        have := List.append_inj' h rfl
        exact ⟨by simpa using this.2, this.1⟩
  · rintro ⟨rfl, rfl⟩; rfl

theorem do_compare_eq_iff_stripped (ls rs : List Char) :
    numerically_equal.do_compare ls rs = true ↔
      ls.reverse.dropWhile (fun x => x == '0') = rs.reverse.dropWhile (fun x => x == '0') := by
  induction ls generalizing rs with
  | nil =>
    rw [numerically_equal.do_compare, do_compare_left_null_eq, ← dropWhile_reverse_eq_nil]
    simp only [List.reverse_nil, List.dropWhile_nil]
    exact eq_comm
  | cons l ls ih =>
    cases rs with
    | nil =>
      have ih := ih []
      simp only [List.reverse_nil, List.dropWhile_nil] at ih ⊢
      rw [dropWhile_reverse_cons]
      by_cases hl : l = '0'
      · subst hl
        simp only [numerically_equal.do_compare, bne_self_eq_false, Bool.false_eq_true,
          if_false, if_true]
        rw [ih]
        by_cases h : ls.reverse.dropWhile (fun x => x == '0') = []
        · simp [h]
        · simp [h]
      · have hb : (l != '0') = true := by simpa using hl
        simp only [numerically_equal.do_compare]
        rw [if_pos hb, if_neg hl]
        by_cases h : ls.reverse.dropWhile (fun x => x == '0') = []
        · simp [h]
        · simp [h]
    | cons r rs =>
      have ih := ih rs
      rw [dropWhile_reverse_cons, dropWhile_reverse_cons, snoc_or_nil_inj, ← ih]
      by_cases hlr : l = r
      · subst hlr
        simp only [numerically_equal.do_compare, bne_self_eq_false, Bool.false_eq_true, if_false,
          true_and]
      · have hb : (l != r) = true := by simpa using hlr
        simp only [numerically_equal.do_compare]
        rw [if_pos hb]
        simp [hlr]

/-- Trimming two non-empty sequences gives the same result exactly when the
comparison of `numerically_equal` accepts them. -/
theorem do_trim_eq_iff (la lb : List Char) (ha : la ≠ []) (hb : lb ≠ []) :
    trim_zeros.do_trim la.reverse = trim_zeros.do_trim lb.reverse ↔
      numerically_equal.do_compare la lb = true := by
  cases la with
  | nil => exact absurd rfl ha
  | cons l ls =>
    cases lb with
    | nil => exact absurd rfl hb
    | cons r rs =>
      rw [List.reverse_cons, List.reverse_cons, do_trim_snoc, do_trim_snoc]
      have ih := do_compare_eq_iff_stripped ls rs
      by_cases hlr : l = r
      · subst hlr
        simp only [numerically_equal.do_compare, bne_self_eq_false, Bool.false_eq_true, if_false]
        rw [ih]
        constructor
        · intro h; exact (List.append_inj' h rfl).1
        · intro h; rw [h]
      · have hb : (l != r) = true := by simpa using hlr
        simp only [numerically_equal.do_compare]
        rw [if_pos hb]
        constructor
        · intro h
          have := (List.append_inj' h rfl).2
          exact absurd (by simpa using this) hlr
        · intro h; exact absurd h (by simp)

theorem lesser_do_compare_trichotomy (L R : List Char) :
    (numerically_lesser.do_compare L R = true ∧ numerically_lesser.do_compare R L = false ∧
        L ≠ R) ∨
    (numerically_lesser.do_compare L R = false ∧ numerically_lesser.do_compare R L = true ∧
        L ≠ R) ∨
    (numerically_lesser.do_compare L R = false ∧ numerically_lesser.do_compare R L = false ∧
        L = R) := by
  induction L generalizing R with
  | nil =>
    cases R with
    | nil => simp [numerically_lesser.do_compare]
    | cons r rs => simp [numerically_lesser.do_compare]
  | cons l ls ih =>
    cases R with
    | nil => simp [numerically_lesser.do_compare]
    | cons r rs =>
      rcases lt_trichotomy l r with h | h | h
      · have h2 : ¬ r < l := not_lt.2 (le_of_lt h)
        have h3 : l ≠ r := ne_of_lt h
        simp [numerically_lesser.do_compare, h, h2, h3]
      · subst h
        have := ih rs
        simpa [numerically_lesser.do_compare] using this
      · have h2 : ¬ l < r := not_lt.2 (le_of_lt h)
        have h3 : l ≠ r := (ne_of_lt h).symm
        simp [numerically_lesser.do_compare, h, h2, h3]

/-- The result of `numerically_lesser` in terms of the digits of its operands. -/
theorem numerically_lesser_eq (a b : ll_item) :
    a.numerically_lesser b =
      if (a.is_negative && !numerically_zero.do_check a.digits) &&
          !(b.is_negative && !numerically_zero.do_check b.digits) then true
      else if !(a.is_negative && !numerically_zero.do_check a.digits) &&
          (b.is_negative && !numerically_zero.do_check b.digits) then false
      else if (a.is_negative && !numerically_zero.do_check a.digits) then
        numerically_lesser.do_compare (trim_zeros.do_trim b.digits.reverse)
          (trim_zeros.do_trim a.digits.reverse)
      else
        numerically_lesser.do_compare (trim_zeros.do_trim a.digits.reverse)
          (trim_zeros.do_trim b.digits.reverse) := by
  unfold numerically_lesser
  simp only [make_absolute_value, numerically_zero, trim_zeros, List.reverse_reverse]
  cases numerically_zero.do_check a.digits <;> cases numerically_zero.do_check b.digits <;>
    cases a.is_negative <;> cases b.is_negative <;> simp


/-- C4: for numbers with at least one digit each, well formed or not, exactly one
of `numerically_lesser(a, b)`, `numerically_lesser(b, a)` and
`numerically_equal(a, b)` is true, each called on fresh copies. -/
theorem comparison_trichotomy (a b : ll_item) (hda : a.digits ≠ []) (hdb : b.digits ≠ []) :
    (a.copy.numerically_lesser b.copy = true ∧ b.copy.numerically_lesser a.copy = false ∧
        a.copy.numerically_equal b.copy = false) ∨
    (a.copy.numerically_lesser b.copy = false ∧ b.copy.numerically_lesser a.copy = true ∧
        a.copy.numerically_equal b.copy = false) ∨
    (a.copy.numerically_lesser b.copy = false ∧ b.copy.numerically_lesser a.copy = false ∧
        a.copy.numerically_equal b.copy = true) := by
  have tri := lesser_do_compare_trichotomy (trim_zeros.do_trim a.digits.reverse)
    (trim_zeros.do_trim b.digits.reverse)
  have heq := do_trim_eq_iff a.digits b.digits hda hdb
  simp only [copy_eq]
  rw [numerically_lesser_eq a b, numerically_lesser_eq b a, numerically_equal_eq a b]
  have tri2 :
      (numerically_lesser.do_compare (trim_zeros.do_trim a.digits.reverse)
          (trim_zeros.do_trim b.digits.reverse) = true ∧
        numerically_lesser.do_compare (trim_zeros.do_trim b.digits.reverse)
          (trim_zeros.do_trim a.digits.reverse) = false ∧
        numerically_equal.do_compare a.digits b.digits = false) ∨
      (numerically_lesser.do_compare (trim_zeros.do_trim a.digits.reverse)
          (trim_zeros.do_trim b.digits.reverse) = false ∧
        numerically_lesser.do_compare (trim_zeros.do_trim b.digits.reverse)
          (trim_zeros.do_trim a.digits.reverse) = true ∧
        numerically_equal.do_compare a.digits b.digits = false) ∨
      (numerically_lesser.do_compare (trim_zeros.do_trim a.digits.reverse)
          (trim_zeros.do_trim b.digits.reverse) = false ∧
        numerically_lesser.do_compare (trim_zeros.do_trim b.digits.reverse)
          (trim_zeros.do_trim a.digits.reverse) = false ∧
        numerically_equal.do_compare a.digits b.digits = true) := by
    rcases tri with ⟨h1, h2, h3⟩ | ⟨h1, h2, h3⟩ | ⟨h1, h2, h3⟩
    · refine Or.inl ⟨h1, h2, ?_⟩
      cases hc : numerically_equal.do_compare a.digits b.digits with
      | false => rfl
      | true => exact absurd (heq.2 hc) h3
    · refine Or.inr (Or.inl ⟨h1, h2, ?_⟩)
      cases hc : numerically_equal.do_compare a.digits b.digits with
      | false => rfl
      | true => exact absurd (heq.2 hc) h3
    · exact Or.inr (Or.inr ⟨h1, h2, heq.1 h3⟩)
  generalize numerically_lesser.do_compare (trim_zeros.do_trim a.digits.reverse)
    (trim_zeros.do_trim b.digits.reverse) = x at tri2 ⊢
  generalize numerically_lesser.do_compare (trim_zeros.do_trim b.digits.reverse)
    (trim_zeros.do_trim a.digits.reverse) = y at tri2 ⊢
  generalize numerically_equal.do_compare a.digits b.digits = e at tri2 ⊢
  cases numerically_zero.do_check a.digits <;> cases numerically_zero.do_check b.digits <;>
    cases a.is_negative <;> cases b.is_negative <;> simp <;> tauto

/-- The statement of C4 at `9` and `10`. -/
theorem comparison_trichotomy_witness :
    ((ll_item.mk ['9']).copy.numerically_lesser (ll_item.mk ['0', '1']).copy = true ∧
        (ll_item.mk ['0', '1']).copy.numerically_lesser (ll_item.mk ['9']).copy = false ∧
        (ll_item.mk ['9']).copy.numerically_equal (ll_item.mk ['0', '1']).copy = false) ∨
    ((ll_item.mk ['9']).copy.numerically_lesser (ll_item.mk ['0', '1']).copy = false ∧
        (ll_item.mk ['0', '1']).copy.numerically_lesser (ll_item.mk ['9']).copy = true ∧
        (ll_item.mk ['9']).copy.numerically_equal (ll_item.mk ['0', '1']).copy = false) ∨
    ((ll_item.mk ['9']).copy.numerically_lesser (ll_item.mk ['0', '1']).copy = false ∧
        (ll_item.mk ['0', '1']).copy.numerically_lesser (ll_item.mk ['9']).copy = false ∧
        (ll_item.mk ['9']).copy.numerically_equal (ll_item.mk ['0', '1']).copy = true) :=
  comparison_trichotomy ⟨['9']⟩ ⟨['0', '1']⟩ (by decide) (by decide)


end ll_item

theorem tdiv_tmod_ten (a : Int) :
    (0 ≤ a → a.tdiv 10 = a / 10 ∧ a.tmod 10 = a % 10) ∧
    (a < 0 → a.tdiv 10 = -((-a) / 10) ∧ a.tmod 10 = -((-a) % 10)) := by
  constructor
  · intro h
    exact ⟨Int.tdiv_eq_ediv h (by decide), Int.tmod_eq_emod h (by decide)⟩
  · intro h
    have h1 : a.tdiv 10 = -((-a) / 10) := by
      have := Int.neg_tdiv (-a) 10
      rw [neg_neg] at this
      rw [this, Int.tdiv_eq_ediv (by omega) (by decide)]
    refine ⟨h1, ?_⟩
    rw [Int.tmod_def, h1]
    omega

namespace ll_item

theorem append_value (x : ll_item) (c : Char) : (x.append c).value_ = x.value_ ++ [c] := rfl

theorem digit_step_is_digit (op : Int → Int → Int) (l r carry : Int) :
    is_digit (add.digit_step op l r carry).1 = true := by
  unfold add.digit_step
  generalize op l r + carry = answer
  have h := tdiv_tmod_ten answer
  simp only
  by_cases hneg : answer.tmod 10 < 0
  · rw [if_pos hneg]
    refine (digit_char_spec _ ?_ ?_).1
    · by_cases h0 : 0 ≤ answer
      · have := (h.1 h0).2; omega
      · have := (h.2 (by omega)).2; omega
    · omega
  · rw [if_neg hneg]
    refine (digit_char_spec _ (by omega) ?_).1
    by_cases h0 : 0 ≤ answer
    · have := (h.1 h0).2; omega
    · have := (h.2 (by omega)).2; omega

theorem do_digit_left_null_spec (op : Int → Int → Int) (r : List Char) (carry : Int)
    (out : ll_item) (hout : ∀ c ∈ out.value_, is_digit c = true) :
    (∀ c ∈ (add.do_digit_left_null op r carry out).1.value_, is_digit c = true) ∧
    (add.do_digit_left_null op r carry out).1.value_.length = out.value_.length + r.length := by
  induction r generalizing carry out with
  | nil => exact ⟨hout, rfl⟩
  | cons x rs ih =>
    simp only [add.do_digit_left_null]
    have hd := digit_step_is_digit op 0 (digit_value x) carry
    have := ih (add.digit_step op 0 (digit_value x) carry).2
      (out.append (add.digit_step op 0 (digit_value x) carry).1)
      (by
        intro c hc
        simp only [append_value, List.mem_append, List.mem_singleton] at hc
        rcases hc with hc | hc
        · exact hout c hc
        · rw [hc]; exact hd)
    refine ⟨this.1, ?_⟩
    rw [this.2]
    simp only [append_value, List.length_append, List.length_singleton, List.length_cons,
      List.length_nil]
    omega

theorem do_digit_spec (op : Int → Int → Int) (l r : List Char) (carry : Int)
    (out : ll_item) (hout : ∀ c ∈ out.value_, is_digit c = true) :
    (∀ c ∈ (add.do_digit op l r carry out).1.value_, is_digit c = true) ∧
    (add.do_digit op l r carry out).1.value_.length =
      out.value_.length + max l.length r.length := by
  induction l generalizing r carry out with
  | nil =>
    rw [add.do_digit]
    have := do_digit_left_null_spec op r carry out hout
    simpa using this
  | cons x ls ih =>
    cases r with
    | nil =>
      simp only [add.do_digit]
      have hd := digit_step_is_digit op (digit_value x) 0 carry
      have := ih [] (add.digit_step op (digit_value x) 0 carry).2
        (out.append (add.digit_step op (digit_value x) 0 carry).1)
        (by
          intro c hc
          simp only [append_value, List.mem_append, List.mem_singleton] at hc
          rcases hc with hc | hc
          · exact hout c hc
          · rw [hc]; exact hd)
      refine ⟨this.1, ?_⟩
      rw [this.2]
      simp only [append_value, List.length_append, List.length_singleton, List.length_cons,
        List.length_nil]
      omega
    | cons y rs =>
      simp only [add.do_digit]
      have hd := digit_step_is_digit op (digit_value x) (digit_value y) carry
      have := ih rs (add.digit_step op (digit_value x) (digit_value y) carry).2
        (out.append (add.digit_step op (digit_value x) (digit_value y) carry).1)
        (by
          intro c hc
          simp only [append_value, List.mem_append, List.mem_singleton] at hc
          rcases hc with hc | hc
          · exact hout c hc
          · rw [hc]; exact hd)
      refine ⟨this.1, ?_⟩
      rw [this.2]
      simp only [append_value, List.length_append, List.length_singleton, List.length_cons,
      List.length_nil]
      omega

theorem do_trim_shape (r : List Char) (h : r ≠ []) :
    (trim_zeros.do_trim r ≠ []) ∧ (∀ c ∈ trim_zeros.do_trim r, c ∈ r) ∧
    ((∃ c, trim_zeros.do_trim r = [c]) ∨ (trim_zeros.do_trim r).head? ≠ some '0') := by
  induction r using trim_zeros.do_trim.induct with
  | case1 => exact absurd rfl h
  | case2 c => simp [trim_zeros.do_trim]
  | case3 c d rest hc =>
    rw [trim_zeros.do_trim, if_pos hc]
    refine ⟨by simp, fun _ hx => hx, Or.inr ?_⟩
    simpa using hc
  | case4 c d rest hc ih =>
    rw [trim_zeros.do_trim, if_neg hc]
    have := ih (by simp)
    exact ⟨this.1, fun x hx => List.mem_cons_of_mem _ (this.2.1 x hx), this.2.2⟩

theorem trim_zeros_shape (x : ll_item) (h : x.value_ ≠ []) :
    x.trim_zeros.value_ ≠ [] ∧ (∀ c ∈ x.trim_zeros.value_, c ∈ x.value_) ∧
    ((∃ c, x.trim_zeros.value_ = [c]) ∨ x.trim_zeros.value_.getLast? ≠ some '0') := by
  have := do_trim_shape x.value_.reverse (by simpa using h)
  refine ⟨by simpa [trim_zeros] using this.1, ?_, ?_⟩
  · intro c hc
    simp only [trim_zeros, List.mem_reverse] at hc
    simpa using this.2.1 c hc
  · rcases this.2.2 with ⟨c, hc⟩ | hh
    · exact Or.inl ⟨c, by simp [trim_zeros, hc]⟩
    · exact Or.inr (by simpa [trim_zeros] using hh)


theorem is_truthy_singleton (c : Char) : (ll_item.mk [c]).is_truthy = !(c == '0') := rfl

theorem canonical_of_trimmed (t : ll_item) (flag : Bool) (hne : t.value_ ≠ [])
    (hd : ∀ c ∈ t.value_, is_digit c = true)
    (hs : (∃ c, t.value_ = [c]) ∨ t.value_.getLast? ≠ some '0') :
    (if flag && t.is_truthy then t.negate else t).canonical := by
  have hlast : t.value_.getLast? ≠ some '-' := by
    intro h
    exact is_digit_ne_minus (hd _ (List.mem_of_getLast?_eq_some h)) rfl
  have hneg : t.is_negative = false := (is_negative_false_iff t).2 hlast
  have hdig : t.digits = t.value_ := by simp [digits, hlast]
  have hshape : t.is_truthy = true → t.value_.getLast? ≠ some '0' := by
    intro ht
    rcases hs with ⟨c, hc⟩ | hs
    · have : t = ⟨[c]⟩ := by cases t; simp_all
      rw [this, is_truthy_singleton] at ht
      rw [hc]
      simpa using ht
    · exact hs
  have hfalse : t.is_truthy = false → t.value_ = ['0'] := by
    intro ht
    rcases hs with ⟨c, hc⟩ | hs
    · have : t = ⟨[c]⟩ := by cases t; simp_all
      rw [this, is_truthy_singleton] at ht
      rw [hc]
      simpa using ht
    · exfalso
      cases t with
      | mk v =>
        cases v with
        | nil => exact hne rfl
        | cons a v2 =>
          cases v2 with
          | nil =>
            rw [is_truthy_singleton] at ht
            simp at ht hs
            exact hs ht
          | cons b v3 => simp [is_truthy] at ht
  by_cases hcond : (flag && t.is_truthy) = true
  · rw [if_pos hcond]
    have ht : t.is_truthy = true := by
      cases flag <;> simp_all
    have hl0 := hshape ht
    have hnv : t.negate.value_ = t.value_ ++ ['-'] := by simp [negate, hneg]
    have hnd : t.negate.digits = t.value_ := by
      cases t with
      | mk v => simp only [negate, hneg, Bool.false_eq_true, if_false]; exact digits_mk_snoc v
    refine ⟨?_, ?_, ?_, ?_⟩
    · intro c hc; rw [hnd] at hc; exact hd c hc
    · rw [hnd]; exact hne
    · rw [hnd]; exact Or.inr hl0
    · intro hz
      rw [hnd] at hz
      exfalso
      obtain ⟨c, hc⟩ : ∃ c, t.value_.getLast? = some c := by
        cases hg : t.value_.getLast? with
        | none => exact absurd (List.getLast?_eq_none_iff.1 hg) hne
        | some c => exact ⟨c, rfl⟩
      have := hz c (List.mem_of_getLast?_eq_some hc)
      rw [this] at hc
      exact hl0 hc
  · rw [if_neg hcond]
    refine ⟨?_, ?_, ?_, ?_⟩
    · intro c hc; rw [hdig] at hc; exact hd c hc
    · rw [hdig]; exact hne
    · rw [hdig]
      cases ht : t.is_truthy with
      | true => exact Or.inr (hshape ht)
      | false => exact Or.inl (hfalse ht)
    · intro _; exact hneg

/-- The steps of `add` after the digit loop turn any non-empty sequence of digits
into a number in canonical form. -/
theorem add_finish_canonical (res : ll_item × Int) (flag : Bool)
    (hne : res.1.value_ ≠ []) (hd : ∀ c ∈ res.1.value_, is_digit c = true) :
    (if (if res.2 < 0 then !flag else flag) &&
        (if (if res.2 < 0 then -res.2 else res.2) != 0 then
          res.1.append (digit_char ((if res.2 < 0 then -res.2 else res.2).tmod 10))
          else res.1).trim_zeros.is_truthy
      then (if (if res.2 < 0 then -res.2 else res.2) != 0 then
          res.1.append (digit_char ((if res.2 < 0 then -res.2 else res.2).tmod 10))
          else res.1).trim_zeros.negate
      else (if (if res.2 < 0 then -res.2 else res.2) != 0 then
          res.1.append (digit_char ((if res.2 < 0 then -res.2 else res.2).tmod 10))
          else res.1).trim_zeros).canonical := by
  generalize hfc : (if res.2 < 0 then -res.2 else res.2) = fc
  have hfc0 : 0 ≤ fc := by
    rw [← hfc]; split <;> omega
  generalize hout : (if fc != 0 then res.1.append (digit_char (fc.tmod 10)) else res.1) = out
  have hout_ne : out.value_ ≠ [] := by
    rw [← hout]; split
    · simp [append_value]
    · exact hne
  have hout_d : ∀ c ∈ out.value_, is_digit c = true := by
    rw [← hout]; split
    · intro c hc
      simp only [append_value, List.mem_append, List.mem_singleton] at hc
      rcases hc with hc | hc
      · exact hd c hc
      · rw [hc]
        have h := (tdiv_tmod_ten fc).1 hfc0
        exact (digit_char_spec _ (by omega) (by omega)).1
    · exact hd
  have hs := trim_zeros_shape out hout_ne
  exact canonical_of_trimmed out.trim_zeros _ hs.1 (fun c hc => hout_d c (hs.2.1 c hc)) hs.2.2

theorem do_digit_ne_nil (op : Int → Int → Int) (l r : List Char) (carry : Int) (h : l ≠ []) :
    (add.do_digit op l r carry ⟨[]⟩).1.value_ ≠ [] := by
  intro h0
  have := congrArg List.length h0
  rw [(do_digit_spec op l r carry ⟨[]⟩ (by simp)).2] at this
  have h1 := List.length_pos.2 h
  simp only [List.length_nil, zero_add] at this
  omega

/-- C7: for operands with at least one digit each, well formed or not, `add`
returns a number in canonical form: digits `0`-`9` with at most a sign marker at
the tail, a non-zero most-significant digit unless the digits are the single
digit `0`, and no sign marker on a result whose digits are all zero. -/
theorem add_canonical (a b : ll_item) (hda : a.digits ≠ []) (hdb : b.digits ≠ []) :
    (a.add b).canonical := by
  unfold add
  simp only [make_absolute_value]
  refine add_finish_canonical _ _ ?_ ?_
  · apply do_digit_ne_nil
    split_ifs <;> first | exact hda | exact hdb
  · exact (do_digit_spec _ _ _ _ _ (by simp)).1

/-- The statement of C7 at `95 + 87`. -/
theorem add_canonical_witness :
    ((ll_item.mk ['5', '9']).add (ll_item.mk ['7', '8'])).canonical :=
  add_canonical ⟨['5', '9']⟩ ⟨['7', '8']⟩ (by decide) (by decide)


end ll_item

/-! ## `splice_in` on the heap -/

namespace linked_list

variable {T : Type}

theorem chain_congr (h h2 : heap T) (cells : List (Nat × T))
    (hagree : ∀ a ∈ cells.map Prod.fst, h2 a = h a) (p c : Option Nat) :
    chain h2 p c cells ↔ chain h p c cells := by
  induction cells generalizing p c with
  | nil => simp [chain]
  | cons x rest ih =>
    have hx : h2 x.1 = h x.1 := hagree x.1 (by simp)
    have ih := ih (fun a ha => hagree a (by simp only [List.map_cons, List.mem_cons]; exact Or.inr ha))
    simp only [chain, hx]
    cases h x.1 with
    | none => simp
    | some n => simp only [ih]

/-- Linking the last node of one chain to the first node of another one. -/
theorem chain_link (h h2 : heap T) (front : List (Nat × T)) (t : Nat) (tv : T)
    (tn : node T) (oh : Nat) (back : List (Nat × T)) (p c : Option Nat)
    (hchain : chain h p c (front ++ [(t, tv)]))
    (hagree : ∀ a ∈ front.map Prod.fst, h2 a = h a)
    (ht : h t = some tn) (ht2 : h2 t = some { tn with next_ := some oh })
    (hback : chain h2 (some t) (some oh) back) :
    chain h2 p c (front ++ (t, tv) :: back) := by
  induction front generalizing p c with
  | nil =>
    simp only [List.nil_append, chain, ht] at hchain
    simp only [List.nil_append, chain, ht2]
    exact ⟨hchain.1, hchain.2.1, hchain.2.2.1, hback⟩
  | cons x rest ih =>
    have hx : h2 x.1 = h x.1 := hagree x.1 (by simp)
    have hrest : ∀ a ∈ rest.map Prod.fst, h2 a = h a :=
      fun a ha => hagree a (by simp only [List.map_cons, List.mem_cons]; exact Or.inr ha)
    simp only [List.cons_append, chain, hx] at hchain ⊢
    cases hn : h x.1 with
    | none => simp [hn] at hchain
    | some n =>
      simp only [hn] at hchain ⊢
      exact ⟨hchain.1, hchain.2.1, hchain.2.2.1, ih _ _ hchain.2.2.2 hrest⟩

theorem chain_last_next (h : heap T) (front : List (Nat × T)) (t : Nat) (tv : T)
    (p c : Option Nat) (hchain : chain h p c (front ++ [(t, tv)])) :
    ∃ tn, h t = some tn := by
  induction front generalizing p c with
  | nil =>
    simp only [List.nil_append, chain] at hchain
    cases hn : h t with
    | none => simp [hn] at hchain
    | some n => exact ⟨n, rfl⟩
  | cons x rest ih =>
    simp only [List.cons_append, chain] at hchain
    cases hn : h x.1 with
    | none => simp [hn] at hchain
    | some n =>
      simp only [hn] at hchain
      exact ih _ _ hchain.2.2.2

theorem write_same (h : heap T) (a : Nat) (n : node T) : (h.write a n) a = some n := by
  simp [heap.write]

theorem write_other (h : heap T) (a b : Nat) (n : node T) (hne : b ≠ a) :
    (h.write a n) b = h b := by
  simp [heap.write, hne]

/-- On well-formed lists with disjoint nodes `splice_in` succeeds, empties `other`
and makes `self` the chain of the nodes of `self` followed by those of `other`. -/
theorem splice_in_owns (h : heap T) (self other : linked_list) (as bs : List (Nat × T))
    (hself : owns h self as) (hother : owns h other bs)
    (hdisj : ∀ a ∈ as.map Prod.fst, a ∉ bs.map Prod.fst) :
    ∃ h2 self2 other2, splice_in h self other = some (h2, self2, other2) ∧
      owns h2 self2 (as ++ bs) ∧ owns h2 other2 [] ∧
      other2.head_ = none ∧ other2.tail_ = none := by
  obtain ⟨hca, hta, hna⟩ := hself
  obtain ⟨hcb, htb, hnb⟩ := hother
  cases bs with
  | nil =>
    -- `other` is empty
    simp only [chain] at hcb
    simp only [List.getLast?_nil, Option.map_none'] at htb
    refine ⟨h, self, other, ?_, ?_, ?_, hcb, htb⟩
    · simp [splice_in, htb, hcb]
    · simpa [owns] using ⟨hca, hta, hna⟩
    · exact ⟨by simp [chain, hcb], by simp [htb], by simp⟩
  | cons bhead bs1 =>
    obtain ⟨bt, hbt⟩ : ∃ bt, other.tail_ = some bt := by
      rw [htb]
      cases hg : (bhead :: bs1).getLast? with
      | none => simp at hg
      | some x => exact ⟨x.1, rfl⟩
    rcases List.eq_nil_or_concat as with ha | ⟨as0, alast, ha⟩
    · -- `self` is empty: the two lists are swapped
      subst ha
      simp only [chain] at hca
      simp only [List.getLast?_nil, Option.map_none'] at hta
      refine ⟨h, other, self, ?_, ?_, ?_, hca, hta⟩
      · simp [splice_in, hbt, hta, hca]
      · exact ⟨hcb, htb, hnb⟩
      · exact ⟨by simp [chain, hca], by simp [hta], by simp⟩
    · -- both lists have nodes: the tail of `self` is linked to the head of `other`
      rw [List.concat_eq_append] at ha
      subst ha
      obtain ⟨t, tv⟩ := alast
      obtain ⟨oh, ov⟩ := bhead
      have hta2 : self.tail_ = some t := by rw [hta]; simp
      obtain ⟨tn, htn⟩ := chain_last_next h as0 t tv none self.head_ hca
      have hcb2 := hcb
      simp only [chain] at hcb2
      cases hohn : h oh with
      | none => simp [hohn] at hcb2
      | some ohn =>
        simp only [hohn] at hcb2
        obtain ⟨hhead, hval, hprev, hrest⟩ := hcb2
        have hne : oh ≠ t := by
          intro he
          exact hdisj t (by simp) (by simp [he])
        have hstep : splice_in h self other =
            some ((h.write t { tn with next_ := some oh }).write oh { ohn with prev_ := some t },
              { head_ := self.head_, tail_ := some bt }, { head_ := none, tail_ := none }) := by
          simp [splice_in, hbt, hta2, htn, hhead, write_other _ _ _ _ hne, hohn]
        refine ⟨_, _, _, hstep, ⟨?_, ?_, ?_⟩, ⟨rfl, rfl, by simp⟩, rfl, rfl⟩
        · rw [List.append_assoc]
          refine chain_link h _ as0 t tv tn oh ((oh, ov) :: bs1) none self.head_ hca ?_ htn ?_ ?_
          · intro a ha
            have h1 : a ≠ oh := by
              intro he
              exact hdisj a (by simp only [List.map_append, List.mem_append]; exact Or.inl ha)
                (by simp [he])
            have h2 : a ≠ t := by
              intro he
              rw [List.map_append, List.nodup_append] at hna
              exact hna.2.2 ha (by simp [he])
            rw [write_other _ _ _ _ h1, write_other _ _ _ _ h2]
          · rw [write_other _ _ _ _ hne.symm, write_same]
          · simp only [chain, write_same]
            refine ⟨trivial, hval, trivial, ?_⟩
            refine (chain_congr h _ bs1 ?_ _ _).2 hrest
            intro a ha
            have h1 : a ≠ oh := by
              intro he
              simp only [List.map_cons, List.nodup_cons] at hnb
              exact hnb.1 (he ▸ ha)
            have h2 : a ≠ t := by
              intro he
              exact hdisj t (by simp) (by simp only [List.map_cons, List.mem_cons]; exact Or.inr (he ▸ ha))
            rw [write_other _ _ _ _ h1, write_other _ _ _ _ h2]
        · show some bt = _
          rw [← hbt, htb, List.getLast?_append_of_ne_nil _ (by simp)]
        · rw [List.map_append, List.nodup_append]
          exact ⟨hna, hnb, fun a ha hb => hdisj a ha hb⟩


/-- C8: when `self` and `other` are well-formed lists on disjoint nodes,
`self.splice_in(other)` succeeds, leaves `other` empty, and makes `self` the list
of the former nodes of `self` followed by the former nodes of `other`: the same
nodes with the same values, each once and in the original order. -/
theorem splice_in_appends (h : heap T) (self other : linked_list) (as bs : List (Nat × T))
    (hself : owns h self as) (hother : owns h other bs)
    (hdisj : ∀ a ∈ as.map Prod.fst, a ∉ bs.map Prod.fst) :
    ∃ h2 self2 other2, splice_in h self other = some (h2, self2, other2) ∧
      owns h2 self2 (as ++ bs) ∧ owns h2 other2 [] ∧
      other2.head_ = none ∧ other2.tail_ = none :=
  splice_in_owns h self other as bs hself hother hdisj

/-- The statement of C8 on the list `a b` at the addresses 1 and 2 and the list
`c` at the address 5. -/
theorem splice_in_appends_witness :
    ∃ h2 self2 other2,
      splice_in
        (fun a => if a = 1 then some ⟨'a', some 2, none⟩
          else if a = 2 then some ⟨'b', none, some 1⟩
          else if a = 5 then some ⟨'c', none, none⟩ else none)
        ⟨some 1, some 2⟩ ⟨some 5, some 5⟩ = some (h2, self2, other2) ∧
      owns h2 self2 ([(1, 'a'), (2, 'b')] ++ [(5, 'c')]) ∧ owns h2 other2 [] ∧
      other2.head_ = none ∧ other2.tail_ = none :=
  splice_in_appends
    (fun a => if a = 1 then some ⟨'a', some 2, none⟩
      else if a = 2 then some ⟨'b', none, some 1⟩
      else if a = 5 then some ⟨'c', none, none⟩ else none)
    ⟨some 1, some 2⟩ ⟨some 5, some 5⟩ [(1, 'a'), (2, 'b')] [(5, 'c')]
    (by simp [owns, chain]) (by simp [owns, chain]) (by decide)

end linked_list

/-! ## `from_number` and `into_number` -/

namespace ll_item


theorem do_parse_append (xs ys : List Char) (acc : Int) :
    into_number.do_parse (xs ++ ys) acc = into_number.do_parse ys (into_number.do_parse xs acc) := by
  induction xs generalizing acc with
  | nil => rfl
  | cons x xs ih =>
    rw [List.cons_append]
    simp only [into_number.do_parse]
    exact ih _

theorem do_parse_reverse (l : List Char) (hl : ∀ c ∈ l, c ≠ '-') :
    into_number.do_parse l.reverse 0 = magnitude l := by
  induction l with
  | nil => rfl
  | cons c l ih =>
    have hc : (c != '-') = true := by simpa using hl c (by simp)
    rw [List.reverse_cons, do_parse_append, ih (fun x hx => hl x (List.mem_cons_of_mem _ hx))]
    simp only [into_number.do_parse, hc, if_true, magnitude]
    omega

theorem do_format_spec (fuel : Nat) (v : Int) (out : List Char) (h0 : 0 ≤ v)
    (hfuel : v < fuel) :
    ∃ ds, from_number.do_format fuel v out = out ++ ds ∧ (∀ c ∈ ds, is_digit c = true) ∧
      magnitude ds = v ∧ ds ≠ [] := by
  induction fuel generalizing v out with
  | zero => omega
  | succ fuel ih =>
    have hdm := (tdiv_tmod_ten v).1 h0
    have hd := digit_char_spec (v.tmod 10) (by omega) (by omega)
    simp only [from_number.do_format]
    by_cases hz : v.tdiv 10 = 0
    · rw [if_pos hz]
      refine ⟨[digit_char (v.tmod 10)], rfl, ?_, ?_, by simp⟩
      · intro c hc
        rw [List.mem_singleton.1 hc]; exact hd.1
      · simp only [magnitude, hd.2]
        omega
    · rw [if_neg hz]
      obtain ⟨ds, h1, h2, h3, _⟩ := ih (v.tdiv 10) (out ++ [digit_char (v.tmod 10)])
        (by omega) (by push_cast at hfuel; omega)
      refine ⟨digit_char (v.tmod 10) :: ds, ?_, ?_, ?_, by simp⟩
      · rw [h1]; simp
      · intro c hc
        rcases List.mem_cons.1 hc with hc | hc
        · rw [hc]; exact hd.1
        · exact h2 c hc
      · simp only [magnitude, hd.2, h3]
        omega

/-- For a value that is not negative, `from_number` gives the decimal digits of
the value, least significant first, and `into_number` reads the value back. -/
theorem into_number_from_number_nonneg (v : Int) (h0 : 0 ≤ v) :
    (from_number v).well_formed ∧ (from_number v).is_negative = false ∧
    (from_number v).denote = v ∧ (from_number v).into_number = v := by
  obtain ⟨ds, h1, h2, h3, h4⟩ := do_format_spec (v.natAbs + 1) v [] h0 (by omega)
  have hv : from_number v = ⟨ds⟩ := by
    unfold from_number
    simp only [h1, List.nil_append]
    rw [if_neg (by omega)]
  have hlast : ds.getLast? ≠ some '-' := by
    intro h
    exact is_digit_ne_minus (h2 _ (List.mem_of_getLast?_eq_some h)) rfl
  have hneg : (ll_item.mk ds).is_negative = false := (is_negative_false_iff _).2 hlast
  have hdig : (ll_item.mk ds).digits = ds := digits_mk_of_ne ds hlast
  rw [hv]
  refine ⟨?_, hneg, ?_, ?_⟩
  · intro c hc; rw [hdig] at hc; exact h2 c hc
  · rw [denote_eq, hneg, hdig]; simpa using h3
  · unfold into_number
    rw [hneg]
    simp only [Bool.false_eq_true, if_false]
    rw [do_parse_reverse ds (fun c hc => is_digit_ne_minus (h2 c hc)), h3]

/-! ## Inputs on which the code departs from its description -/

/-- C3 fails at `-5`: `from_number` takes the digit character from the negative
remainder, so it writes the character `+` (code `'0' - 5`) before the sign
marker, and `into_number` reads the result back as `5`. -/
theorem into_number_from_number_negative :
    (from_number (-5)).value_ = ['+', '-'] ∧ (from_number (-5)).into_number = 5 := by
  decide

/-- C1 fails at `a = -5`, `b = 3`: the sum read back is `8`.  On the well-formed
operands `5` and `-3` themselves `add` returns the digits `8 1`, that is `18`. -/
theorem add_from_number_fails :
    ((from_number (-5)).add (from_number 3)).into_number = 8 ∧
    ((ll_item.mk ['5']).add (ll_item.mk ['3', '-'])).value_ = ['8', '1'] := by
  decide

/-- C2 fails at `9` and `10`: both are well formed and `9 < 10`, but
`numerically_lesser` compares the leading digits `9` and `1` first and returns
false. -/
theorem numerically_lesser_fails :
    (ll_item.mk ['9']).well_formed ∧ (ll_item.mk ['0', '1']).well_formed ∧
    (ll_item.mk ['9']).denote < (ll_item.mk ['0', '1']).denote ∧
    (ll_item.mk ['9']).copy.numerically_lesser (ll_item.mk ['0', '1']).copy = false := by
  decide

end ll_item

/-! ## Steps of the machine -/

theorem is_digit_cases {c : Char} (h : is_digit c = true) :
    c = '0' ∨ c = '1' ∨ c = '2' ∨ c = '3' ∨ c = '4' ∨ c = '5' ∨ c = '6' ∨ c = '7' ∨
      c = '8' ∨ c = '9' := by
  simp only [is_digit, Bool.and_eq_true, decide_eq_true_eq, char_le_iff] at h
  have h0 : ('0' : Char).toNat = 48 := rfl
  have h9 : ('9' : Char).toNat = 57 := rfl
  rw [h0, h9] at h
  obtain ⟨ha, hb⟩ := h
  rw [← Char.ofNat_toNat c]
  generalize c.toNat = n at ha hb
  interval_cases n <;> decide

namespace cpu

theorem insn_at (c : cpu) (pc : Nat) (ch : Char) (h : c.program_[pc]? = some ch) :
    ¬ pc > c.program_.length ∧ c.program_.getD pc (Char.ofNat 0) = ch := by
  have hlt : pc < c.program_.length := by
    by_contra hge
    rw [List.getElem?_eq_none (by omega)] at h
    exact absurd h (by simp)
  refine ⟨by omega, ?_⟩
  rw [List.getD_eq_getElem?_getD, h]; rfl

theorem pop_snoc (s : ll_stack) (below : List ll_item) (v : ll_item)
    (hs : s.ll_ = below ++ [v]) : s.pop = some (v, ⟨below, s.depth_ - 1⟩) := by
  simp [ll_stack.pop, hs]

theorem peek_snoc (s : ll_stack) (below : List ll_item) (v : ll_item)
    (hs : s.ll_ = below ++ [v]) : s.peek 0 = some v := by
  simp [ll_stack.peek, ll_stack.peek.do_peek, hs]

theorem single_step_halt (c : cpu) : c.single_step c.program_.length = some (c, none) := by
  unfold single_step
  simp

theorem single_step_quote (c : cpu) (pc : Nat) (hp : c.program_[pc]? = some '\'') :
    c.single_step pc = some ({ c with stack_ := c.stack_.push ⟨[]⟩ }, some (pc + 1)) := by
  obtain ⟨h1, h2⟩ := insn_at c pc _ hp
  unfold single_step
  rw [if_neg h1]
  simp only [h2]
  rw [if_neg (by decide)]

theorem single_step_digit (c : cpu) (pc : Nat) (x : Char) (hx : is_digit x = true)
    (below : List ll_item) (v : ll_item)
    (hp : c.program_[pc]? = some x) (hs : c.stack_.ll_ = below ++ [v]) :
    c.single_step pc =
      some ({ c with stack_ := ⟨below ++ [v.prepend x], c.stack_.depth_⟩ }, some (pc + 1)) := by
  obtain ⟨h1, h2⟩ := insn_at c pc _ hp
  have hpeek := peek_snoc c.stack_ below v hs
  unfold single_step
  rw [if_neg h1]
  simp only [h2]
  rcases is_digit_cases hx with h | h | h | h | h | h | h | h | h | h <;> subst h <;>
    (rw [if_neg (by decide)]; simp [hpeek, ll_stack.set_top, hs])

theorem single_step_less (c : cpu) (pc : Nat) (below : List ll_item) (b a : ll_item)
    (hp : c.program_[pc]? = some '<') (hs : c.stack_.ll_ = below ++ [b, a]) :
    c.single_step pc =
      some ({ c with stack_ :=
        ⟨below ++ [ll_item.from_number (if b.numerically_lesser a then 1 else 0)],
          c.stack_.depth_ - 1 - 1 + 1⟩ }, some (pc + 1)) := by
  obtain ⟨h1, h2⟩ := insn_at c pc _ hp
  have hpop1 := pop_snoc c.stack_ (below ++ [b]) a (by rw [hs]; simp)
  have hpop2 := pop_snoc ⟨below ++ [b], c.stack_.depth_ - 1⟩ below b rfl
  unfold single_step
  rw [if_neg h1]
  simp only [h2]
  rw [if_neg (by decide)]
  simp [hpop1, hpop2, ll_stack.push]

theorem single_step_plus (c : cpu) (pc : Nat) (below : List ll_item) (b a : ll_item)
    (hp : c.program_[pc]? = some '+') (hs : c.stack_.ll_ = below ++ [b, a]) :
    c.single_step pc =
      some ({ c with stack_ := ⟨below ++ [a.add b], c.stack_.depth_ - 1 - 1 + 1⟩ },
        some (pc + 1)) := by
  obtain ⟨h1, h2⟩ := insn_at c pc _ hp
  have hpop1 := pop_snoc c.stack_ (below ++ [b]) a (by rw [hs]; simp)
  have hpop2 := pop_snoc ⟨below ++ [b], c.stack_.depth_ - 1⟩ below b rfl
  unfold single_step
  rw [if_neg h1]
  simp only [h2]
  rw [if_neg (by decide)]
  simp [hpop1, hpop2, ll_stack.push]

theorem single_step_out (c : cpu) (pc : Nat) (below : List ll_item) (chr : Char)
    (rest : List Char)
    (hp : c.program_[pc]? = some '>') (hs : c.stack_.ll_ = below ++ [⟨chr :: rest⟩]) :
    c.single_step pc =
      some ({ c with stack_ := ⟨below, c.stack_.depth_ - 1⟩, stdout := c.stdout ++ [chr] },
        some (pc + 1)) := by
  obtain ⟨h1, h2⟩ := insn_at c pc _ hp
  have hpop1 := pop_snoc c.stack_ below _ hs
  unfold single_step
  rw [if_neg h1]
  simp only [h2]
  rw [if_neg (by decide)]
  simp [hpop1, ll_item.detach_first]

theorem single_step_not (c : cpu) (pc : Nat) (below : List ll_item) (v : ll_item)
    (hp : c.program_[pc]? = some '!') (hs : c.stack_.ll_ = below ++ [v]) :
    c.single_step pc =
      some ({ c with stack_ :=
        ⟨below ++ [ll_item.from_number (if !v.is_truthy then 1 else 0)],
          c.stack_.depth_ - 1 + 1⟩ }, some (pc + 1)) := by
  obtain ⟨h1, h2⟩ := insn_at c pc _ hp
  have hpop1 := pop_snoc c.stack_ below _ hs
  unfold single_step
  rw [if_neg h1]
  simp only [h2]
  rw [if_neg (by decide)]
  simp [hpop1, ll_stack.push]

theorem run_add_fuel (fuel k : Nat) (c : cpu) (pc : Nat) (r : cpu)
    (h : run fuel c pc = some r) : run (fuel + k) c pc = some r := by
  induction fuel generalizing c pc with
  | zero => simp [run] at h
  | succ n ih =>
    rw [show n + 1 + k = (n + k) + 1 by omega]
    simp only [run] at h ⊢
    cases hs : c.single_step pc with
    | none => simp [hs] at h
    | some res =>
      obtain ⟨c2, r2⟩ := res
      cases r2 with
      | none => simpa [hs] using h
      | some np =>
        simp only [hs] at h ⊢
        exact ih c2 np h

end cpu

namespace cpu

theorem lesser_single_digits (x y : Char) (hx : is_digit x = true) (hy : is_digit y = true) :
    (ll_item.mk [x]).numerically_lesser ⟨[y]⟩ = decide (digit_value x < digit_value y) := by
  rcases is_digit_cases hx with h | h | h | h | h | h | h | h | h | h <;>
    rcases is_digit_cases hy with h2 | h2 | h2 | h2 | h2 | h2 | h2 | h2 | h2 | h2 <;>
    subst h <;> subst h2 <;> decide

theorem add_single_digits (x y : Char) (hx : is_digit x = true) (hy : is_digit y = true) :
    ((ll_item.mk [y]).add ⟨[x]⟩).value_.head? =
      some (digit_char ((digit_value x + digit_value y) % 10)) := by
  rcases is_digit_cases hx with h | h | h | h | h | h | h | h | h | h <;>
    rcases is_digit_cases hy with h2 | h2 | h2 | h2 | h2 | h2 | h2 | h2 | h2 | h2 <;>
    subst h <;> subst h2 <;> decide

theorem from_number_ite (p : Prop) [Decidable p] :
    ll_item.from_number (if p then 1 else 0) = ⟨[if p then '1' else '0']⟩ := by
  by_cases h : p
  · rw [if_pos h, if_pos h]; decide
  · rw [if_neg h, if_neg h]; decide

/-- C11: the program `'x'y<` for decimal digits `x` and `y`, started on the empty
stack, halts with exactly one number on the stack, the single digit `1` when
`x < y` and the single digit `0` otherwise. -/
theorem run_less_digits (x y : Char) (hx : is_digit x = true) (hy : is_digit y = true)
    (inp out : List Char) (fuel : Nat) (hfuel : 6 ≤ fuel) :
    run fuel ⟨⟨[], 0⟩, ['\'', x, '\'', y, '<'], inp, out⟩ 0 =
      some ⟨⟨[⟨[if digit_value x < digit_value y then '1' else '0']⟩], 1⟩,
        ['\'', x, '\'', y, '<'], inp, out⟩ := by
  obtain ⟨k, rfl⟩ : ∃ k, fuel = 6 + k := ⟨fuel - 6, by omega⟩
  apply run_add_fuel
  have s0 := single_step_quote ⟨⟨[], 0⟩, ['\'', x, '\'', y, '<'], inp, out⟩ 0 rfl
  have s1 := single_step_digit ⟨⟨[⟨[]⟩], 1⟩, ['\'', x, '\'', y, '<'], inp, out⟩ 1 x hx []
    ⟨[]⟩ rfl rfl
  have s2 := single_step_quote ⟨⟨[⟨[x]⟩], 1⟩, ['\'', x, '\'', y, '<'], inp, out⟩ 2 rfl
  have s3 := single_step_digit ⟨⟨[⟨[x]⟩, ⟨[]⟩], 2⟩, ['\'', x, '\'', y, '<'], inp, out⟩ 3 y hy
    [⟨[x]⟩] ⟨[]⟩ rfl rfl
  have s4 := single_step_less ⟨⟨[⟨[x]⟩, ⟨[y]⟩], 2⟩, ['\'', x, '\'', y, '<'], inp, out⟩ 4 []
    ⟨[x]⟩ ⟨[y]⟩ rfl rfl
  have s5 := single_step_halt
    ⟨⟨[⟨[if digit_value x < digit_value y then '1' else '0']⟩], 1⟩,
      ['\'', x, '\'', y, '<'], inp, out⟩
  simp only [lesser_single_digits x y hx hy, from_number_ite, decide_eq_true_eq,
    ll_stack.push, ll_item.prepend, List.nil_append, List.cons_append, List.length_cons,
    List.length_nil, zero_add, Nat.reduceAdd, Nat.reduceSub] at s0 s1 s2 s3 s4 s5
  simp only [run, s0, s1, s2, s3, s4, s5]

/-- The statement of C11 at the digits 2, 3 and at 3, 2. -/
theorem run_less_digits_witness :
    run 6 ⟨⟨[], 0⟩, ['\'', '2', '\'', '3', '<'], [], []⟩ 0 =
      some ⟨⟨[⟨['1']⟩], 1⟩, ['\'', '2', '\'', '3', '<'], [], []⟩ ∧
    run 6 ⟨⟨[], 0⟩, ['\'', '3', '\'', '2', '<'], [], []⟩ 0 =
      some ⟨⟨[⟨['0']⟩], 1⟩, ['\'', '3', '\'', '2', '<'], [], []⟩ :=
  ⟨run_less_digits '2' '3' (by decide) (by decide) [] [] 6 (by decide),
   run_less_digits '3' '2' (by decide) (by decide) [] [] 6 (by decide)⟩

end cpu

namespace cpu

/-- C12: the program `'x'y+>` for decimal digits `x` and `y`, started on the
empty stack, writes exactly one character, the decimal digit `(x + y) mod 10`,
reads no input and halts with an empty stack. -/
theorem run_add_digits (x y : Char) (hx : is_digit x = true) (hy : is_digit y = true)
    (inp out : List Char) (fuel : Nat) (hfuel : 7 ≤ fuel) :
    run fuel ⟨⟨[], 0⟩, ['\'', x, '\'', y, '+', '>'], inp, out⟩ 0 =
      some ⟨⟨[], 0⟩, ['\'', x, '\'', y, '+', '>'], inp,
        out ++ [digit_char ((digit_value x + digit_value y) % 10)]⟩ := by
  obtain ⟨k, rfl⟩ : ∃ k, fuel = 7 + k := ⟨fuel - 7, by omega⟩
  apply run_add_fuel
  obtain ⟨rest, hrest⟩ : ∃ rest, (ll_item.mk [y]).add ⟨[x]⟩ =
      ⟨digit_char ((digit_value x + digit_value y) % 10) :: rest⟩ := by
    have h := add_single_digits x y hx hy
    cases hv : (ll_item.mk [y]).add ⟨[x]⟩ with
    | mk v =>
      rw [hv] at h
      cases v with
      | nil => simp at h
      | cons a rest =>
        simp only [List.head?_cons, Option.some.injEq] at h
        exact ⟨rest, by rw [h]⟩
  have s0 := single_step_quote ⟨⟨[], 0⟩, ['\'', x, '\'', y, '+', '>'], inp, out⟩ 0 rfl
  have s1 := single_step_digit ⟨⟨[⟨[]⟩], 1⟩, ['\'', x, '\'', y, '+', '>'], inp, out⟩ 1 x hx []
    ⟨[]⟩ rfl rfl
  have s2 := single_step_quote ⟨⟨[⟨[x]⟩], 1⟩, ['\'', x, '\'', y, '+', '>'], inp, out⟩ 2 rfl
  have s3 := single_step_digit ⟨⟨[⟨[x]⟩, ⟨[]⟩], 2⟩, ['\'', x, '\'', y, '+', '>'], inp, out⟩ 3 y
    hy [⟨[x]⟩] ⟨[]⟩ rfl rfl
  have s4 := single_step_plus ⟨⟨[⟨[x]⟩, ⟨[y]⟩], 2⟩, ['\'', x, '\'', y, '+', '>'], inp, out⟩ 4 []
    ⟨[x]⟩ ⟨[y]⟩ rfl rfl
  have s5 := single_step_out
    ⟨⟨[⟨digit_char ((digit_value x + digit_value y) % 10) :: rest⟩], 1⟩,
      ['\'', x, '\'', y, '+', '>'], inp, out⟩ 5 []
    (digit_char ((digit_value x + digit_value y) % 10)) rest rfl rfl
  have s6 := single_step_halt
    ⟨⟨[], 0⟩, ['\'', x, '\'', y, '+', '>'], inp,
      out ++ [digit_char ((digit_value x + digit_value y) % 10)]⟩
  simp only [hrest, ll_stack.push, ll_item.prepend, List.nil_append, List.cons_append,
    List.length_cons, List.length_nil, zero_add, Nat.reduceAdd, Nat.reduceSub]
    at s0 s1 s2 s3 s4 s5 s6
  simp only [run, s0, s1, s2, s3, s4, s5, s6]

/-- The statement of C12 at the digits 1 and 2: the output is the character `3`. -/
theorem run_add_digits_witness :
    run 7 ⟨⟨[], 0⟩, ['\'', '1', '\'', '2', '+', '>'], [], []⟩ 0 =
      some ⟨⟨[], 0⟩, ['\'', '1', '\'', '2', '+', '>'], [], [] ++ ['3']⟩ :=
  run_add_digits '1' '2' (by decide) (by decide) [] [] 7 (by decide)

theorem value_of_not_truthy (x : ll_item) :
    x.is_truthy = false ↔ x.value_ = [] ∨ x.value_ = ['0'] := by
  cases x with
  | mk v =>
    cases v with
    | nil => simp [ll_item.is_truthy]
    | cons a rest =>
      cases rest with
      | nil => simp [ll_item.is_truthy]
      | cons b rest2 => simp [ll_item.is_truthy]

/-- C16: `is_truthy` is false exactly on the empty number and on the number that
consists of the single digit `0`; the instruction `!` replaces the top by the
single digit `1` in these two cases and by the single digit `0` otherwise. -/
theorem is_truthy_false_iff (x : ll_item) :
    (x.is_truthy = false ↔ x.value_ = [] ∨ x.value_ = ['0']) ∧
    ∀ (c : cpu) (pc : Nat) (below : List ll_item), c.program_[pc]? = some '!' →
      c.stack_.ll_ = below ++ [x] →
      c.single_step pc =
        some ({ c with stack_ :=
          ⟨below ++ [⟨[if x.value_ = [] ∨ x.value_ = ['0'] then '1' else '0']⟩],
            c.stack_.depth_ - 1 + 1⟩ }, some (pc + 1)) := by
  refine ⟨value_of_not_truthy x, ?_⟩
  intro c pc below hp hs
  rw [single_step_not c pc below x hp hs]
  have h := value_of_not_truthy x
  cases ht : x.is_truthy with
  | false =>
    have := h.1 ht
    simp only [Bool.not_false, if_true, this]
    congr
  | true =>
    have hn : ¬(x.value_ = [] ∨ x.value_ = ['0']) := fun hc => by
      rw [h.2 hc] at ht; exact absurd ht (by simp)
    simp only [Bool.not_true, Bool.false_eq_true, if_false, hn]
    congr

/-- The statement of C16 at the number `0` and at the number `10`. -/
theorem is_truthy_false_iff_witness :
    ((ll_item.mk ['0']).is_truthy = false ↔
      (ll_item.mk ['0']).value_ = [] ∨ (ll_item.mk ['0']).value_ = ['0']) ∧
    (cpu.mk ⟨[⟨['0', '1']⟩], 1⟩ ['!'] [] []).single_step 0 =
      some ({ cpu.mk ⟨[⟨['0', '1']⟩], 1⟩ ['!'] [] [] with stack_ :=
        ⟨[] ++ [⟨[if (ll_item.mk ['0', '1']).value_ = [] ∨
          (ll_item.mk ['0', '1']).value_ = ['0'] then '1' else '0']⟩], 1 - 1 + 1⟩ },
        some (0 + 1)) :=
  ⟨(is_truthy_false_iff ⟨['0']⟩).1,
   (is_truthy_false_iff ⟨['0', '1']⟩).2 (cpu.mk ⟨[⟨['0', '1']⟩], 1⟩ ['!'] [] []) 0 [] rfl rfl⟩

end cpu

namespace cpu

theorem getElem?_of_drop_cons (p : List Char) (pc : Nat) (x : Char) (rest : List Char)
    (h : p.drop pc = x :: rest) : p[pc]? = some x ∧ p.drop (pc + 1) = rest := by
  constructor
  · have := congrArg List.head? h
    simpa [List.head?_drop] using this
  · have := congrArg List.tail h
    simpa [List.tail_drop] using this

/-- Typing the digits `w` onto the top number. -/
theorem steps_digits (w : List Char) (hw : ∀ x ∈ w, is_digit x = true) (c : cpu) (pc : Nat)
    (below : List ll_item) (v : ll_item) (post : List Char)
    (hs : c.stack_.ll_ = below ++ [v]) (hp : c.program_.drop pc = w ++ post) :
    steps w.length c pc =
      some ({ c with stack_ := ⟨below ++ [⟨w.reverse ++ v.value_⟩], c.stack_.depth_⟩ },
        pc + w.length) := by
  induction w generalizing c pc v with
  | nil =>
    simp only [steps, List.length_nil, List.reverse_nil, List.nil_append, Nat.add_zero]
    cases c with
    | mk st pr i o =>
      cases st with
      | mk l d => simp only at hs; subst hs; rfl
  | cons x w ih =>
    obtain ⟨h1, h2⟩ := getElem?_of_drop_cons c.program_ pc x (w ++ post) hp
    have hstep := single_step_digit c pc x (hw x (by simp)) below v h1 hs
    simp only [steps, List.length_cons, hstep]
    rw [ih (fun y hy => hw y (List.mem_cons_of_mem _ hy))
      ⟨⟨below ++ [v.prepend x], c.stack_.depth_⟩, c.program_, c.stdin, c.stdout⟩
      (pc + 1) (v.prepend x) rfl h2]
    simp only [ll_item.prepend, List.reverse_cons, List.append_assoc, List.singleton_append]
    congr 2
    omega

theorem do_parse_digits (w : List Char) (hw : ∀ x ∈ w, is_digit x = true) (acc : Int) :
    ll_item.into_number.do_parse w acc =
      w.foldl (fun acc c => acc * 10 + digit_value c) acc := by
  induction w generalizing acc with
  | nil => rfl
  | cons x w ih =>
    have hx : (x != '-') = true := by
      simpa using ll_item.is_digit_ne_minus (hw x (by simp))
    simp only [ll_item.into_number.do_parse, hx, if_true, List.foldl_cons]
    exact ih (fun y hy => hw y (List.mem_cons_of_mem _ hy)) _

theorem into_number_reverse_digits (w : List Char) (hw : ∀ x ∈ w, is_digit x = true) :
    (ll_item.mk w.reverse).into_number = decimal_reading w := by
  have hlast : w.reverse.getLast? ≠ some '-' := by
    intro h
    have := List.mem_of_getLast?_eq_some h
    exact ll_item.is_digit_ne_minus (hw _ (by simpa using this)) rfl
  have hneg : (ll_item.mk w.reverse).is_negative = false :=
    (ll_item.is_negative_false_iff _).2 hlast
  unfold ll_item.into_number
  rw [hneg]
  simp only [Bool.false_eq_true, if_false, List.reverse_reverse]
  exact do_parse_digits w hw 0

theorem foldl_digits_mono (w : List Char) (hw : ∀ x ∈ w, is_digit x = true) (acc : Int)
    (h0 : 0 ≤ acc) :
    acc ≤ w.foldl (fun acc c => acc * 10 + digit_value c) acc := by
  induction w generalizing acc with
  | nil => exact le_refl _
  | cons x w ih =>
    have hx := digit_value_range (hw x (by simp))
    simp only [List.foldl_cons]
    have := ih (fun y hy => hw y (List.mem_cons_of_mem _ hy)) (acc * 10 + digit_value x)
      (by omega)
    omega

theorem into_int_do_parse_digits (w : List Char) (hw : ∀ x ∈ w, is_digit x = true) (acc : Int)
    (h0 : 0 ≤ acc) (h1 : w.foldl (fun acc c => acc * 10 + digit_value c) acc < 2 ^ 31) :
    ll_item.into_int.do_parse w acc =
      some (w.foldl (fun acc c => acc * 10 + digit_value c) acc) := by
  induction w generalizing acc with
  | nil => rfl
  | cons x w ih =>
    have hx := digit_value_range (hw x (by simp))
    have hne : (x != '-') = true := by
      simpa using ll_item.is_digit_ne_minus (hw x (by simp))
    have hw2 : ∀ y ∈ w, is_digit y = true := fun y hy => hw y (List.mem_cons_of_mem _ hy)
    simp only [List.foldl_cons] at h1 ⊢
    have hm := foldl_digits_mono w hw2 (acc * 10 + digit_value x) (by omega)
    have hf1 : ll_item.fits_int (acc * 10) = true := by
      simp only [ll_item.fits_int, Bool.and_eq_true, decide_eq_true_eq]
      constructor <;> omega
    have hf2 : ll_item.fits_int (acc * 10 + digit_value x) = true := by
      simp only [ll_item.fits_int, Bool.and_eq_true, decide_eq_true_eq]
      constructor <;> omega
    simp only [ll_item.into_int.do_parse, hf1, hne, if_true, hf2]
    exact ih hw2 _ (by omega) h1

theorem reverse_digits_not_negative (w : List Char) (hw : ∀ x ∈ w, is_digit x = true) :
    (ll_item.mk w.reverse).is_negative = false := by
  have hlast : w.reverse.getLast? ≠ some '-' := by
    intro h
    have := List.mem_of_getLast?_eq_some h
    exact ll_item.is_digit_ne_minus (hw _ (by simpa using this)) rfl
  exact (ll_item.is_negative_false_iff _).2 hlast

theorem into_int_reverse_digits (w : List Char) (hw : ∀ x ∈ w, is_digit x = true)
    (h1 : decimal_reading w < 2 ^ 31) :
    (ll_item.mk w.reverse).into_int = some (decimal_reading w) := by
  unfold ll_item.into_int
  simp only [List.reverse_reverse]
  rw [into_int_do_parse_digits w hw 0 (le_refl _) h1, reverse_digits_not_negative w hw]
  rfl

theorem decimal_reading_nonneg (w : List Char) (hw : ∀ x ∈ w, is_digit x = true) :
    0 ≤ decimal_reading w :=
  foldl_digits_mono w hw 0 (le_refl _)

theorem into_size_t_reverse_digits (w : List Char) (hw : ∀ x ∈ w, is_digit x = true) :
    (into_size_t ⟨w.reverse⟩ : Int) = decimal_reading w % 2 ^ 64 := by
  unfold into_size_t
  rw [into_number_reverse_digits w hw]
  exact Int.toNat_of_nonneg (Int.emod_nonneg _ (by norm_num))

/-- C13: from any stack, the instruction `'` followed by the digit characters `w`
leaves the stack as it was with one new number on top, whose elements from head
to tail are `w` reversed, and the program counter has advanced by
`1 + length(w)`.  The value `into_number<size_t>` of the new top is the decimal
reading of `w` modulo `2 ^ 64`, hence the reading itself when that is below
`2 ^ 64`; `into_number<int>` of the new top is the reading when that is below
`2 ^ 31`. -/
theorem steps_literal (w : List Char) (hw : ∀ x ∈ w, is_digit x = true) (c : cpu)
    (pre post : List Char) (hp : c.program_ = pre ++ '\'' :: (w ++ post)) :
    steps (1 + w.length) c pre.length =
      some ({ c with stack_ := ⟨c.stack_.ll_ ++ [⟨w.reverse⟩], c.stack_.depth_ + 1⟩ },
        pre.length + (1 + w.length)) ∧
    (into_size_t ⟨w.reverse⟩ : Int) = decimal_reading w % 2 ^ 64 ∧
    (decimal_reading w < 2 ^ 64 → (into_size_t ⟨w.reverse⟩ : Int) = decimal_reading w) ∧
    (decimal_reading w < 2 ^ 31 → (ll_item.mk w.reverse).into_int = some (decimal_reading w)) := by
  refine ⟨?_, into_size_t_reverse_digits w hw, ?_, into_int_reverse_digits w hw⟩
  · have hdrop : c.program_.drop pre.length = '\'' :: (w ++ post) := by
      rw [hp]; simp
    obtain ⟨hq, hd⟩ := getElem?_of_drop_cons c.program_ pre.length _ _ hdrop
    rw [show 1 + w.length = w.length + 1 by omega]
    simp only [steps, single_step_quote c pre.length hq]
    rw [steps_digits w hw ⟨c.stack_.push ⟨[]⟩, c.program_, c.stdin, c.stdout⟩
      (pre.length + 1) c.stack_.ll_ ⟨[]⟩ post rfl hd]
    simp only [List.append_nil, ll_stack.push]
    congr 2
    omega
  · intro h
    rw [into_size_t_reverse_digits w hw]
    exact Int.emod_eq_of_lt (decimal_reading_nonneg w hw) h

/-- The statement of C13 for the literal `120` after the instruction `,`. -/
theorem steps_literal_witness :
    steps (1 + ['1', '2', '0'].length) ⟨⟨[⟨['7']⟩], 1⟩, [',', '\'', '1', '2', '0', '&'], [], []⟩
        [','].length =
      some ({ cpu.mk ⟨[⟨['7']⟩], 1⟩ [',', '\'', '1', '2', '0', '&'] [] [] with
          stack_ := ⟨[⟨['7']⟩] ++ [⟨['1', '2', '0'].reverse⟩], 1 + 1⟩ },
        [','].length + (1 + ['1', '2', '0'].length)) ∧
    (into_size_t ⟨['1', '2', '0'].reverse⟩ : Int) = decimal_reading ['1', '2', '0'] % 2 ^ 64 ∧
    (decimal_reading ['1', '2', '0'] < 2 ^ 64 →
      (into_size_t ⟨['1', '2', '0'].reverse⟩ : Int) = decimal_reading ['1', '2', '0']) ∧
    (decimal_reading ['1', '2', '0'] < 2 ^ 31 →
      (ll_item.mk ['1', '2', '0'].reverse).into_int = some (decimal_reading ['1', '2', '0'])) :=
  steps_literal ['1', '2', '0'] (by decide) ⟨⟨[⟨['7']⟩], 1⟩, [',', '\'', '1', '2', '0', '&'], [], []⟩
    [','] ['&'] rfl

/-- The literal `18446744073709551616`, the decimal reading `2 ^ 64`: the
instruction `'` and the twenty digits push the number with these digits, and
`into_number<size_t>` of that number is `0`, not the decimal reading. -/
theorem literal_wraps_counterexample :
    steps (1 + 20)
        ⟨⟨[], 0⟩, '\'' :: ['1', '8', '4', '4', '6', '7', '4', '4', '0', '7', '3', '7', '0',
          '9', '5', '5', '1', '6', '1', '6'], [], []⟩ 0 =
      some (⟨⟨[⟨['1', '8', '4', '4', '6', '7', '4', '4', '0', '7', '3', '7', '0',
          '9', '5', '5', '1', '6', '1', '6'].reverse⟩], 1⟩,
        '\'' :: ['1', '8', '4', '4', '6', '7', '4', '4', '0', '7', '3', '7', '0',
          '9', '5', '5', '1', '6', '1', '6'], [], []⟩, 21) ∧
    decimal_reading ['1', '8', '4', '4', '6', '7', '4', '4', '0', '7', '3', '7', '0',
      '9', '5', '5', '1', '6', '1', '6'] = 18446744073709551616 ∧
    into_size_t ⟨['1', '8', '4', '4', '6', '7', '4', '4', '0', '7', '3', '7', '0',
      '9', '5', '5', '1', '6', '1', '6'].reverse⟩ = 0 ∧
    (into_size_t ⟨['1', '8', '4', '4', '6', '7', '4', '4', '0', '7', '3', '7', '0',
      '9', '5', '5', '1', '6', '1', '6'].reverse⟩ : Int) ≠
      decimal_reading ['1', '8', '4', '4', '6', '7', '4', '4', '0', '7', '3', '7', '0',
        '9', '5', '5', '1', '6', '1', '6'] := by
  refine ⟨by decide, by decide, by decide, by decide⟩

end cpu

/-! ## The next program counter -/

namespace cpu

theorem snoc_of_ne_nil {α : Type} (l : List α) (h : l ≠ []) : ∃ below v, l = below ++ [v] := by
  rcases List.eq_nil_or_concat l with h0 | ⟨below, v, h1⟩
  · exact absurd h0 h
  · exact ⟨below, v, by rw [h1, List.concat_eq_append]⟩

theorem snoc2_of_length {α : Type} (l : List α) (h : 2 ≤ l.length) :
    ∃ below b a, l = below ++ [b, a] := by
  obtain ⟨l1, a, h1⟩ := snoc_of_ne_nil l (by intro h0; rw [h0] at h; simp at h)
  obtain ⟨below, b, h2⟩ := snoc_of_ne_nil l1 (by
    intro h0; rw [h1, h0] at h; simp at h)
  exact ⟨below, b, a, by rw [h1, h2]; simp⟩

theorem do_peek_isSome (l : List ll_item) (i : Nat) (h : i < l.length) :
    ∃ v, ll_stack.peek.do_peek l i = some v := by
  induction l generalizing i with
  | nil => simp at h
  | cons x l ih =>
    cases i with
    | zero => exact ⟨x, rfl⟩
    | succ i =>
      simp only [ll_stack.peek.do_peek]
      exact ih i (by simpa using h)

theorem do_dump_isSome (l : List ll_item) (d : Nat) (out : List Char) (h : d ≤ l.length) :
    ∃ r, dump_stack.do_dump l d out = some r := by
  induction d generalizing l out with
  | zero => exact ⟨out, by cases l <;> rfl⟩
  | succ d ih =>
    cases l with
    | nil => simp at h
    | cons x l =>
      simp only [dump_stack.do_dump]
      exact ih l _ (by simpa using h)

theorem single_step_total (c : cpu) (pc : Nat) (hpc : pc ≤ c.program_.length)
    (hok : operands_ok c (c.program_.getD pc (Char.ofNat 0))) :
    ∃ res, c.single_step pc = some res := by
  unfold single_step
  rw [if_neg (by omega)]
  by_cases hne : c.program_.getD pc (Char.ofNat 0) = Char.ofNat 0
  · simp only [hne, if_true]; exact ⟨_, rfl⟩
  · simp only [hne, if_false]
    unfold operands_ok at hok
    rw [if_neg hne] at hok
    generalize c.program_.getD pc (Char.ofNat 0) = insn at hok hne
    split at hok
    · exact ⟨_, rfl⟩
    · exact ⟨_, rfl⟩
    all_goals try first
      | (obtain ⟨below, b, a, hs⟩ := snoc2_of_length _ hok
         have hpop1 := pop_snoc c.stack_ (below ++ [b]) a (by rw [hs]; simp)
         have hpop2 := pop_snoc ⟨below ++ [b], c.stack_.depth_ - 1⟩ below b rfl
         have hpeek := peek_snoc ⟨below ++ [b], c.stack_.depth_ - 1⟩ below b rfl
         simp [hpop1, hpop2, hpeek])
      | (obtain ⟨v, hv, hvne⟩ := hok
         obtain ⟨below, hs⟩ : ∃ below, c.stack_.ll_ = below ++ [v] := by
           obtain ⟨ys, hys⟩ := List.getLast?_eq_some_iff.1 hv
           exact ⟨ys, hys⟩
         have hpop1 := pop_snoc c.stack_ below v hs
         have hpeek := peek_snoc c.stack_ below v hs
         obtain ⟨chr, rest, hd⟩ : ∃ chr rest, v.value_ = chr :: rest := by
           cases hvv : v.value_ with
           | nil => exact absurd hvv hvne
           | cons chr rest => exact ⟨chr, rest, rfl⟩
         simp [hpop1, hpeek, ll_item.detach_first, hd]
         done)
    · obtain ⟨i, hi, hlt⟩ := hok
      obtain ⟨below, hs⟩ := List.getLast?_eq_some_iff.1 hi
      have hpop1 := pop_snoc c.stack_ below i hs
      rw [hs, List.dropLast_concat] at hlt
      obtain ⟨v, hv⟩ := do_peek_isSome below.reverse (into_size_t i) (by simpa using hlt)
      simp [hpop1, ll_stack.peek, hv]
    · obtain ⟨r, hr⟩ := do_dump_isSome c.stack_.ll_ c.stack_.depth_ c.stdout hok
      simp [dump_stack, hr]
    · obtain ⟨below, v, hs⟩ := snoc_of_ne_nil _ hok
      have hpop1 := pop_snoc c.stack_ below v hs
      have hpeek := peek_snoc c.stack_ below v hs
      split
      all_goals first
        | (exfalso; simp_all; done)
        | simp [hpop1, hpeek]

theorem single_step_next (c : cpu) (pc : Nat) (c2 : cpu) (r : Option Nat)
    (h : c.single_step pc = some (c2, r))
    (hne : c.program_.getD pc (Char.ofNat 0) ≠ Char.ofNat 0)
    (hq : c.program_.getD pc (Char.ofNat 0) ≠ '?') : r = some (pc + 1) := by
  unfold single_step at h
  split at h
  · simp at h
  · simp only [hne, if_false] at h
    split at h
    all_goals first
      | (simp only [Option.some.injEq, Prod.mk.injEq] at h; exact h.2.symm)
      | (rename_i heq; exact absurd heq hq)
      | (simp only [bind, Option.bind_eq_some, Option.some.injEq, Prod.mk.injEq] at h
         first
          | (obtain ⟨_, _, _, h⟩ := h; exact h.symm)
          | (obtain ⟨_, _, _, _, _, h⟩ := h; exact h.symm))

theorem single_step_jump (c : cpu) (pc : Nat) (below : List ll_item) (w t : ll_item)
    (hpc : pc ≤ c.program_.length) (hp : c.program_.getD pc (Char.ofNat 0) = '?')
    (hs : c.stack_.ll_ = below ++ [w, t]) :
    c.single_step pc =
      some ({ c with stack_ := ⟨below, c.stack_.depth_ - 1 - 1⟩ },
        some (if w.is_truthy then into_size_t t else pc + 1)) := by
  have hpop1 := pop_snoc c.stack_ (below ++ [w]) t (by rw [hs]; simp)
  have hpop2 := pop_snoc ⟨below ++ [w], c.stack_.depth_ - 1⟩ below w rfl
  unfold single_step
  rw [if_neg (by omega)]
  simp only [hp]
  rw [if_neg (by decide)]
  simp [hpop1, hpop2]

theorem into_size_t_of_range (t : ll_item) (h0 : 0 ≤ t.into_number)
    (h1 : t.into_number < 2 ^ 64) : (into_size_t t : Int) = t.into_number := by
  unfold into_size_t
  rw [Int.toNat_of_nonneg (Int.emod_nonneg _ (by norm_num))]
  exact Int.emod_eq_of_lt h0 h1

/-- C14: at a position `pc` of the program text whose instruction has its operands,
`single_step` returns.  It returns null, with the machine unchanged, exactly when
the character at `pc` is the terminator; for every instruction but `?` it returns
`pc + 1`; for `?` on a stack that ends with the condition `w` and the target `t`
on top it pops both and returns the offset `into_number<size_t>(t)` from the
program start when `w` is truthy and `pc + 1` otherwise. -/
theorem single_step_next_pc (c : cpu) (pc : Nat) (hpc : pc ≤ c.program_.length)
    (hok : operands_ok c (c.program_.getD pc (Char.ofNat 0))) :
    ∃ c2 r, c.single_step pc = some (c2, r) ∧
      (r = none ↔ c.program_.getD pc (Char.ofNat 0) = Char.ofNat 0) ∧
      (c.program_.getD pc (Char.ofNat 0) = Char.ofNat 0 → c2 = c) ∧
      (c.program_.getD pc (Char.ofNat 0) ≠ Char.ofNat 0 →
        c.program_.getD pc (Char.ofNat 0) ≠ '?' → r = some (pc + 1)) ∧
      (c.program_.getD pc (Char.ofNat 0) = '?' →
        ∃ below w t, c.stack_.ll_ = below ++ [w, t] ∧
          c2 = { c with stack_ := ⟨below, c.stack_.depth_ - 1 - 1⟩ } ∧
          r = some (if w.is_truthy then into_size_t t else pc + 1) ∧
          (0 ≤ t.into_number → t.into_number < 2 ^ 64 →
            (into_size_t t : Int) = t.into_number)) := by
  obtain ⟨⟨c2, r⟩, hres⟩ := single_step_total c pc hpc hok
  refine ⟨c2, r, hres, ?_, ?_, ?_, ?_⟩
  · constructor
    · intro hr
      by_contra hne
      by_cases hq : c.program_.getD pc (Char.ofNat 0) = '?'
      · have hok2 : 2 ≤ c.stack_.ll_.length := by
          rw [hq] at hok; exact hok
        obtain ⟨below, w, t, hs⟩ := snoc2_of_length _ hok2
        rw [single_step_jump c pc below w t hpc hq hs] at hres
        simp only [Option.some.injEq, Prod.mk.injEq] at hres
        rw [hr] at hres
        split at hres <;> exact absurd hres.2 (by simp)
      · have := single_step_next c pc c2 r hres hne hq
        rw [hr] at this
        exact absurd this (by simp)
    · intro h0
      unfold single_step at hres
      rw [if_neg (by omega)] at hres
      simp only [h0, if_true, Option.some.injEq, Prod.mk.injEq] at hres
      exact hres.2.symm
  · intro h0
    unfold single_step at hres
    rw [if_neg (by omega)] at hres
    simp only [h0, if_true, Option.some.injEq, Prod.mk.injEq] at hres
    exact hres.1.symm
  · intro hne hq
    exact single_step_next c pc c2 r hres hne hq
  · intro hq
    have hok2 : 2 ≤ c.stack_.ll_.length := by
      rw [hq] at hok; exact hok
    obtain ⟨below, w, t, hs⟩ := snoc2_of_length _ hok2
    rw [single_step_jump c pc below w t hpc hq hs] at hres
    simp only [Option.some.injEq, Prod.mk.injEq] at hres
    exact ⟨below, w, t, hs, hres.1.symm, hres.2.symm, into_size_t_of_range t⟩

/-- The statement of C14 on the program `'1'3?` at the instruction `?`, with the
condition `1` and the target `3` on the stack. -/
theorem single_step_next_pc_witness :
    ∃ c2 r, (cpu.mk ⟨[⟨['1']⟩, ⟨['3']⟩], 2⟩ "'1'3?".toList [] []).single_step 4 = some (c2, r) ∧
      (r = none ↔ "'1'3?".toList.getD 4 (Char.ofNat 0) = Char.ofNat 0) ∧
      ("'1'3?".toList.getD 4 (Char.ofNat 0) = Char.ofNat 0 →
        c2 = cpu.mk ⟨[⟨['1']⟩, ⟨['3']⟩], 2⟩ "'1'3?".toList [] []) ∧
      ("'1'3?".toList.getD 4 (Char.ofNat 0) ≠ Char.ofNat 0 →
        "'1'3?".toList.getD 4 (Char.ofNat 0) ≠ '?' → r = some (4 + 1)) ∧
      ("'1'3?".toList.getD 4 (Char.ofNat 0) = '?' →
        ∃ below w t, [ll_item.mk ['1'], ⟨['3']⟩] = below ++ [w, t] ∧
          c2 = { cpu.mk ⟨[⟨['1']⟩, ⟨['3']⟩], 2⟩ "'1'3?".toList [] [] with
            stack_ := ⟨below, 2 - 1 - 1⟩ } ∧
          r = some (if w.is_truthy then into_size_t t else 4 + 1) ∧
          (0 ≤ t.into_number → t.into_number < 2 ^ 64 →
            (into_size_t t : Int) = t.into_number)) :=
  single_step_next_pc (cpu.mk ⟨[⟨['1']⟩, ⟨['3']⟩], 2⟩ "'1'3?".toList [] []) 4 (by decide)
    (show (2 : Nat) ≤ [ll_item.mk ['1'], ⟨['3']⟩].length by decide)

end cpu

/-! ## The dump of the stack -/

namespace cpu

theorem do_dump_eq (l : List ll_item) (out : List Char) :
    dump_stack.do_dump l l.length out = some (out ++ (dump_lines l).flatten) := by
  induction l generalizing out with
  | nil => simp [dump_stack.do_dump, dump_lines]
  | cons x l ih =>
    simp only [List.length_cons, dump_stack.do_dump, ih, dump_lines, dump_line,
      List.flatten_cons, List.append_assoc]

theorem dump_lines_length (l : List ll_item) : (dump_lines l).length = l.length := by
  induction l with
  | nil => rfl
  | cons x l ih => simp [dump_lines, ih]

theorem dump_lines_getElem? (l : List ll_item) (i : Nat) :
    (dump_lines l)[i]? = (l[i]?).map (fun x => dump_line (l.length - 1 - i) x) := by
  induction l generalizing i with
  | nil => simp [dump_lines]
  | cons x l ih =>
    cases i with
    | zero => simp [dump_lines]
    | succ i =>
      simp only [dump_lines, List.getElem?_cons_succ, ih, List.length_cons]
      congr 2
      funext y
      congr 1
      omega

theorem dump_line_eq (index : Nat) (x : ll_item) :
    dump_line index x =
      (Nat.repr index).toList ++ [':', ' '] ++ x.digits ++
        (if x.is_negative then ['-'] else []) ++ ['\n'] := by
  unfold dump_line
  by_cases h : x.value_.getLast? = some '-'
  · rw [(ll_item.is_negative_iff x).2 h, if_pos rfl]
    conv_lhs => rw [ll_item.value_of_negative x h]
    simp
  · rw [(ll_item.is_negative_false_iff x).2 h]
    have : x.digits = x.value_ := by simp [ll_item.digits, h]
    simp [this]

/-- C15, as the code has it: on a stack of depth `n` the instruction `&` leaves
the machine unchanged but for the output, to which it adds exactly `n` lines.
The lines go from the bottom element (index `n - 1`) first to the top element
(index 0) last, and each line is the index, a colon and a space, then the
elements of the number from head to tail, that is the digits least significant
first followed by `-` when the number is negative, and a newline. -/
theorem dump_stack_lines (c : cpu) (pc : Nat) (hp : c.program_[pc]? = some '&')
    (hd : c.stack_.depth_ = c.stack_.ll_.length) :
    c.single_step pc =
      some ({ c with stdout := c.stdout ++ (dump_lines c.stack_.ll_).flatten }, some (pc + 1)) ∧
    (dump_lines c.stack_.ll_).length = c.stack_.depth_ ∧
    (∀ i, (dump_lines c.stack_.ll_)[i]? =
      (c.stack_.ll_[i]?).map (fun x => dump_line (c.stack_.depth_ - 1 - i) x)) ∧
    (∀ index x, dump_line index x =
      (Nat.repr index).toList ++ [':', ' '] ++ x.digits ++
        (if x.is_negative then ['-'] else []) ++ ['\n']) := by
  obtain ⟨h1, h2⟩ := insn_at c pc _ hp
  refine ⟨?_, by rw [hd]; exact dump_lines_length _, ?_, dump_line_eq⟩
  · unfold single_step
    rw [if_neg h1]
    simp only [h2]
    rw [if_neg (by decide)]
    simp [dump_stack, hd, do_dump_eq]
  · intro i
    rw [hd]
    exact dump_lines_getElem? _ i

/-- The statement of C15 as amended on the stack with `7` at the bottom and `-12`
on top. -/
theorem dump_stack_lines_witness :
    (cpu.mk ⟨[⟨['7']⟩, ⟨['2', '1', '-']⟩], 2⟩ ['&'] [] []).single_step 0 =
      some ({ cpu.mk ⟨[⟨['7']⟩, ⟨['2', '1', '-']⟩], 2⟩ ['&'] [] [] with
        stdout := [] ++ (dump_lines [⟨['7']⟩, ⟨['2', '1', '-']⟩]).flatten }, some (0 + 1)) :=
  (dump_stack_lines (cpu.mk ⟨[⟨['7']⟩, ⟨['2', '1', '-']⟩], 2⟩ ['&'] [] []) 0 rfl rfl).1

/-- C15 fails as stated on the stack with `7` at the bottom and `-12` on top: the
instruction `&` writes the line of the bottom element first and prints `-12` as
`21-`, so the output is `1: 7`, `0: 21-`, where the description has `0: -12`,
`1: 7`. -/
theorem dump_stack_counterexample :
    ((cpu.mk ⟨[⟨['7']⟩, ⟨['2', '1', '-']⟩], 2⟩ ['&'] [] []).single_step 0).map
        (fun r => r.1.stdout) =
      some ['1', ':', ' ', '7', '\n', '0', ':', ' ', '2', '1', '-', '\n'] ∧
    (dump_lines_top_first [⟨['2', '1', '-']⟩, ⟨['7']⟩] 0).flatten =
      ['0', ':', ' ', '-', '1', '2', '\n', '1', ':', ' ', '7', '\n'] ∧
    ((cpu.mk ⟨[⟨['7']⟩, ⟨['2', '1', '-']⟩], 2⟩ ['&'] [] []).single_step 0).map
        (fun r => r.1.stdout) ≠
      some (dump_lines_top_first [⟨['2', '1', '-']⟩, ⟨['7']⟩] 0).flatten := by
  decide

end cpu

/-! ## The digits written by `from_number` -/

namespace ll_item

/-- C19, as the code has it: `numerically_zero` returns true exactly when every
element of the number is the digit `0`.  The sign marker is not ignored: on a
number that carries it the function returns false.  On the number with its sign
marker removed by `make_absolute` it returns true exactly when every digit
element is `0`. -/
theorem numerically_zero_iff (x : ll_item) :
    (x.numerically_zero = true ↔ ∀ c ∈ x.value_, c = '0') ∧
    (x.is_negative = true → x.numerically_zero = false) ∧
    (x.make_absolute.numerically_zero = true ↔ ∀ c ∈ x.digits, c = '0') := by
  refine ⟨do_check_iff x.value_, ?_, ?_⟩
  · intro hn
    have hl := (is_negative_iff x).1 hn
    cases hz : x.numerically_zero with
    | false => rfl
    | true =>
      have := (do_check_iff x.value_).1 hz '-' (List.mem_of_getLast?_eq_some hl)
      exact absurd this (by decide)
  · unfold numerically_zero
    rw [make_absolute_value]
    exact do_check_iff x.digits

/-- The statement of C19 as amended at negative zero. -/
theorem numerically_zero_iff_witness :
    (ll_item.mk ['0', '-']).numerically_zero = false :=
  (numerically_zero_iff ⟨['0', '-']⟩).2.1 (by decide)

/-- C19 fails as stated at negative zero: the number is well formed and its only
digit is `0`, but `numerically_zero` returns false. -/
theorem numerically_zero_counterexample :
    (ll_item.mk ['0', '-']).well_formed ∧
    (∀ c ∈ (ll_item.mk ['0', '-']).digits, c = '0') ∧
    (ll_item.mk ['0', '-']).numerically_zero = false := by
  decide

theorem do_format_last (fuel : Nat) (v : Int) (out : List Char) (h0 : 0 ≤ v)
    (hfuel : v < fuel) :
    ∃ ds, from_number.do_format fuel v out = out ++ ds ∧ (∀ c ∈ ds, is_digit c = true) ∧
      magnitude ds = v ∧ (v ≠ 0 → ds.getLast? ≠ some '0') ∧ (v = 0 → ds = ['0']) := by
  induction fuel generalizing v out with
  | zero => omega
  | succ fuel ih =>
    have hdm := (tdiv_tmod_ten v).1 h0
    have hd := digit_char_spec (v.tmod 10) (by omega) (by omega)
    simp only [from_number.do_format]
    by_cases hz : v.tdiv 10 = 0
    · rw [if_pos hz]
      refine ⟨[digit_char (v.tmod 10)], rfl, ?_, ?_, ?_, ?_⟩
      · intro c hc
        rw [List.mem_singleton.1 hc]; exact hd.1
      · simp only [magnitude, hd.2]
        omega
      · intro hv hl
        simp only [List.getLast?_singleton, Option.some.injEq] at hl
        have := (digit_value_zero_iff _).2 hl
        rw [hd.2] at this
        omega
      · intro hv
        subst hv
        rfl
    · rw [if_neg hz]
      obtain ⟨ds, h1, h2, h3, h4, _⟩ := ih (v.tdiv 10) (out ++ [digit_char (v.tmod 10)])
        (by omega) (by push_cast at hfuel; omega)
      refine ⟨digit_char (v.tmod 10) :: ds, ?_, ?_, ?_, ?_, ?_⟩
      · rw [h1]; simp
      · intro c hc
        rcases List.mem_cons.1 hc with hc | hc
        · rw [hc]; exact hd.1
        · exact h2 c hc
      · simp only [magnitude, hd.2, h3]
        omega
      · intro _
        have hne : ds ≠ [] := by
          intro hnil
          rw [hnil] at h3
          simp only [magnitude] at h3
          exact hz h3.symm
        have h5 := h4 hz
        cases ds with
        | nil => exact absurd rfl hne
        | cons d ds2 =>
          rw [List.getLast?_cons_cons]
          exact h5
      · intro hv
        subst hv
        exact absurd rfl hz

end ll_item

/-- C20: for a value `v` that is not negative, `from_number(v)` is the sequence of
the decimal digits of `v`, least significant first: every element is a digit,
there is no sign marker, the digits weighted by the powers of ten sum to `v`,
the most significant digit is not `0` unless `v = 0`, and `from_number(0)` is
the single digit `0`.  The instruction `~` pushes this number for the offset of
the instruction. -/
theorem from_number_digits (v : Int) (h0 : 0 ≤ v) :
    (∀ c ∈ (ll_item.from_number v).value_, is_digit c = true) ∧
    (ll_item.from_number v).is_negative = false ∧
    ll_item.magnitude (ll_item.from_number v).value_ = v ∧
    (v ≠ 0 → (ll_item.from_number v).value_.getLast? ≠ some '0') ∧
    (v = 0 → (ll_item.from_number v).value_ = ['0']) ∧
    (∀ (c : cpu) (pc : Nat), c.program_[pc]? = some '~' →
      c.single_step pc =
        some ({ c with stack_ := c.stack_.push (ll_item.from_number (pc : Int)) },
          some (pc + 1))) := by
  obtain ⟨ds, h1, h2, h3, h4, h5⟩ :=
    ll_item.do_format_last (v.natAbs + 1) v [] h0 (by omega)
  have hv : ll_item.from_number v = ⟨ds⟩ := by
    unfold ll_item.from_number
    simp only [h1, List.nil_append]
    rw [if_neg (by omega)]
  have hlast : ds.getLast? ≠ some '-' := by
    intro h
    exact ll_item.is_digit_ne_minus (h2 _ (List.mem_of_getLast?_eq_some h)) rfl
  rw [hv]
  refine ⟨h2, (ll_item.is_negative_false_iff _).2 hlast, h3, h4, h5, ?_⟩
  intro c pc hp
  obtain ⟨g1, g2⟩ := cpu.insn_at c pc _ hp
  unfold cpu.single_step
  rw [if_neg g1]
  simp only [g2]
  rw [if_neg (by decide)]

/-- The statement of C20 at `120`. -/
theorem from_number_digits_witness :
    (ll_item.from_number 120).value_.getLast? ≠ some '0' ∧
    ll_item.magnitude (ll_item.from_number 120).value_ = 120 :=
  ⟨(from_number_digits 120 (by decide)).2.2.2.1 (by decide),
   (from_number_digits 120 (by decide)).2.2.1⟩

/-! ## The sum computed by `add` -/

namespace ll_item

theorem magnitude_append (xs ys : List Char) :
    magnitude (xs ++ ys) = magnitude xs + 10 ^ xs.length * magnitude ys := by
  induction xs with
  | nil => simp [magnitude]
  | cons x xs ih =>
    rw [List.cons_append]
    simp only [magnitude, List.length_cons, pow_succ]
    rw [ih]
    ring

theorem do_trim_magnitude (r : List Char) :
    magnitude (trim_zeros.do_trim r).reverse = magnitude r.reverse := by
  induction r using trim_zeros.do_trim.induct with
  | case1 => rfl
  | case2 c => rfl
  | case3 c d rest hc => rw [trim_zeros.do_trim, if_pos hc]
  | case4 c d rest hc ih =>
    rw [trim_zeros.do_trim, if_neg hc, ih]
    have hc0 : c = '0' := by simpa using hc
    subst hc0
    rw [List.reverse_cons ('0'), magnitude_append]
    simp [magnitude, digit_value]

theorem trim_zeros_magnitude (x : ll_item) :
    magnitude x.trim_zeros.value_ = magnitude x.value_ := by
  have := do_trim_magnitude x.value_.reverse
  simpa [trim_zeros] using this

theorem digit_step_plus (l r carry : Int) (hl0 : 0 ≤ l) (hl9 : l ≤ 9) (hr0 : 0 ≤ r)
    (hr9 : r ≤ 9) (hc0 : 0 ≤ carry) (hc1 : carry ≤ 1) :
    is_digit (add.digit_step add.plus l r carry).1 = true ∧
    digit_value (add.digit_step add.plus l r carry).1 +
      10 * (add.digit_step add.plus l r carry).2 = l + r + carry ∧
    0 ≤ (add.digit_step add.plus l r carry).2 ∧ (add.digit_step add.plus l r carry).2 ≤ 1 := by
  unfold add.digit_step add.plus
  have h := (tdiv_tmod_ten (l + r + carry)).1 (by omega)
  simp only
  rw [if_neg (by omega)]
  have hd := digit_char_spec ((l + r + carry).tmod 10) (by omega) (by omega)
  refine ⟨hd.1, ?_, ?_, ?_⟩
  · rw [hd.2]; omega
  · omega
  · omega

theorem do_digit_left_null_plus (r : List Char) (hr : ∀ c ∈ r, is_digit c = true)
    (carry : Int) (hc0 : 0 ≤ carry) (hc1 : carry ≤ 1) (out : ll_item) :
    ∃ ds, (add.do_digit_left_null add.plus r carry out).1.value_ = out.value_ ++ ds ∧
      ds.length = r.length ∧
      0 ≤ (add.do_digit_left_null add.plus r carry out).2 ∧
      (add.do_digit_left_null add.plus r carry out).2 ≤ 1 ∧
      magnitude ds + 10 ^ ds.length * (add.do_digit_left_null add.plus r carry out).2 =
        magnitude r + carry := by
  induction r generalizing carry out with
  | nil =>
    refine ⟨[], by simp [add.do_digit_left_null], rfl, hc0, hc1, ?_⟩
    simp [add.do_digit_left_null, magnitude]
  | cons y rs ih =>
    have hy := digit_value_range (hr y (by simp))
    have hs := digit_step_plus 0 (digit_value y) carry (by omega) (by omega) hy.1 hy.2 hc0 hc1
    obtain ⟨ds, h1, h2, h3, h4, h5⟩ := ih (fun c hc => hr c (List.mem_cons_of_mem _ hc))
      (add.digit_step add.plus 0 (digit_value y) carry).2 hs.2.2.1 hs.2.2.2
      (out.append (add.digit_step add.plus 0 (digit_value y) carry).1)
    simp only [add.do_digit_left_null]
    refine ⟨(add.digit_step add.plus 0 (digit_value y) carry).1 :: ds, ?_, ?_, h3, h4, ?_⟩
    · rw [h1, append_value]; simp
    · simp [h2]
    · simp only [magnitude, List.length_cons, pow_succ]
      linear_combination hs.2.1 + 10 * h5

theorem do_digit_plus (l r : List Char) (hl : ∀ c ∈ l, is_digit c = true)
    (hr : ∀ c ∈ r, is_digit c = true)
    (carry : Int) (hc0 : 0 ≤ carry) (hc1 : carry ≤ 1) (out : ll_item) :
    ∃ ds, (add.do_digit add.plus l r carry out).1.value_ = out.value_ ++ ds ∧
      0 ≤ (add.do_digit add.plus l r carry out).2 ∧
      (add.do_digit add.plus l r carry out).2 ≤ 1 ∧
      magnitude ds + 10 ^ ds.length * (add.do_digit add.plus l r carry out).2 =
        magnitude l + magnitude r + carry := by
  induction l generalizing r carry out with
  | nil =>
    obtain ⟨ds, h1, _, h3, h4, h5⟩ := do_digit_left_null_plus r hr carry hc0 hc1 out
    rw [add.do_digit]
    exact ⟨ds, h1, h3, h4, by simpa [magnitude] using h5⟩
  | cons x ls ih =>
    have hx := digit_value_range (hl x (by simp))
    have hls : ∀ c ∈ ls, is_digit c = true := fun c hc => hl c (List.mem_cons_of_mem _ hc)
    cases r with
    | nil =>
      have hs := digit_step_plus (digit_value x) 0 carry hx.1 hx.2 (by omega) (by omega) hc0 hc1
      obtain ⟨ds, h1, h3, h4, h5⟩ := ih [] hls hr
        (add.digit_step add.plus (digit_value x) 0 carry).2 hs.2.2.1 hs.2.2.2
        (out.append (add.digit_step add.plus (digit_value x) 0 carry).1)
      simp only [add.do_digit]
      refine ⟨(add.digit_step add.plus (digit_value x) 0 carry).1 :: ds, ?_, h3, h4, ?_⟩
      · rw [h1, append_value]; simp
      · simp only [magnitude, List.length_cons, pow_succ] at h5 ⊢
        linear_combination hs.2.1 + 10 * h5
    | cons y rs =>
      have hy := digit_value_range (hr y (by simp))
      have hs := digit_step_plus (digit_value x) (digit_value y) carry hx.1 hx.2 hy.1 hy.2
        hc0 hc1
      obtain ⟨ds, h1, h3, h4, h5⟩ := ih rs hls (fun c hc => hr c (List.mem_cons_of_mem _ hc))
        (add.digit_step add.plus (digit_value x) (digit_value y) carry).2 hs.2.2.1 hs.2.2.2
        (out.append (add.digit_step add.plus (digit_value x) (digit_value y) carry).1)
      simp only [add.do_digit]
      refine ⟨(add.digit_step add.plus (digit_value x) (digit_value y) carry).1 :: ds, ?_,
        h3, h4, ?_⟩
      · rw [h1, append_value]; simp
      · simp only [magnitude, List.length_cons, pow_succ]
        linear_combination hs.2.1 + 10 * h5

theorem denote_of_digits (t : ll_item) (hd : ∀ c ∈ t.value_, is_digit c = true) :
    t.is_negative = false ∧ t.digits = t.value_ ∧ t.denote = magnitude t.value_ ∧
    t.negate.denote = -magnitude t.value_ := by
  have hlast : t.value_.getLast? ≠ some '-' := by
    intro h
    exact is_digit_ne_minus (hd _ (List.mem_of_getLast?_eq_some h)) rfl
  have hneg : t.is_negative = false := (is_negative_false_iff t).2 hlast
  have hdig : t.digits = t.value_ := by simp [digits, hlast]
  have hwf : t.well_formed := by intro c hc; rw [hdig] at hc; exact hd c hc
  refine ⟨hneg, hdig, ?_, ?_⟩
  · rw [denote_eq, hneg, hdig]; rfl
  · rw [denote_eq, negate_is_negative t hwf, negate_digits t hwf, hneg, hdig]; rfl

theorem finish_denote (res : ll_item × Int) (flag : Bool) (m : Int)
    (hfc0 : 0 ≤ res.2) (hfc1 : res.2 ≤ 1)
    (hd : ∀ c ∈ res.1.value_, is_digit c = true) (hne : res.1.value_ ≠ [])
    (hm : magnitude res.1.value_ + 10 ^ res.1.value_.length * res.2 = m) :
    (add.finish res flag).denote = if flag then -m else m := by
  unfold add.finish
  have hlt : ¬ res.2 < 0 := by omega
  simp only [hlt, if_false]
  generalize hout : (if res.2 != 0 then res.1.append (digit_char (res.2.tmod 10)) else res.1) = out
  have hout_ne : out.value_ ≠ [] := by
    rw [← hout]; split
    · simp [append_value]
    · exact hne
  have hfc : res.2 = 0 ∨ res.2 = 1 := by omega
  have hout_d : ∀ c ∈ out.value_, is_digit c = true := by
    rw [← hout]; split
    · intro c hc
      simp only [append_value, List.mem_append, List.mem_singleton] at hc
      rcases hc with hc | hc
      · exact hd c hc
      · rw [hc]
        have h := (tdiv_tmod_ten res.2).1 hfc0
        exact (digit_char_spec _ (by omega) (by omega)).1
    · exact hd
  have hout_m : magnitude out.value_ = m := by
    rw [← hout, ← hm]
    rcases hfc with h0 | h1
    · simp [h0]
    · have hdc : digit_value (digit_char ((1 : Int).tmod 10)) = 1 := by decide
      rw [h1]
      simp only [bne_iff_ne, ne_eq, one_ne_zero, not_false_eq_true, if_true, append_value,
        magnitude_append, magnitude, hdc]
      ring
  have hs := trim_zeros_shape out hout_ne
  have hT_d : ∀ c ∈ out.trim_zeros.value_, is_digit c = true :=
    fun c hc => hout_d c (hs.2.1 c hc)
  have hT_m : magnitude out.trim_zeros.value_ = m := by
    rw [trim_zeros_magnitude, hout_m]
  have hT := denote_of_digits out.trim_zeros hT_d
  by_cases hcond : (flag && out.trim_zeros.is_truthy) = true
  · rw [if_pos hcond, hT.2.2.2, hT_m]
    have : flag = true := by cases flag <;> simp_all
    rw [this]; rfl
  · rw [if_neg hcond, hT.2.2.1, hT_m]
    cases hf : flag with
    | false => rfl
    | true =>
      have ht : out.trim_zeros.is_truthy = false := by
        cases h : out.trim_zeros.is_truthy with
        | false => rfl
        | true => rw [hf, h] at hcond; exact absurd rfl hcond
      have hz : out.trim_zeros.value_ = ['0'] := by
        rcases (cpu.value_of_not_truthy _).1 ht with h | h
        · exact absurd h hs.1
        · exact h
      rw [hz] at hT_m
      have : m = 0 := by rw [← hT_m]; decide
      rw [this]; rfl

theorem add_eq_finish_same (a b : ll_item)
    (h : (a.is_negative && !numerically_zero.do_check a.digits) =
      (b.is_negative && !numerically_zero.do_check b.digits)) :
    a.add b = add.finish (add.do_digit add.plus a.digits b.digits 0 ⟨[]⟩)
      (a.is_negative && !numerically_zero.do_check a.digits) := by
  unfold add add.finish
  simp only [make_absolute_value, numerically_zero]
  revert h
  cases a.is_negative <;> cases b.is_negative <;>
    cases numerically_zero.do_check a.digits <;>
    cases numerically_zero.do_check b.digits <;> simp

theorem do_check_eq_decide (a : ll_item) (ha : a.well_formed) :
    numerically_zero.do_check a.digits = decide (magnitude a.digits = 0) := by
  rw [Bool.eq_iff_iff, decide_eq_true_eq]
  exact (do_check_iff a.digits).trans (magnitude_eq_zero_iff a.digits ha).symm

theorem canonical_sign_iff (a : ll_item) (ha : a.well_formed) :
    (a.is_negative && !numerically_zero.do_check a.digits) = true ↔ a.denote < 0 := by
  have hm := magnitude_nonneg a.digits ha
  rw [denote_eq, do_check_eq_decide a ha]
  generalize magnitude a.digits = ma at *
  by_cases h0 : ma = 0 <;> cases a.is_negative <;> simp [h0] <;> omega

/-- C17: for well-formed operands that are both negative or both not negative,
negative zero counting as not negative, the integer denoted by `add(a, b)` is the
sum of the integers denoted by `a` and by `b`, whatever the lengths of the
operands and the carries; a digit in the receiver `a` is all that is needed of
the two digit sequences. -/
theorem add_same_sign_denote (a b : ll_item) (ha : a.well_formed) (hb : b.well_formed)
    (hda : a.digits ≠ []) (hsign : a.denote < 0 ↔ b.denote < 0) :
    (a.add b).denote = a.denote + b.denote := by
  have hsa := canonical_sign_iff a ha
  have hsb := canonical_sign_iff b hb
  have hsame : (a.is_negative && !numerically_zero.do_check a.digits) =
      (b.is_negative && !numerically_zero.do_check b.digits) := by
    rw [Bool.eq_iff_iff, hsa, hsb]; exact hsign
  obtain ⟨ds, h1, h2, h3, h4⟩ := do_digit_plus a.digits b.digits ha hb 0 (by omega) (by omega) ⟨[]⟩
  have hdig := (do_digit_spec add.plus a.digits b.digits 0 ⟨[]⟩ (by simp)).1
  have hne := do_digit_ne_nil add.plus a.digits b.digits 0 hda
  rw [add_eq_finish_same a b hsame,
    finish_denote _ _ (magnitude a.digits + magnitude b.digits) h2 h3 hdig hne
      (by rw [h1]; simpa using h4)]
  have hma := magnitude_nonneg a.digits ha
  have hmb := magnitude_nonneg b.digits hb
  rw [denote_eq, denote_eq]
  rw [do_check_eq_decide a ha, do_check_eq_decide b hb] at hsame
  rw [do_check_eq_decide a ha]
  clear hsa hsb hsign h4 h3 h2 h1 hdig hne
  generalize magnitude a.digits = ma at *
  generalize magnitude b.digits = mb at *
  revert hsame
  by_cases h0 : ma = 0 <;> by_cases h1 : mb = 0 <;>
    cases a.is_negative <;> cases b.is_negative <;> (simp [h0, h1]; try omega)

/-- The statement of C17 at `-95` and `-7`. -/
theorem add_same_sign_denote_witness :
    ((ll_item.mk ['5', '9', '-']).add ⟨['7', '-']⟩).denote =
      (ll_item.mk ['5', '9', '-']).denote + (ll_item.mk ['7', '-']).denote :=
  add_same_sign_denote ⟨['5', '9', '-']⟩ ⟨['7', '-']⟩ (by decide) (by decide) (by decide)
    (by decide)

/-- C18 fails at the receiver `5` and the argument `-3`: both are well formed and
of opposite sign, the receiver has the larger magnitude, and `add` returns the
digits `8 1`, the number `18`, where the difference of the magnitudes is `2`. -/
theorem add_opposite_sign_fails :
    (ll_item.mk ['5']).well_formed ∧ (ll_item.mk ['3', '-']).well_formed ∧
    (ll_item.mk ['5']).denote = 5 ∧ (ll_item.mk ['3', '-']).denote = -3 ∧
    ((ll_item.mk ['5']).add ⟨['3', '-']⟩).value_ = ['8', '1'] ∧
    ((ll_item.mk ['5']).add ⟨['3', '-']⟩).denote = 18 := by
  decide

end ll_item

namespace ll_item

theorem magnitude_lt (l : List Char) (hl : ∀ c ∈ l, is_digit c = true) :
    magnitude l < 10 ^ l.length := by
  induction l with
  | nil => simp [magnitude]
  | cons c l ih =>
    have h1 := digit_value_range (hl c (by simp))
    have h2 := ih (fun x hx => hl x (List.mem_cons_of_mem _ hx))
    simp only [magnitude, List.length_cons, pow_succ]
    omega

theorem digit_step_minus (l r carry : Int) (hl0 : 0 ≤ l) (hl9 : l ≤ 9) (hr0 : 0 ≤ r)
    (hr9 : r ≤ 9) (hc0 : -1 ≤ carry) (hc1 : carry ≤ 0) :
    digit_value (add.digit_step add.minus l r carry).1 +
      10 * (add.digit_step add.minus l r carry).2 = l - r + carry ∧
    -1 ≤ (add.digit_step add.minus l r carry).2 ∧
    (add.digit_step add.minus l r carry).2 ≤ 0 := by
  unfold add.digit_step add.minus
  have h := tdiv_tmod_ten (l - r + carry)
  simp only
  by_cases hneg : (l - r + carry).tmod 10 < 0
  · rw [if_pos hneg]
    have hlt : l - r + carry < 0 := by
      by_contra hge
      have := (h.1 (by omega)).2
      omega
    have h2 := h.2 hlt
    have hd := digit_char_spec (10 + (l - r + carry).tmod 10) (by omega) (by omega)
    refine ⟨?_, by omega, by omega⟩
    rw [hd.2]
    omega
  · rw [if_neg hneg]
    by_cases hlt : l - r + carry < 0
    · have h2 := h.2 hlt
      have hd := digit_char_spec ((l - r + carry).tmod 10) (by omega) (by omega)
      refine ⟨?_, by omega, by omega⟩
      rw [hd.2]
      omega
    · have h2 := h.1 (by omega)
      have hd := digit_char_spec ((l - r + carry).tmod 10) (by omega) (by omega)
      refine ⟨?_, by omega, by omega⟩
      rw [hd.2]
      omega

theorem do_digit_left_null_minus (r : List Char) (hr : ∀ c ∈ r, is_digit c = true)
    (carry : Int) (hc0 : -1 ≤ carry) (hc1 : carry ≤ 0) (out : ll_item) :
    ∃ ds, (add.do_digit_left_null add.minus r carry out).1.value_ = out.value_ ++ ds ∧
      -1 ≤ (add.do_digit_left_null add.minus r carry out).2 ∧
      (add.do_digit_left_null add.minus r carry out).2 ≤ 0 ∧
      magnitude ds + 10 ^ ds.length * (add.do_digit_left_null add.minus r carry out).2 =
        carry - magnitude r := by
  induction r generalizing carry out with
  | nil =>
    refine ⟨[], by simp [add.do_digit_left_null], hc0, hc1, ?_⟩
    simp [add.do_digit_left_null, magnitude]
  | cons y rs ih =>
    have hy := digit_value_range (hr y (by simp))
    have hs := digit_step_minus 0 (digit_value y) carry (by omega) (by omega) hy.1 hy.2 hc0 hc1
    obtain ⟨ds, h1, h3, h4, h5⟩ := ih (fun c hc => hr c (List.mem_cons_of_mem _ hc))
      (add.digit_step add.minus 0 (digit_value y) carry).2 hs.2.1 hs.2.2
      (out.append (add.digit_step add.minus 0 (digit_value y) carry).1)
    simp only [add.do_digit_left_null]
    refine ⟨(add.digit_step add.minus 0 (digit_value y) carry).1 :: ds, ?_, h3, h4, ?_⟩
    · rw [h1, append_value]; simp
    · simp only [magnitude, List.length_cons, pow_succ]
      linear_combination hs.1 + 10 * h5

theorem do_digit_minus (l r : List Char) (hl : ∀ c ∈ l, is_digit c = true)
    (hr : ∀ c ∈ r, is_digit c = true)
    (carry : Int) (hc0 : -1 ≤ carry) (hc1 : carry ≤ 0) (out : ll_item) :
    ∃ ds, (add.do_digit add.minus l r carry out).1.value_ = out.value_ ++ ds ∧
      -1 ≤ (add.do_digit add.minus l r carry out).2 ∧
      (add.do_digit add.minus l r carry out).2 ≤ 0 ∧
      magnitude ds + 10 ^ ds.length * (add.do_digit add.minus l r carry out).2 =
        magnitude l - magnitude r + carry := by
  induction l generalizing r carry out with
  | nil =>
    obtain ⟨ds, h1, h3, h4, h5⟩ := do_digit_left_null_minus r hr carry hc0 hc1 out
    rw [add.do_digit]
    refine ⟨ds, h1, h3, h4, ?_⟩
    simp only [magnitude]
    linear_combination h5
  | cons x ls ih =>
    have hx := digit_value_range (hl x (by simp))
    have hls : ∀ c ∈ ls, is_digit c = true := fun c hc => hl c (List.mem_cons_of_mem _ hc)
    cases r with
    | nil =>
      have hs := digit_step_minus (digit_value x) 0 carry hx.1 hx.2 (by omega) (by omega) hc0 hc1
      obtain ⟨ds, h1, h3, h4, h5⟩ := ih [] hls hr
        (add.digit_step add.minus (digit_value x) 0 carry).2 hs.2.1 hs.2.2
        (out.append (add.digit_step add.minus (digit_value x) 0 carry).1)
      simp only [add.do_digit]
      refine ⟨(add.digit_step add.minus (digit_value x) 0 carry).1 :: ds, ?_, h3, h4, ?_⟩
      · rw [h1, append_value]; simp
      · simp only [magnitude, List.length_cons, pow_succ] at h5 ⊢
        linear_combination hs.1 + 10 * h5
    | cons y rs =>
      have hy := digit_value_range (hr y (by simp))
      have hs := digit_step_minus (digit_value x) (digit_value y) carry hx.1 hx.2 hy.1 hy.2
        hc0 hc1
      obtain ⟨ds, h1, h3, h4, h5⟩ := ih rs hls (fun c hc => hr c (List.mem_cons_of_mem _ hc))
        (add.digit_step add.minus (digit_value x) (digit_value y) carry).2 hs.2.1 hs.2.2
        (out.append (add.digit_step add.minus (digit_value x) (digit_value y) carry).1)
      simp only [add.do_digit]
      refine ⟨(add.digit_step add.minus (digit_value x) (digit_value y) carry).1 :: ds, ?_,
        h3, h4, ?_⟩
      · rw [h1, append_value]; simp
      · simp only [magnitude, List.length_cons, pow_succ]
        linear_combination hs.1 + 10 * h5

/-- Subtracting a magnitude that is not the larger one leaves no borrow. -/
theorem do_digit_minus_no_borrow (l r : List Char) (hl : ∀ c ∈ l, is_digit c = true)
    (hr : ∀ c ∈ r, is_digit c = true) (hle : magnitude r ≤ magnitude l) :
    (add.do_digit add.minus l r 0 ⟨[]⟩).2 = 0 ∧
    magnitude (add.do_digit add.minus l r 0 ⟨[]⟩).1.value_ = magnitude l - magnitude r := by
  obtain ⟨ds, h1, h3, h4, h5⟩ := do_digit_minus l r hl hr 0 (by omega) (by omega) ⟨[]⟩
  have hdig := (do_digit_spec add.minus l r 0 ⟨[]⟩ (by simp)).1
  simp only [List.nil_append] at h1
  rw [h1] at hdig ⊢
  have hlt := magnitude_lt ds hdig
  have hnn := magnitude_nonneg ds hdig
  have hfc : (add.do_digit add.minus l r 0 ⟨[]⟩).2 = 0 := by
    rcases (show (add.do_digit add.minus l r 0 ⟨[]⟩).2 = -1 ∨
        (add.do_digit add.minus l r 0 ⟨[]⟩).2 = 0 by omega) with h | h
    · rw [h] at h5
      have : magnitude ds - 10 ^ ds.length = magnitude l - magnitude r := by
        linear_combination h5
      omega
    · exact h
  refine ⟨hfc, ?_⟩
  rw [hfc] at h5
  linear_combination h5

theorem add_eq_finish_opposite (a b : ll_item)
    (h : (a.is_negative && !numerically_zero.do_check a.digits) ≠
      (b.is_negative && !numerically_zero.do_check b.digits)) :
    a.add b = add.finish (add.do_digit add.minus b.digits a.digits 0 ⟨[]⟩)
      (b.is_negative && !numerically_zero.do_check b.digits) := by
  unfold add add.finish
  simp only [make_absolute_value, numerically_zero]
  revert h
  cases a.is_negative <;> cases b.is_negative <;>
    cases numerically_zero.do_check a.digits <;>
    cases numerically_zero.do_check b.digits <;> simp

/-- On well-formed operands of opposite sign `add` denotes the sum when the
magnitude of the receiver `a` is not the larger one. -/
theorem add_opposite_sign_denote (a b : ll_item) (ha : a.well_formed) (hb : b.well_formed)
    (hdb : b.digits ≠ []) (hsign : a.denote < 0 ↔ ¬ b.denote < 0)
    (hle : magnitude a.digits ≤ magnitude b.digits) :
    (a.add b).denote = a.denote + b.denote := by
  have hsa := canonical_sign_iff a ha
  have hsb := canonical_sign_iff b hb
  have hdiff : (a.is_negative && !numerically_zero.do_check a.digits) ≠
      (b.is_negative && !numerically_zero.do_check b.digits) := by
    intro heq
    rw [Bool.eq_iff_iff, hsa, hsb] at heq
    exact absurd (hsign.trans (not_congr heq.symm)) (by tauto)
  obtain ⟨hfc, hmag⟩ := do_digit_minus_no_borrow b.digits a.digits hb ha hle
  have hdig := (do_digit_spec add.minus b.digits a.digits 0 ⟨[]⟩ (by simp)).1
  have hne := do_digit_ne_nil add.minus b.digits a.digits 0 hdb
  rw [add_eq_finish_opposite a b hdiff,
    finish_denote _ _ (magnitude b.digits - magnitude a.digits) (by omega) (by omega) hdig hne
      (by rw [hfc, hmag]; ring)]
  have hma := magnitude_nonneg a.digits ha
  have hmb := magnitude_nonneg b.digits hb
  rw [denote_eq, denote_eq]
  rw [do_check_eq_decide a ha, do_check_eq_decide b hb] at hdiff
  rw [do_check_eq_decide b hb]
  clear hsa hsb hsign hfc hmag hdig hne
  generalize magnitude a.digits = ma at *
  generalize magnitude b.digits = mb at *
  revert hdiff
  by_cases h0 : ma = 0 <;> by_cases h1 : mb = 0 <;>
    cases a.is_negative <;> cases b.is_negative <;> (simp [h0, h1]; try omega)

end ll_item

/-! ## Well-formedness of `linked_list` under its mutating operations -/

namespace linked_list

variable {T : Type}

theorem chain_alloc (h : heap T) (cells : List (Nat × T)) (p c : Option Nat)
    (hchain : chain h p c cells) : ∀ a ∈ cells.map Prod.fst, ∃ nd, h a = some nd := by
  induction cells generalizing p c with
  | nil => intro a ha; simp at ha
  | cons x rest ih =>
    intro a ha
    simp only [chain] at hchain
    cases hx : h x.1 with
    | none => simp [hx] at hchain
    | some nd =>
      simp only [hx] at hchain
      simp only [List.map_cons, List.mem_cons] at ha
      rcases ha with ha | ha
      · exact ⟨nd, by rw [ha, hx]⟩
      · exact ih _ _ hchain.2.2.2 a ha

theorem chain_head (h : heap T) (x : Nat × T) (rest : List (Nat × T)) (p c : Option Nat)
    (hchain : chain h p c (x :: rest)) :
    ∃ nd, h x.1 = some nd ∧ c = some x.1 ∧ nd.value = x.2 ∧ nd.prev_ = p ∧
      chain h (some x.1) nd.next_ rest := by
  simp only [chain] at hchain
  cases hx : h x.1 with
  | none => simp [hx] at hchain
  | some nd =>
    simp only [hx] at hchain
    exact ⟨nd, rfl, hchain⟩

theorem chain_cons (h : heap T) (x : Nat × T) (rest : List (Nat × T)) (p c : Option Nat)
    (nd : node T) (hx : h x.1 = some nd) (hc : c = some x.1) (hv : nd.value = x.2)
    (hp : nd.prev_ = p) (hrest : chain h (some x.1) nd.next_ rest) :
    chain h p c (x :: rest) := by
  simp only [chain, hx]
  exact ⟨hc, hv, hp, hrest⟩

/-- The chain after a node `n` has been linked in behind the node `a`. -/
theorem chain_insert (h h2 : heap T) (pre post : List (Nat × T)) (a : Nat) (av : T)
    (n : Nat) (u : T) (an : node T) (p c : Option Nat)
    (hchain : chain h p c (pre ++ (a, av) :: post))
    (hpre : ∀ x ∈ pre.map Prod.fst, h2 x = h x)
    (ha : h a = some an) (ha2 : h2 a = some { an with next_ := some n })
    (hn2 : h2 n = some ⟨u, an.next_, some a⟩)
    (hpost : ∀ x post1, post = x :: post1 →
      (∃ xn, h x.1 = some xn ∧ h2 x.1 = some { xn with prev_ := some n }) ∧
      ∀ y ∈ post1.map Prod.fst, h2 y = h y) :
    chain h2 p c (pre ++ (a, av) :: (n, u) :: post) := by
  induction pre generalizing p c with
  | nil =>
    obtain ⟨nd, h1, h2c, h3, h4, h5⟩ := chain_head h (a, av) post p c hchain
    simp only at h1
    rw [ha] at h1
    cases h1
    refine chain_cons h2 (a, av) _ p c _ ha2 h2c h3 h4 ?_
    refine chain_cons h2 (n, u) _ _ _ _ hn2 rfl rfl rfl ?_
    cases post with
    | nil => exact h5
    | cons x post1 =>
      obtain ⟨⟨xn, hx, hx2⟩, hrest⟩ := hpost x post1 rfl
      obtain ⟨nd, g1, g2, g3, _, g5⟩ := chain_head h x post1 _ _ h5
      rw [hx] at g1
      cases g1
      refine chain_cons h2 x _ _ _ _ hx2 g2 g3 rfl ?_
      exact (chain_congr h h2 post1 hrest _ _).2 g5
  | cons x rest ih =>
    obtain ⟨nd, h1, h2c, h3, h4, h5⟩ := chain_head h x _ p c hchain
    have hx : h2 x.1 = some nd := by rw [hpre x.1 (by simp), h1]
    refine chain_cons h2 x _ p c nd hx h2c h3 h4 ?_
    exact ih _ _ h5 (fun y hy => hpre y (by simp only [List.map_cons, List.mem_cons]; exact Or.inr hy))

/-- The chain after the first node has been given a new predecessor `n`. -/
theorem chain_insert_front (h h2 : heap T) (post : List (Nat × T)) (b : Nat) (bv : T)
    (n : Nat) (u : T) (bn : node T) (p c : Option Nat)
    (hchain : chain h p c ((b, bv) :: post))
    (hb : h b = some bn) (hb2 : h2 b = some { bn with prev_ := some n })
    (hn2 : h2 n = some ⟨u, some b, p⟩)
    (hpost : ∀ y ∈ post.map Prod.fst, h2 y = h y) :
    chain h2 p (some n) ((n, u) :: (b, bv) :: post) := by
  obtain ⟨nd, h1, _, h3, _, h5⟩ := chain_head h (b, bv) post p c hchain
  simp only at h1
  rw [hb] at h1
  cases h1
  refine chain_cons h2 (n, u) _ _ _ _ hn2 rfl rfl rfl ?_
  refine chain_cons h2 (b, bv) _ _ _ _ hb2 rfl h3 rfl ?_
  exact (chain_congr h h2 post hpost _ _).2 h5

/-- The chain after its first node has been unlinked. -/
theorem chain_remove_front (h h2 : heap T) (post : List (Nat × T)) (a : Nat) (av : T)
    (an : node T) (p c : Option Nat)
    (hchain : chain h p c ((a, av) :: post)) (ha : h a = some an)
    (hpost : ∀ x post1, post = x :: post1 →
      (∃ xn, h x.1 = some xn ∧ h2 x.1 = some { xn with prev_ := p }) ∧
      ∀ y ∈ post1.map Prod.fst, h2 y = h y) :
    chain h2 p an.next_ post := by
  obtain ⟨nd, h1, _, _, _, h5⟩ := chain_head h (a, av) post p c hchain
  simp only at h1
  rw [ha] at h1
  cases h1
  cases post with
  | nil => exact h5
  | cons x post1 =>
    obtain ⟨⟨xn, hx, hx2⟩, hrest⟩ := hpost x post1 rfl
    obtain ⟨nd, g1, g2, g3, _, g5⟩ := chain_head h x post1 _ _ h5
    rw [hx] at g1
    cases g1
    refine chain_cons h2 x _ _ _ _ hx2 g2 g3 rfl ?_
    exact (chain_congr h h2 post1 hrest _ _).2 g5

/-- The chain after the node `a` behind the node `q` has been unlinked. -/
theorem chain_remove (h h2 : heap T) (pre post : List (Nat × T)) (q : Nat) (qv : T)
    (a : Nat) (av : T) (qn an : node T) (p c : Option Nat)
    (hchain : chain h p c (pre ++ (q, qv) :: (a, av) :: post))
    (hpre : ∀ x ∈ pre.map Prod.fst, h2 x = h x)
    (hq : h q = some qn) (hq2 : h2 q = some { qn with next_ := an.next_ })
    (ha : h a = some an)
    (hpost : ∀ x post1, post = x :: post1 →
      (∃ xn, h x.1 = some xn ∧ h2 x.1 = some { xn with prev_ := some q }) ∧
      ∀ y ∈ post1.map Prod.fst, h2 y = h y) :
    chain h2 p c (pre ++ (q, qv) :: post) := by
  induction pre generalizing p c with
  | nil =>
    obtain ⟨nd, h1, h2c, h3, h4, h5⟩ := chain_head h (q, qv) _ p c hchain
    simp only at h1
    rw [hq] at h1
    cases h1
    refine chain_cons h2 (q, qv) _ p c _ hq2 h2c h3 h4 ?_
    exact chain_remove_front h h2 post a av an (some q) _ h5 ha hpost
  | cons x rest ih =>
    obtain ⟨nd, h1, h2c, h3, h4, h5⟩ := chain_head h x _ p c hchain
    have hx : h2 x.1 = some nd := by rw [hpre x.1 (by simp), h1]
    refine chain_cons h2 x _ p c nd hx h2c h3 h4 ?_
    exact ih _ _ h5 (fun y hy => hpre y (by simp only [List.map_cons, List.mem_cons]; exact Or.inr hy))


theorem chain_at (h : heap T) (pre rest : List (Nat × T)) (x : Nat × T) (p c : Option Nat)
    (hchain : chain h p c (pre ++ x :: rest)) :
    ∃ nd, h x.1 = some nd ∧ nd.value = x.2 ∧
      nd.prev_ = (match pre.getLast? with
        | none => p
        | some q => some q.1) ∧
      chain h (some x.1) nd.next_ rest := by
  induction pre generalizing p c with
  | nil =>
    obtain ⟨nd, h1, _, h3, h4, h5⟩ := chain_head h x rest p c hchain
    exact ⟨nd, h1, h3, h4, h5⟩
  | cons y pre ih =>
    obtain ⟨nd, h1, _, _, _, h5⟩ := chain_head h y _ p c hchain
    obtain ⟨nd2, g1, g2, g3, g4⟩ := ih _ _ h5
    refine ⟨nd2, g1, g2, ?_, g4⟩
    rw [g3]
    cases pre with
    | nil => rfl
    | cons z pre2 =>
      rw [List.getLast?_cons_cons]
      cases hg : (z :: pre2).getLast? with
      | none => simp at hg
      | some q => rfl

theorem chain_next (h : heap T) (rest : List (Nat × T)) (p c : Option Nat)
    (hchain : chain h p c rest) : c = rest.head?.map Prod.fst := by
  cases rest with
  | nil => simpa [chain] using hchain
  | cons x rest =>
    obtain ⟨_, _, h2, _⟩ := chain_head h x rest p c hchain
    simpa using h2

theorem set_prev_eq (h : heap T) (a : Nat) (v : Option Nat) (nd : node T) (ha : h a = some nd) :
    set_prev h a v = some (h.write a { nd with prev_ := v }) := by
  simp [set_prev, ha]

theorem set_next_eq (h : heap T) (a : Nat) (v : Option Nat) (nd : node T) (ha : h a = some nd) :
    set_next h a v = some (h.write a { nd with next_ := v }) := by
  simp [set_next, ha]

theorem insert_after_owns (h : heap T) (l : linked_list) (pre post : List (Nat × T))
    (a : Nat) (av : T) (n : Nat) (u : T)
    (hown : owns h l (pre ++ (a, av) :: post)) (hn : h n = none) :
    ∃ h2 l2, insert_after h l (some a) n u = some (h2, l2, n) ∧
      owns h2 l2 (pre ++ (a, av) :: (n, u) :: post) := by
  obtain ⟨hc, ht, hnd⟩ := hown
  have halloc := chain_alloc h _ _ _ hc
  have hnot : n ∉ (pre ++ (a, av) :: post).map Prod.fst := by
    intro hmem
    obtain ⟨nd, hnd2⟩ := halloc n hmem
    rw [hn] at hnd2; exact absurd hnd2 (by simp)
  obtain ⟨an, ha, hav, _, hrest⟩ := chain_at h pre post (a, av) none l.head_ hc
  simp only at ha
  have han : a ≠ n := by
    intro he; rw [he, hn] at ha; exact absurd ha (by simp)
  have hnd2 : ((pre ++ (a, av) :: (n, u) :: post).map Prod.fst).Nodup := by
    simp only [List.map_append, List.map_cons, List.mem_append, List.mem_cons, not_or]
      at hnd hnot ⊢
    rw [List.nodup_append] at hnd ⊢
    simp only [List.nodup_cons, List.mem_cons, not_or] at hnd ⊢
    refine ⟨hnd.1, ⟨⟨han, hnd.2.1.1⟩, hnot.2.2, hnd.2.1.2⟩, ?_⟩
    intro y hy1 hy2
    simp only [List.mem_cons] at hy2
    rcases hy2 with hy2 | hy2 | hy2
    · exact hnd.2.2 hy1 (by simp [hy2])
    · exact hnot.1 (hy2 ▸ hy1)
    · exact hnd.2.2 hy1 (by simp [hy2])
  have hpre_ne : ∀ y ∈ pre.map Prod.fst, y ≠ a ∧ y ≠ n := by
    intro y hy
    refine ⟨?_, ?_⟩
    · intro he
      rw [List.map_append, List.nodup_append] at hnd
      exact hnd.2.2 hy (by simp [he])
    · intro he
      exact hnot (by simp only [List.map_append, List.mem_append]; exact Or.inl (he ▸ hy))
  cases post with
  | nil =>
    have hnext : an.next_ = none := by simpa [chain] using hrest
    have htail : l.tail_ = some a := by rw [ht]; simp
    refine ⟨((h.write n ⟨u, none, none⟩).write n ⟨u, none, some a⟩).write n ⟨u, none, some a⟩
      |>.write a { an with next_ := some n }, { l with tail_ := some n }, ?_, ?_, ?_, hnd2⟩
    · simp [insert_after, set_prev, set_next, heap.write, ha, han, han.symm, hnext, htail]
    · refine chain_insert h _ pre [] a av n u an none l.head_ hc ?_ ha ?_ ?_ ?_
      · intro y hy
        obtain ⟨h1, h2⟩ := hpre_ne y hy
        simp [heap.write, h1, h2]
      · simp [heap.write]
      · simp [heap.write, han.symm, hnext]
      · intro x post1 hx; exact absurd hx (by simp)
    · simp
  | cons x post1 =>
    obtain ⟨xn, hx, hxc, _, _, _⟩ := chain_head h x post1 _ _ hrest
    have hxa : x.1 ≠ a := by
      intro he
      rw [List.map_append, List.nodup_append] at hnd
      simp only [List.map_cons, List.nodup_cons, List.mem_cons, not_or] at hnd
      exact hnd.2.1.1.1 he.symm
    have hxn : x.1 ≠ n := by
      intro he; rw [he, hn] at hx; exact absurd hx (by simp)
    have htail : l.tail_ ≠ some a := by
      rw [ht]
      intro he
      have hl : ((pre ++ (a, av) :: x :: post1).getLast?).map Prod.fst =
          ((x :: post1).getLast?).map Prod.fst := by
        rw [show pre ++ (a, av) :: x :: post1 = (pre ++ [(a, av)]) ++ x :: post1 by simp,
          List.getLast?_append_of_ne_nil _ (by simp)]
      rw [hl] at he
      cases hg : (x :: post1).getLast? with
      | none => simp at hg
      | some z =>
        rw [hg] at he
        simp only [Option.map_some', Option.some.injEq] at he
        have hz := List.mem_of_getLast?_eq_some hg
        rw [List.map_append, List.nodup_append] at hnd
        simp only [List.map_cons, List.nodup_cons] at hnd
        exact hnd.2.1.1 (by
          rw [← he]
          exact List.mem_map_of_mem Prod.fst hz)
    refine ⟨(((h.write n ⟨u, none, none⟩).write n ⟨u, none, some a⟩).write n
        ⟨u, some x.1, some a⟩ |>.write x.1 { xn with prev_ := some n }).write a
        { an with next_ := some n }, l, ?_, ?_, ?_, hnd2⟩
    · simp [insert_after, set_prev, set_next, heap.write, ha, han, han.symm, hxc, hx, hxa, hxn,
        hxa.symm, hxn.symm, Ne.symm htail]
    · refine chain_insert h _ pre (x :: post1) a av n u an none l.head_ hc ?_ ha ?_ ?_ ?_
      · intro y hy
        obtain ⟨h1, h2⟩ := hpre_ne y hy
        have h3 : y ≠ x.1 := by
          intro he
          rw [List.map_append, List.nodup_append] at hnd
          exact hnd.2.2 hy (by simp [he])
        simp [heap.write, h1, h2, h3]
      · simp [heap.write]
      · simp [heap.write, han.symm, hxn.symm, hxc]
      · intro x2 post2 hx2
        cases hx2
        refine ⟨⟨xn, hx, by simp [heap.write, hxa]⟩, ?_⟩
        intro y hy
        have h1 : y ≠ a := by
          intro he
          rw [List.map_append, List.nodup_append] at hnd
          simp only [List.map_cons, List.nodup_cons, List.mem_cons, not_or] at hnd
          exact hnd.2.1.1.2 (he ▸ hy)
        have h2 : y ≠ n := by
          intro he
          exact hnot (by
            simp only [List.map_append, List.map_cons, List.mem_append, List.mem_cons]
            exact Or.inr (Or.inr (Or.inr (he ▸ hy))))
        have h3 : y ≠ x.1 := by
          intro he
          rw [List.map_append, List.nodup_append] at hnd
          simp only [List.map_cons, List.nodup_cons] at hnd
          exact hnd.2.1.2.1 (he ▸ hy)
        simp [heap.write, h1, h2, h3]
    · rw [ht]
      rw [show pre ++ (a, av) :: x :: post1 = (pre ++ [(a, av)]) ++ x :: post1 by simp,
        List.getLast?_append_of_ne_nil _ (by simp),
        show pre ++ (a, av) :: (n, u) :: x :: post1 = (pre ++ [(a, av), (n, u)]) ++ x :: post1
          by simp,
        List.getLast?_append_of_ne_nil _ (by simp)]


theorem nodup_split (pre post : List (Nat × T)) (a : Nat × T)
    (hnd : ((pre ++ a :: post).map Prod.fst).Nodup) :
    (pre.map Prod.fst).Nodup ∧ (post.map Prod.fst).Nodup ∧
    (∀ y ∈ pre.map Prod.fst, y ≠ a.1) ∧ (∀ y ∈ post.map Prod.fst, y ≠ a.1) ∧
    (∀ y ∈ pre.map Prod.fst, ∀ z ∈ post.map Prod.fst, y ≠ z) := by
  rw [List.map_append, List.nodup_append] at hnd
  simp only [List.map_cons, List.nodup_cons] at hnd
  refine ⟨hnd.1, hnd.2.1.2, ?_, ?_, ?_⟩
  · intro y hy he
    exact hnd.2.2 hy (by simp [he])
  · intro y hy he
    exact hnd.2.1.1 (he ▸ hy)
  · intro y hy z hz he
    exact hnd.2.2 hy (by simp only [List.mem_cons]; exact Or.inr (he ▸ hz))

theorem free_other (h : heap T) (a b : Nat) (hne : b ≠ a) : (free h a) b = h b := by
  simp [free, hne]

theorem insert_after_null_owns (h : heap T) (l : linked_list) (n : Nat) (u : T)
    (hown : owns h l []) :
    ∃ h2 l2, insert_after h l none n u = some (h2, l2, n) ∧ owns h2 l2 [(n, u)] := by
  obtain ⟨hc, ht, _⟩ := hown
  simp only [chain] at hc
  simp only [List.getLast?_nil, Option.map_none'] at ht
  refine ⟨h.write n ⟨u, none, none⟩, ⟨some n, some n⟩, ?_, ?_, ?_, ?_⟩
  · simp [insert_after, hc, ht]
  · simp [chain, heap.write]
  · simp
  · simp

theorem insert_before_null_owns (h : heap T) (l : linked_list) (n : Nat) (u : T)
    (hown : owns h l []) :
    ∃ h2 l2, insert_before h l none n u = some (h2, l2, n) ∧ owns h2 l2 [(n, u)] := by
  obtain ⟨hc, ht, _⟩ := hown
  simp only [chain] at hc
  simp only [List.getLast?_nil, Option.map_none'] at ht
  refine ⟨h.write n ⟨u, none, none⟩, ⟨some n, some n⟩, ?_, ?_, ?_, ?_⟩
  · simp [insert_before, hc, ht]
  · simp [chain, heap.write]
  · simp
  · simp

theorem insert_before_owns (h : heap T) (l : linked_list) (pre post : List (Nat × T))
    (b : Nat) (bv : T) (n : Nat) (u : T)
    (hown : owns h l (pre ++ (b, bv) :: post)) (hn : h n = none) :
    ∃ h2 l2, insert_before h l (some b) n u = some (h2, l2, n) ∧
      owns h2 l2 (pre ++ (n, u) :: (b, bv) :: post) := by
  obtain ⟨hc, ht, hnd⟩ := hown
  have halloc := chain_alloc h _ _ _ hc
  have hnot : n ∉ (pre ++ (b, bv) :: post).map Prod.fst := by
    intro hmem
    obtain ⟨nd, hnd2⟩ := halloc n hmem
    rw [hn] at hnd2; exact absurd hnd2 (by simp)
  obtain ⟨bn, hb, hbv, hbp, hrest⟩ := chain_at h pre post (b, bv) none l.head_ hc
  simp only at hb
  have hbn : b ≠ n := by
    intro he; rw [he, hn] at hb; exact absurd hb (by simp)
  obtain ⟨_, _, hpre_b, hpost_b, hpp⟩ := nodup_split pre post (b, bv) hnd
  simp only at hpre_b hpost_b
  have hnot_pre : ∀ y ∈ pre.map Prod.fst, y ≠ n := fun y hy he =>
    hnot (by simp only [List.map_append, List.mem_append]; exact Or.inl (he ▸ hy))
  have hnot_post : ∀ y ∈ post.map Prod.fst, y ≠ n := fun y hy he =>
    hnot (by
      simp only [List.map_append, List.map_cons, List.mem_append, List.mem_cons]
      exact Or.inr (Or.inr (he ▸ hy)))
  have hnd2 : ((pre ++ (n, u) :: (b, bv) :: post).map Prod.fst).Nodup := by
    rw [List.map_append, List.nodup_append] at hnd ⊢
    simp only [List.map_cons, List.nodup_cons, List.mem_cons, not_or] at hnd ⊢
    refine ⟨hnd.1, ⟨⟨hbn.symm, fun hm => hnot_post n hm rfl⟩, hnd.2.1⟩, ?_⟩
    intro y hy1 hy2
    simp only [List.mem_cons] at hy2
    rcases hy2 with hy2 | hy2 | hy2
    · exact hnot_pre y hy1 hy2
    · exact hpre_b y hy1 hy2
    · exact hpp y hy1 y hy2 rfl
  rcases List.eq_nil_or_concat pre with hp0 | ⟨pre1, q, hp1⟩
  · -- `before` is the head
    subst hp0
    simp only [List.getLast?_nil] at hbp
    have hhead : l.head_ = some b := by
      have := chain_next h _ _ _ hc
      simpa using this
    refine ⟨((h.write n ⟨u, none, none⟩).write n ⟨u, some b, none⟩).write n ⟨u, some b, none⟩
      |>.write b { bn with prev_ := some n }, { l with head_ := some n }, ?_, ?_, ?_, hnd2⟩
    · simp [insert_before, set_prev, set_next, heap.write, hb, hbn, hbn.symm, hbp, hhead]
    · refine chain_insert_front h _ post b bv n u bn none l.head_ hc hb ?_ ?_ ?_
      · simp [heap.write]
      · simp [heap.write, hbn.symm]
      · intro y hy
        simp [heap.write, hpost_b y hy, hnot_post y hy]
    · rw [ht]
      simp only [List.nil_append]
      rw [List.getLast?_cons_cons]
  · -- `before` has a predecessor `q`
    rw [List.concat_eq_append] at hp1
    subst hp1
    obtain ⟨q, qv⟩ := q
    simp only [List.getLast?_concat] at hbp
    have hc2 : chain h none l.head_ (pre1 ++ (q, qv) :: (b, bv) :: post) := by
      simpa using hc
    obtain ⟨qn, hq, _, _, hqrest⟩ := chain_at h pre1 ((b, bv) :: post) (q, qv) none l.head_ hc2
    simp only at hq
    have hqnext : qn.next_ = some b := by
      have := chain_next h _ _ _ hqrest
      simpa using this
    have hqb : q ≠ b := hpre_b q (by simp)
    have hqn : q ≠ n := hnot_pre q (by simp)
    have hhead : l.head_ ≠ some b := by
      have := chain_next h _ _ _ hc2
      rw [this]
      intro he
      cases pre1 with
      | nil =>
        simp only [List.nil_append, List.head?_cons, Option.map_some', Option.some.injEq] at he
        exact hqb he
      | cons z pre2 =>
        simp only [List.cons_append, List.head?_cons, Option.map_some', Option.some.injEq] at he
        exact hpre_b z.1 (by simp) he
    refine ⟨(((h.write n ⟨u, none, none⟩).write n ⟨u, some b, none⟩).write n
        ⟨u, some b, some q⟩ |>.write q { qn with next_ := some n }).write b
        { bn with prev_ := some n }, l, ?_, ?_, ?_, hnd2⟩
    · simp [insert_before, set_prev, set_next, heap.write, hb, hbn, hbn.symm, hbp, hq, hqb,
        hqb.symm, hqn, hqn.symm, Ne.symm hhead]
    · have hgoal : pre1 ++ [(q, qv)] ++ (n, u) :: (b, bv) :: post =
          pre1 ++ (q, qv) :: (n, u) :: (b, bv) :: post := by simp
      rw [hgoal]
      refine chain_insert h _ pre1 ((b, bv) :: post) q qv n u qn none l.head_ hc2 ?_ hq ?_ ?_ ?_
      · intro y hy
        have hy2 : y ∈ (pre1 ++ [(q, qv)]).map Prod.fst := by
          simp only [List.map_append, List.mem_append]; exact Or.inl hy
        have h1 : y ≠ b := hpre_b y hy2
        have h2 : y ≠ n := hnot_pre y hy2
        have h3 : y ≠ q := by
          intro he
          have := (nodup_split pre1 ((b, bv) :: post) (q, qv) (by simpa using hnd)).2.2.1 y hy
          exact this he
        simp [heap.write, h1, h2, h3]
      · simp [heap.write, hqb]
      · simp [heap.write, hqn.symm, hbn.symm, hqnext]
      · intro x post1 hx
        cases hx
        refine ⟨⟨bn, hb, by simp [heap.write]⟩, ?_⟩
        intro y hy
        have h1 : y ≠ b := hpost_b y hy
        have h2 : y ≠ n := hnot_post y hy
        have h3 : y ≠ q := fun he => hpp q (by simp) y hy he.symm
        simp [heap.write, h1, h2, h3]
    · rw [ht]
      rw [show pre1 ++ [(q, qv)] ++ (b, bv) :: post = (pre1 ++ [(q, qv)]) ++ (b, bv) :: post
          by simp,
        List.getLast?_append_of_ne_nil _ (by simp),
        show pre1 ++ [(q, qv)] ++ (n, u) :: (b, bv) :: post =
          (pre1 ++ [(q, qv), (n, u)]) ++ (b, bv) :: post by simp,
        List.getLast?_append_of_ne_nil _ (by simp)]


theorem remove_owns (h : heap T) (l : linked_list) (pre post : List (Nat × T))
    (a : Nat) (av : T) (hown : owns h l (pre ++ (a, av) :: post)) :
    ∃ h2 l2, remove h l a = some (h2, l2) ∧ owns h2 l2 (pre ++ post) ∧ h2 a = none := by
  obtain ⟨hc, ht, hnd⟩ := hown
  obtain ⟨an, ha, hav, hap, hrest⟩ := chain_at h pre post (a, av) none l.head_ hc
  simp only at ha
  obtain ⟨hnd_pre, hnd_post, hpre_a, hpost_a, hpp⟩ := nodup_split pre post (a, av) hnd
  simp only at hpre_a hpost_a
  have hnd2 : ((pre ++ post).map Prod.fst).Nodup := by
    rw [List.map_append, List.nodup_append]
    exact ⟨hnd_pre, hnd_post, fun y hy1 hy2 => hpp y hy1 y hy2 rfl⟩
  have hnext := chain_next h _ _ _ hrest
  have hhead0 := chain_next h _ _ _ hc
  rcases List.eq_nil_or_concat pre with hp0 | ⟨pre1, q, hp1⟩
  · -- `that` is the head
    subst hp0
    simp only [List.getLast?_nil] at hap
    have hhead : l.head_ = some a := by simpa using hhead0
    cases post with
    | nil =>
      have hn0 : an.next_ = none := by simpa using hnext
      have htail : l.tail_ = some a := by rw [ht]; simp
      refine ⟨free h a, ⟨none, none⟩, ?_, ⟨?_, ?_, hnd2⟩, by simp [free]⟩
      · simp [remove, ha, hhead, htail, hap, hn0]
      · simp [chain]
      · simp
    | cons x post1 =>
      have hn0 : an.next_ = some x.1 := by simpa using hnext
      obtain ⟨xn, hx, _⟩ := chain_head h x post1 _ _ hrest
      have hxa : x.1 ≠ a := hpost_a x.1 (by simp)
      have htail : l.tail_ ≠ some a := by
        rw [ht]
        intro he
        simp only [List.nil_append, List.getLast?_cons_cons] at he
        cases hg : (x :: post1).getLast? with
        | none => simp at hg
        | some z =>
          rw [hg] at he
          simp only [Option.map_some', Option.some.injEq] at he
          exact hpost_a z.1 (List.mem_map_of_mem Prod.fst (List.mem_of_getLast?_eq_some hg)) he
      refine ⟨free (h.write x.1 { xn with prev_ := none }) a, { l with head_ := some x.1 },
        ?_, ⟨?_, ?_, hnd2⟩, by simp [free]⟩
      · simp [remove, ha, hhead, hap, hn0, set_prev, hx, heap.write, hxa.symm, Ne.symm htail]
      · have := chain_remove_front h (free (h.write x.1 { xn with prev_ := none }) a)
          (x :: post1) a av an none l.head_ hc ha (by
            intro x2 post2 hx2
            cases hx2
            refine ⟨⟨xn, hx, by simp [free, heap.write, hxa]⟩, ?_⟩
            intro y hy
            have h1 : y ≠ a := hpost_a y (by simp only [List.map_cons, List.mem_cons]; exact Or.inr hy)
            have h2 : y ≠ x.1 := by
              intro he
              simp only [List.map_cons, List.nodup_cons] at hnd_post
              exact hnd_post.1 (he ▸ hy)
            simp [free, heap.write, h1, h2])
        rw [hn0] at this
        simpa using this
      · rw [ht]; simp only [List.nil_append, List.getLast?_cons_cons]
  · -- `that` has a predecessor `q`
    rw [List.concat_eq_append] at hp1
    subst hp1
    obtain ⟨q, qv⟩ := q
    simp only [List.getLast?_concat] at hap
    have hc2 : chain h none l.head_ (pre1 ++ (q, qv) :: (a, av) :: post) := by
      simpa using hc
    obtain ⟨qn, hq, _, _, _⟩ := chain_at h pre1 ((a, av) :: post) (q, qv) none l.head_ hc2
    simp only at hq
    have hqa : q ≠ a := hpre_a q (by simp)
    have hhead : l.head_ ≠ some a := by
      rw [chain_next h _ _ _ hc2]
      intro he
      cases pre1 with
      | nil =>
        simp only [List.nil_append, List.head?_cons, Option.map_some', Option.some.injEq] at he
        exact hqa he
      | cons z pre2 =>
        simp only [List.cons_append, List.head?_cons, Option.map_some', Option.some.injEq] at he
        exact hpre_a z.1 (by simp) he
    have hpre1 : ∀ y ∈ pre1.map Prod.fst, y ≠ a ∧ y ≠ q := by
      intro y hy
      refine ⟨hpre_a y (by simp only [List.map_append, List.mem_append]; exact Or.inl hy), ?_⟩
      exact (nodup_split pre1 ((a, av) :: post) (q, qv) (by simpa using hnd)).2.2.1 y hy
    cases post with
    | nil =>
      have hn0 : an.next_ = none := by simpa using hnext
      have htail : l.tail_ = some a := by rw [ht]; simp
      refine ⟨free (h.write q { qn with next_ := none }) a, { l with tail_ := some q },
        ?_, ⟨?_, ?_, hnd2⟩, by simp [free]⟩
      · simp [remove, ha, hap, hn0, set_next, hq, heap.write, hqa.symm, htail, Ne.symm hhead]
      · have := chain_remove h (free (h.write q { qn with next_ := none }) a) pre1 [] q qv a av
          qn an none l.head_ hc2 (by
            intro y hy
            obtain ⟨h1, h2⟩ := hpre1 y hy
            simp [free, heap.write, h1, h2]) hq (by simp [free, heap.write, hqa, hn0]) ha
          (by intro x post1 hx; exact absurd hx (by simp))
        simpa using this
      · simp
    | cons x post1 =>
      have hn0 : an.next_ = some x.1 := by simpa using hnext
      obtain ⟨xn, hx, _⟩ := chain_head h x post1 _ _ hrest
      have hxa : x.1 ≠ a := hpost_a x.1 (by simp)
      have hxq : x.1 ≠ q := fun he => hpp q (by simp) x.1 (by simp) he.symm
      have htail : l.tail_ ≠ some a := by
        rw [ht]
        intro he
        rw [show pre1 ++ [(q, qv)] ++ (a, av) :: x :: post1 =
            (pre1 ++ [(q, qv), (a, av)]) ++ x :: post1 by simp,
          List.getLast?_append_of_ne_nil _ (by simp)] at he
        cases hg : (x :: post1).getLast? with
        | none => simp at hg
        | some z =>
          rw [hg] at he
          simp only [Option.map_some', Option.some.injEq] at he
          exact hpost_a z.1 (List.mem_map_of_mem Prod.fst (List.mem_of_getLast?_eq_some hg)) he
      refine ⟨free ((h.write q { qn with next_ := some x.1 }).write x.1
          { xn with prev_ := some q }) a, l, ?_, ⟨?_, ?_, hnd2⟩, by simp [free]⟩
      · simp [remove, ha, hap, hn0, set_next, set_prev, hq, hx, heap.write, hqa.symm, hxa.symm,
          hxq, hxq.symm, Ne.symm htail, Ne.symm hhead]
      · have := chain_remove h (free ((h.write q { qn with next_ := some x.1 }).write x.1
            { xn with prev_ := some q }) a) pre1 (x :: post1) q qv a av
          qn an none l.head_ hc2 (by
            intro y hy
            obtain ⟨h1, h2⟩ := hpre1 y hy
            have h3 : y ≠ x.1 := fun he => hpp y (by
              simp only [List.map_append, List.mem_append]; exact Or.inl hy) x.1 (by simp) he
            simp [free, heap.write, h1, h2, h3]) hq
          (by simp [free, heap.write, hqa, hxq.symm, hn0]) ha
          (by
            intro x2 post2 hx2
            cases hx2
            refine ⟨⟨xn, hx, by simp [free, heap.write, hxa]⟩, ?_⟩
            intro y hy
            have hy2 : y ∈ (x :: post1).map Prod.fst := by
              simp only [List.map_cons, List.mem_cons]; exact Or.inr hy
            have h1 : y ≠ a := hpost_a y hy2
            have h2 : y ≠ x.1 := by
              intro he
              simp only [List.map_cons, List.nodup_cons] at hnd_post
              exact hnd_post.1 (he ▸ hy)
            have h3 : y ≠ q := fun he => hpp q (by simp) y hy2 he.symm
            simp [free, heap.write, h1, h2, h3])
        simpa using this
      · rw [ht]
        rw [show pre1 ++ [(q, qv)] ++ (a, av) :: x :: post1 =
            (pre1 ++ [(q, qv), (a, av)]) ++ x :: post1 by simp,
          List.getLast?_append_of_ne_nil _ (by simp),
          show pre1 ++ [(q, qv)] ++ x :: post1 = (pre1 ++ [(q, qv)]) ++ x :: post1 by simp,
          List.getLast?_append_of_ne_nil _ (by simp)]

/-- C21: a list that is well formed on the node sequence `cells` (the chain from
`head_` is `cells` with every `prev_` and `next_` link matching, the head has no
predecessor and the tail no successor, `tail_` is the last node, both pointers
are null exactly for the empty sequence, and no node occurs twice) is well
formed again after every mutating operation, and the node sequence changes only
by the part concerned: `insert_after` and `insert_before` (with an anchor of the
list, or the null anchor on the empty list) put the new node right behind or
right in front of the anchor, `remove` of a node of the list takes that node out
and releases it, and `splice_in` of a second well-formed list on other nodes
leaves the nodes of both lists in order in the receiver and the argument empty. -/
theorem well_formed_preserved (h : heap T) (l : linked_list) (cells : List (Nat × T))
    (hown : owns h l cells) :
    (l.head_ = none ↔ cells = []) ∧ (l.tail_ = none ↔ cells = []) ∧
    (∀ pre post a av n u, cells = pre ++ (a, av) :: post → h n = none →
      ∃ h2 l2, insert_after h l (some a) n u = some (h2, l2, n) ∧
        owns h2 l2 (pre ++ (a, av) :: (n, u) :: post)) ∧
    (∀ n u, cells = [] →
      ∃ h2 l2, insert_after h l none n u = some (h2, l2, n) ∧ owns h2 l2 [(n, u)]) ∧
    (∀ pre post b bv n u, cells = pre ++ (b, bv) :: post → h n = none →
      ∃ h2 l2, insert_before h l (some b) n u = some (h2, l2, n) ∧
        owns h2 l2 (pre ++ (n, u) :: (b, bv) :: post)) ∧
    (∀ n u, cells = [] →
      ∃ h2 l2, insert_before h l none n u = some (h2, l2, n) ∧ owns h2 l2 [(n, u)]) ∧
    (∀ pre post a av, cells = pre ++ (a, av) :: post →
      ∃ h2 l2, remove h l a = some (h2, l2) ∧ owns h2 l2 (pre ++ post) ∧ h2 a = none) ∧
    (∀ other bs, owns h other bs → (∀ a ∈ cells.map Prod.fst, a ∉ bs.map Prod.fst) →
      ∃ h2 l2 other2, splice_in h l other = some (h2, l2, other2) ∧
        owns h2 l2 (cells ++ bs) ∧ owns h2 other2 []) := by
  refine ⟨?_, ?_, ?_, ?_, ?_, ?_, ?_, ?_⟩
  · obtain ⟨hc, -, -⟩ := hown
    cases cells with
    | nil => simpa [chain] using hc
    | cons x rest =>
      obtain ⟨nd, -, hh, -⟩ := chain_head h x rest none l.head_ hc
      simp [hh]
  · obtain ⟨-, ht, -⟩ := hown
    cases cells with
    | nil => simpa using ht
    | cons x rest =>
      rw [ht]
      cases hg : (x :: rest).getLast? with
      | none => simp at hg
      | some q => simp
  · intro pre post a av n u hc hn
    subst hc
    exact insert_after_owns h l pre post a av n u hown hn
  · intro n u hc
    subst hc
    exact insert_after_null_owns h l n u hown
  · intro pre post b bv n u hc hn
    subst hc
    exact insert_before_owns h l pre post b bv n u hown hn
  · intro n u hc
    subst hc
    exact insert_before_null_owns h l n u hown
  · intro pre post a av hc
    subst hc
    exact remove_owns h l pre post a av hown
  · intro other bs hother hdisj
    obtain ⟨h2, l2, o2, h1, h3, h4, -, -⟩ := splice_in_owns h l other cells bs hown hother hdisj
    exact ⟨h2, l2, o2, h1, h3, h4⟩

/-- The statement of C21 on the list `a b` at the addresses 1 and 2: inserting
`x` at the fresh address 7 behind the node 1, and removing the node 2. -/
theorem well_formed_preserved_witness :
    (∃ h2 l2,
      insert_after
        (fun a => if a = 1 then some ⟨'a', some 2, none⟩
          else if a = 2 then some ⟨'b', none, some 1⟩ else none)
        ⟨some 1, some 2⟩ (some 1) 7 'x' = some (h2, l2, 7) ∧
      owns h2 l2 ([] ++ (1, 'a') :: (7, 'x') :: [(2, 'b')])) ∧
    (∃ h2 l2,
      remove
        (fun a => if a = 1 then some ⟨'a', some 2, none⟩
          else if a = 2 then some ⟨'b', none, some 1⟩ else none)
        ⟨some 1, some 2⟩ 2 = some (h2, l2) ∧
      owns h2 l2 ([(1, 'a')] ++ []) ∧ h2 2 = none) :=
  ⟨(well_formed_preserved
      (fun a => if a = 1 then some ⟨'a', some 2, none⟩
        else if a = 2 then some ⟨'b', none, some 1⟩ else none)
      ⟨some 1, some 2⟩ [(1, 'a'), (2, 'b')] (by simp [owns, chain])).2.2.1
      [] [(2, 'b')] 1 'a' 7 'x' rfl rfl,
   (well_formed_preserved
      (fun a => if a = 1 then some ⟨'a', some 2, none⟩
        else if a = 2 then some ⟨'b', none, some 1⟩ else none)
      ⟨some 1, some 2⟩ [(1, 'a'), (2, 'b')] (by simp [owns, chain])).2.2.2.2.2.2.1
      [(1, 'a')] [] 2 'b' rfl⟩

end linked_list

/-! ## The instruction `@` -/

theorem ll_item.do_parse_minus (acc : Int) :
    ll_item.into_number.do_parse ['-'] acc = acc * 10 := by
  simp [ll_item.into_number.do_parse]

/-- On a well-formed number `into_number` returns the integer it denotes. -/
theorem ll_item.into_number_eq_denote (x : ll_item) (hx : x.well_formed) :
    x.into_number = x.denote := by
  have hno : ∀ c ∈ x.digits, c ≠ '-' := fun c hc => ll_item.is_digit_ne_minus (hx c hc)
  rw [ll_item.denote_eq]
  unfold ll_item.into_number
  by_cases h : x.value_.getLast? = some '-'
  · rw [(ll_item.is_negative_iff x).2 h]
    simp only [if_true]
    rw [ll_item.value_of_negative x h, List.reverse_append, ll_item.do_parse_append]
    simp only [List.reverse_cons, List.reverse_nil, List.nil_append, ll_item.do_parse_minus,
      zero_mul]
    rw [ll_item.do_parse_reverse x.digits hno]
  · rw [(ll_item.is_negative_false_iff x).2 h]
    have hd : x.digits = x.value_ := by simp [ll_item.digits, h]
    simp only [Bool.false_eq_true, if_false]
    rw [← hd, ll_item.do_parse_reverse x.digits hno]

namespace cpu

theorem do_peek_eq_getElem? (l : List ll_item) (i : Nat) :
    ll_stack.peek.do_peek l i = l[i]? := by
  induction l generalizing i with
  | nil => simp [ll_stack.peek.do_peek]
  | cons x l ih =>
    cases i with
    | zero => simp [ll_stack.peek.do_peek]
    | succ i => simp [ll_stack.peek.do_peek, ih]

/-- C22: on a stack whose top is a well-formed number denoting `N`, with more
than `N` elements beneath it, the instruction `@` removes the top and pushes a
copy, element for element, of the element `N` positions below the new top; the
elements beneath and the depth are unchanged.  The number of elements is below
`2 ^ 64`, the range of the counter `depth_`. -/
theorem single_step_peek_index (c : cpu) (pc : Nat) (below : List ll_item) (top : ll_item)
    (N : Nat) (hp : c.program_[pc]? = some '@') (hs : c.stack_.ll_ = below ++ [top])
    (hd : c.stack_.depth_ = c.stack_.ll_.length)
    (hwf : top.well_formed) (hN : top.denote = N) (hlen : N < below.length)
    (hmem : below.length < 2 ^ 64) :
    ∃ v, below.reverse[N]? = some v ∧ ll_stack.peek ⟨below, c.stack_.depth_ - 1⟩ N = some v ∧
      v.copy.value_ = v.value_ ∧
      c.single_step pc =
        some ({ c with stack_ := ⟨below ++ [v.copy], c.stack_.depth_⟩ }, some (pc + 1)) := by
  obtain ⟨h1, h2⟩ := insn_at c pc _ hp
  have hpop := pop_snoc c.stack_ below top hs
  have hidx : into_size_t top = N := by
    unfold into_size_t
    rw [ll_item.into_number_eq_denote top hwf, hN]
    have : ((N : Int) % 2 ^ 64) = N := Int.emod_eq_of_lt (by omega) (by
      have : (N : Int) < (below.length : Int) := by exact_mod_cast hlen
      have : (below.length : Int) < 2 ^ 64 := by exact_mod_cast hmem
      omega)
    rw [this]; simp
  obtain ⟨v, hv⟩ : ∃ v, below.reverse[N]? = some v := by
    have : N < below.reverse.length := by simpa using hlen
    exact ⟨below.reverse[N], List.getElem?_eq_getElem this⟩
  have hpeek : ll_stack.peek ⟨below, c.stack_.depth_ - 1⟩ N = some v := by
    unfold ll_stack.peek
    rw [do_peek_eq_getElem?]; exact hv
  have hdepth : c.stack_.depth_ - 1 + 1 = c.stack_.depth_ := by
    rw [hd, hs]; simp
  refine ⟨v, hv, hpeek, rfl, ?_⟩
  unfold single_step
  rw [if_neg h1]
  simp only [h2]
  rw [if_neg (by decide)]
  simp [hpop, hidx, hpeek, ll_stack.push, hdepth]

/-- The statement of C22 on the stack `7 8 9 1` (top last) with the index `1`. -/
theorem single_step_peek_index_witness :
    ∃ v, [ll_item.mk ['7'], ⟨['8']⟩, ⟨['9']⟩].reverse[1]? = some v ∧
      ll_stack.peek ⟨[⟨['7']⟩, ⟨['8']⟩, ⟨['9']⟩], 4 - 1⟩ 1 = some v ∧
      v.copy.value_ = v.value_ ∧
      (cpu.mk ⟨[⟨['7']⟩, ⟨['8']⟩, ⟨['9']⟩, ⟨['1']⟩], 4⟩ ['@'] [] []).single_step 0 =
        some ({ cpu.mk ⟨[⟨['7']⟩, ⟨['8']⟩, ⟨['9']⟩, ⟨['1']⟩], 4⟩ ['@'] [] [] with
          stack_ := ⟨[⟨['7']⟩, ⟨['8']⟩, ⟨['9']⟩] ++ [v.copy], 4⟩ }, some (0 + 1)) :=
  single_step_peek_index (cpu.mk ⟨[⟨['7']⟩, ⟨['8']⟩, ⟨['9']⟩, ⟨['1']⟩], 4⟩ ['@'] [] []) 0
    [⟨['7']⟩, ⟨['8']⟩, ⟨['9']⟩] ⟨['1']⟩ 1 rfl rfl rfl (by decide) (by decide) (by decide)
    (by decide)

end cpu

end pr1
